import Mathlib

/-!
# rabit: the basic Allreduce engine (`src/allreduce_base.cc`)

A shallow embedding of `AllreduceBase` and of the collectives it implements
(`TryAllreduce`, `TryBroadcast`, `TryExecLoop`, `SetParam`, `LoopStatus::Reducer`, the
topology derivation of `ReConnectLinks`),
followed by the theorems that relate the written specification to the code.

Conventions of the embedding.

* Memory is a list of bytes (`List Nat`); a pointer plus a length is a `slice`.
* `size_t` values are natural numbers; where the source can wrap (64-bit
  arithmetic in `SetParam`, `LoopStatus`, the product `type_nbytes * count`, the
  narrowing `static_cast<int>`) the wrap is written out.
* The operating system is an explicit environment: one `Wake` per return of
  `select`, giving for every link the readiness bits and the outcome of the one
  `recv` and the one `send` the engine may issue on that link in that iteration.
* A collective that is still blocked when the environment is exhausted has not
  returned: the result is `none`.
* `utils::Assert` / `utils::Check` / `utils::Error` failures abort the call with the
  message of the failed check (`Exit.aborted`).
-/

set_option autoImplicit false

namespace rabit
namespace engine

/-! ## Bytes -/

/-- The `len` bytes starting at offset `pos`: the memory a call receives as `p + pos, len`. -/
def slice (xs : List Nat) (pos len : Nat) : List Nat :=
  (xs.drop pos).take len

/-- Store `data` at offset `pos` of the buffer `xs`. -/
def writeAt (xs : List Nat) (pos : Nat) (data : List Nat) : List Nat :=
  xs.take pos ++ data ++ xs.drop (pos + data.length)

/-- Element `e` of a buffer of `tn`-byte elements. -/
def elemAt (tn : Nat) (xs : List Nat) (e : Nat) : List Nat :=
  slice xs (e * tn) tn

/-- Store `data` in a circular buffer of `B` bytes, the first byte at stream position `pos`. -/
def ringWrite (B : Nat) : List Nat → Nat → List Nat → List Nat
  | ring, _, [] => ring
  | ring, pos, b :: bs => ringWrite B (ring.set (pos % B) b) (pos + 1) bs

/-- The C++ conversion `static_cast<int>(n)` of a `size_t` (32-bit two's complement). -/
def static_cast_int (n : Nat) : Int :=
  if n % 2 ^ 32 < 2 ^ 31 then ((n % 2 ^ 32 : Nat) : Int) else ((n % 2 ^ 32 : Nat) : Int) - 2 ^ 32

/-! ## Return classification and aborts -/

/-- Modelled from the spec: the enumeration `ReturnType` is declared in `allreduce_base.h`,
which is not part of the sources; the spec (4.A, 7) lists the classifications `Success`,
`RecvZeroLen`, `SockError` and `GetExcept` (a would-block is "not an error" and is reported
as `kSuccess` by `Errno2Return`). -/
inductive ReturnType
  | kSuccess
  | kRecvZeroLen
  | kSockError
  | kGetExcept
  deriving DecidableEq, Repr

/-- The checks of the source whose failure aborts the call. -/
inductive AssertMsg
  /-- utils::Assert "buffer size inconsistent" -/
  | buffer_size_inconsistent
  /-- utils::Assert "must assign buffer_size" -/
  | must_assign_buffer_size
  /-- utils::Assert "Allreduce: size check" -/
  | allreduce_size_check
  /-- utils::Assert "Allreduce: boundary error" -/
  | allreduce_boundary_error
  /-- utils::Check "Broadcast: root should be smaller than world size" -/
  | broadcast_root_check
  /-- utils::Error "invalid format for reduce buffer" -/
  | invalid_reduce_buffer_unit
  /-- utils::Error "invalid format for reduce_buffer, shhould be ..." -/
  | invalid_reduce_buffer_format
  /-- utils::Assert "ReConnectLink: bad socket" -/
  | reconnect_bad_socket
  /-- utils::Assert "cannot find parent in the link" -/
  | cannot_find_parent
  /-- utils::Assert "cannot find prev ring in the link" -/
  | cannot_find_prev_ring
  /-- utils::Assert "cannot find next ring in the link" -/
  | cannot_find_next_ring
  deriving DecidableEq, Repr

/-- How a call ends: it returns a classification, or a check aborts it. -/
inductive Exit
  | returned (r : ReturnType)
  | aborted (msg : AssertMsg)
  deriving DecidableEq, Repr

/-- The system's `EAGAIN` / `EWOULDBLOCK`. -/
def EAGAIN : Nat := 11

/-- Modelled from the spec: `Errno2Return` is defined in `allreduce_base.h`. Spec 7: a
would-block is not an error (the caller retries via the selector); any other errno is a
fatal socket condition, `SockError`. -/
def Errno2Return (errsv : Nat) : ReturnType :=
  if errsv = EAGAIN then ReturnType.kSuccess else ReturnType.kSockError

/-! ## The environment -/

/-- What `sock.Recv(p, n)` does: it delivers the first `n` of some bytes (none at all is the
zero return of an orderly shutdown), or fails with `-1` and an errno. -/
inductive RecvResult
  | data (bytes : List Nat)
  | error (errno : Nat)
  deriving DecidableEq, Repr

/-- What `sock.Send(p, n)` does: it accepts `min n accepted` bytes, or fails with `-1` and an
errno. -/
inductive SendResult
  | accepted (n : Nat)
  | error (errno : Nat)
  deriving DecidableEq, Repr

/-- What one return of `select` holds for one link. -/
structure LinkEvent where
  /-- out-of-band data is pending -/
  except_ready : Bool
  /-- the socket is readable -/
  read_ready : Bool
  /-- the outcome of a `recv` on the link in this iteration -/
  recv : RecvResult
  /-- the outcome of a `send` on the link in this iteration -/
  send : SendResult
  deriving DecidableEq, Repr

/-- One return of `select`: an event for every link, by position in `tree_links`. -/
abbrev Wake := Nat → LinkEvent

/-! ## Links -/

/-- A TCP socket: only whether it has been closed. -/
structure TCPSocket where
  closed : Bool
  deriving DecidableEq, Repr

/-- Modelled from the spec: `LinkRecord` is declared in `allreduce_base.h`. Spec 3: a link
carries a socket, the cursors `size_read` and `size_write`, and a ring buffer. `rx` and `tx`
are the transcript of the link since the last `ResetSize`: the bytes received from the peer
and the bytes sent to it, in order. -/
structure LinkRecord where
  sock : TCPSocket
  rank : Int
  size_read : Nat
  size_write : Nat
  buffer_head : List Nat
  buffer_size : Nat
  rx : List Nat
  tx : List Nat
  deriving DecidableEq, Repr

namespace LinkRecord

/-- Modelled from the spec: `InitBuffer` is defined in `allreduce_base.h`. Spec 4.A:
allocates/retains a ring buffer, idempotent when the size would not change. The size it
settles on is the parameter `ring_size type_nbytes count target_bytes`. -/
def InitBuffer (ring_size : Nat → Nat → Nat → Nat) (l : LinkRecord)
    (type_nbytes count reduce_buffer_size : Nat) : LinkRecord :=
  let n := ring_size type_nbytes count reduce_buffer_size
  if l.buffer_size = n ∧ l.buffer_head.length = n then l
  else { l with buffer_head := List.replicate n 0, buffer_size := n }

/-- Modelled from the spec: `ResetSize` is defined in `allreduce_base.h`. Spec 4.A: zeros
`size_read` and `size_write` (and so starts a new transcript). -/
def ResetSize (l : LinkRecord) : LinkRecord :=
  { l with size_read := 0, size_write := 0, rx := [], tx := [] }

/-- Modelled from the spec: `ReadToRingBuffer` is defined in `allreduce_base.h`. Spec 4.A:
reads what the socket yields in one non-blocking call into the circular region
`[size_read, size_read + capacity - (size_read - min_consumed))` and advances `size_read`;
the outcome is classified. With no room left nothing is read. -/
def ReadToRingBuffer (l : LinkRecord) (protect_start : Nat) (ev : LinkEvent) :
    ReturnType × LinkRecord :=
  let ngap := l.size_read - protect_start
  let nmax := l.buffer_size - ngap
  if nmax = 0 then (ReturnType.kSuccess, l)
  else
    match ev.recv with
    | RecvResult.error e => (Errno2Return e, l)
    | RecvResult.data bytes =>
      let got := bytes.take nmax
      if got.length = 0 then (ReturnType.kRecvZeroLen, l)
      else
        (ReturnType.kSuccess,
          { l with
            buffer_head := ringWrite l.buffer_size l.buffer_head l.size_read got
            size_read := l.size_read + got.length
            rx := l.rx ++ got })

/-- Modelled from the spec: `ReadToArray` is defined in `allreduce_base.h`. Spec 4.A: reads
into `dst[size_read..total]` up to what the socket yields and advances `size_read`. Returns
the classification, the link and the array. -/
def ReadToArray (l : LinkRecord) (dst : List Nat) (total : Nat) (ev : LinkEvent) :
    ReturnType × LinkRecord × List Nat :=
  if total - l.size_read = 0 then (ReturnType.kSuccess, l, dst)
  else
    match ev.recv with
    | RecvResult.error e => (Errno2Return e, l, dst)
    | RecvResult.data bytes =>
      let got := bytes.take (total - l.size_read)
      if got.length = 0 then (ReturnType.kRecvZeroLen, l, dst)
      else
        (ReturnType.kSuccess,
          { l with size_read := l.size_read + got.length, rx := l.rx ++ got },
          writeAt dst l.size_read got)

/-- Modelled from the spec: `WriteFromArray` is defined in `allreduce_base.h`. Spec 4.A:
writes `src[size_write..upto]` up to what the socket accepts and advances `size_write`. -/
def WriteFromArray (l : LinkRecord) (src : List Nat) (upto : Nat) (ev : LinkEvent) :
    ReturnType × LinkRecord :=
  match ev.send with
  | SendResult.error e => (Errno2Return e, l)
  | SendResult.accepted n =>
    let out := slice src l.size_write (min n (upto - l.size_write))
    (ReturnType.kSuccess,
      { l with size_write := l.size_write + out.length, tx := l.tx ++ out })

end LinkRecord

/-- The body of `for (int i = 0; i < nlink; ++i)` over the link vector when it updates
`links[i]` and returns from the function on the first classification other than `kSuccess`:
the result is the failed position with its classification (if any) and the links. -/
def forLinks (f : Nat → LinkRecord → ReturnType × LinkRecord) :
    Nat → List LinkRecord → Option (Nat × ReturnType) × List LinkRecord
  | _, [] => (none, [])
  | i, l :: ls =>
    if (f i l).1 = ReturnType.kSuccess then
      ((forLinks f (i + 1) ls).1, (f i l).2 :: (forLinks f (i + 1) ls).2)
    else (some (i, (f i l).1), (f i l).2 :: ls)

/-- The links at positions other than `parent_index`, in link order (positions count
from `i`). -/
def childLinks (parent_index : Int) : Nat → List LinkRecord → List LinkRecord
  | _, [] => []
  | i, l :: ls =>
    if (i : Int) ≠ parent_index then l :: childLinks parent_index (i + 1) ls
    else childLinks parent_index (i + 1) ls

/-! ## The readiness selector -/

/-- Modelled from the spec: `utils::SelectHelper` is declared outside the sources. Spec 4.B:
a wait set built per iteration; a socket is enrolled as watch-read, watch-write and/or
watch-exception and, after the wake, `Check*` answers for the enrolled sockets. A socket is
named by the position of its link. -/
structure SelectHelper where
  read_set : List Nat
  write_set : List Nat
  except_set : List Nat
  deriving DecidableEq, Repr

namespace SelectHelper

/-- The empty wait set. -/
def empty : SelectHelper := ⟨[], [], []⟩

/-- Enrol `fd` for read readiness. -/
def WatchRead (s : SelectHelper) (fd : Nat) : SelectHelper :=
  { s with read_set := fd :: s.read_set }

/-- Enrol `fd` for write readiness. -/
def WatchWrite (s : SelectHelper) (fd : Nat) : SelectHelper :=
  { s with write_set := fd :: s.write_set }

/-- Enrol `fd` for exception readiness. -/
def WatchException (s : SelectHelper) (fd : Nat) : SelectHelper :=
  { s with except_set := fd :: s.except_set }

/-- After the wake `w`: is the enrolled socket `fd` readable? -/
def CheckRead (s : SelectHelper) (w : Wake) (fd : Nat) : Bool :=
  decide (fd ∈ s.read_set) && (w fd).read_ready

/-- After the wake `w`: has the enrolled socket `fd` out-of-band data? -/
def CheckExcept (s : SelectHelper) (w : Wake) (fd : Nat) : Bool :=
  decide (fd ∈ s.except_set) && (w fd).except_ready

end SelectHelper

/-! ## The preprocessing executor -/

/-- Modelled from the spec: `PreprocLoopExecutor` is declared in `allreduce_base.h`. Spec 9: a
bundle exposing `run()`, `run(step)`, `loop_end()` and `loop_counter`; `prepare_loop(arg,
begin, end)` produces the iterations `[begin, end)` of a task of `num_loop_iter` iterations.
`prepared` lists the ranges handed to `prepare_loop`, `run_calls` counts the calls of `Run`. -/
structure PreprocLoopExecutor where
  num_loop_iter : Nat
  loop_step : Nat
  loop_counter : Nat
  prepared : List (Nat × Nat)
  run_calls : Nat
  deriving DecidableEq, Repr

namespace PreprocLoopExecutor

/-- The call `Run(step)`: advance by `step` iterations, at most to the end of the task. -/
def RunStep (e : PreprocLoopExecutor) (step : Nat) : PreprocLoopExecutor :=
  let loop_end := min (e.loop_counter + step) e.num_loop_iter
  { e with
    loop_counter := loop_end
    prepared :=
      if e.loop_counter < loop_end then e.prepared ++ [(e.loop_counter, loop_end)]
      else e.prepared
    run_calls := e.run_calls + 1 }

/-- The call `Run()`: one quantum `loop_step`. -/
def Run (e : PreprocLoopExecutor) : PreprocLoopExecutor :=
  e.RunStep e.loop_step

/-- The call `LoopEnd()`. -/
def LoopEnd (e : PreprocLoopExecutor) : Bool :=
  decide (e.loop_counter = e.num_loop_iter)

end PreprocLoopExecutor

/-! ## The engine -/

/-- The fields of `AllreduceBase` the source reads and writes. `tree_links` is the vector
`tree_links.plinks` with its pointers followed; `err_link` is the position in `tree_links`
of the link `ReportError` recorded. -/
structure AllreduceBase where
  tracker_uri : String
  tracker_port : Int
  host_uri : String
  slave_port : Int
  nport_trial : Int
  rank : Int
  world_size : Int
  hadoop_mode : Int
  version_number : Int
  task_id : String
  err_link : Option Nat
  reduce_buffer_size : Nat
  approx_run_step : ℚ
  approx_check_step : ℚ
  approx_check_min_step : ℚ
  parent_index : Int
  parent_rank : Int
  tree_links : List LinkRecord

/-- The signature `ReduceFunction`: `reducer src dst len dtype` is the contents of `dst`
after the call `reducer(src, dst, len, MPI::Datatype(dtype))`. -/
abbrev ReduceFunction := List Nat → List Nat → Int → Nat → List Nat

/-- What a step of a loop (or a phase of a step) yields: the loop goes on, or the function
returns or aborts (`stop`, with the link handed to `ReportError`), or the execution has left
defined behaviour (an access outside the link vector, an inner loop that cannot end). -/
inductive Step (σ : Type)
  | next (s : σ)
  | stop (e : Exit) (err_link : Option Nat) (s : σ)
  | undefined

/-- Modelled from the spec: `ReportError` is defined in `allreduce_base.h`. Spec 7: a fault
ends the collective "returning the faulted link and the classification to the caller". The
statement `return ReportError(&links[link], err)` records the link in `err_link` and returns
`err` as it is. -/
abbrev ReportError {σ : Type} (link : Nat) (err : ReturnType) (s : σ) : Step σ :=
  Step.stop (Exit.returned err) (some link) s

/-- Sequencing of two phases: the second runs on the state the first leaves, unless the
first ended the function. -/
def Step.andThen {σ : Type} (r : Step σ) (f : σ → Step σ) : Step σ :=
  match r with
  | Step.next s => f s
  | Step.stop e el s => Step.stop e el s
  | Step.undefined => Step.undefined

/-- The end of a loop over the links: `return ReportError(&links[i], ret)` for the failed
link, or the loop is through and the function goes on; `k` stores the links in the state. -/
def afterLinks {σ : Type} (r : Option (Nat × ReturnType) × List LinkRecord)
    (k : List LinkRecord → σ) : Step σ :=
  match r.1 with
  | none => Step.next (k r.2)
  | some (i, ret) => ReportError i ret (k r.2)

/-- How a collective ended and the state it left. -/
structure CallResult where
  exit : Exit
  engine : AllreduceBase
  sendrecvbuf : List Nat
  exec : Option PreprocLoopExecutor
  reducer_calls : Nat

/-! ## TryAllreduce -/

/-- The local variables of `TryAllreduce` together with the memory it works on. -/
structure AllreduceState where
  sendrecvbuf : List Nat
  size_up_reduce : Nat
  size_up_out : Nat
  size_down_in : Nat
  links : List LinkRecord
  exec : Option PreprocLoopExecutor
  reducer_calls : Nat

/-- Lines 353-358: initialise the ring buffers and the cursors. -/
def allreduceInit (ring_size : Nat → Nat → Nat → Nat) (parent_index : Int)
    (type_nbytes count reduce_buffer_size : Nat) : Nat → List LinkRecord → List LinkRecord
  | _, [] => []
  | i, l :: ls =>
    (if (i : Int) ≠ parent_index then
        (l.InitBuffer ring_size type_nbytes count reduce_buffer_size).ResetSize
      else l.ResetSize) ::
      allreduceInit ring_size parent_index type_nbytes count reduce_buffer_size (i + 1) ls

/-- Lines 366-393: build the wait set; the result is `finished` and the selector. -/
def allreduceWatch (parent_index : Int) (total_size size_up_reduce size_up_out
    size_down_in : Nat) : Nat → List LinkRecord → Bool × SelectHelper → Bool × SelectHelper
  | _, [], acc => acc
  | i, l :: ls, (finished, selecter) =>
    if (i : Int) = parent_index then
      let a1 : Bool × SelectHelper :=
        if size_down_in ≠ total_size then
          (false, (selecter.WatchRead i).WatchException i)
        else (finished, selecter)
      let s2 : SelectHelper :=
        if size_up_out ≠ total_size ∧ size_up_out < size_up_reduce then a1.2.WatchWrite i
        else a1.2
      allreduceWatch parent_index total_size size_up_reduce size_up_out size_down_in
        (i + 1) ls (a1.1, s2)
    else
      let s1 : SelectHelper :=
        if l.size_read ≠ total_size then selecter.WatchRead i else selecter
      let a2 : Bool × SelectHelper :=
        if l.size_write ≠ total_size then
          (false, (if l.size_write < size_down_in then s1.WatchWrite i else s1).WatchException i)
        else (finished, s1)
      allreduceWatch parent_index total_size size_up_reduce size_up_out size_down_in
        (i + 1) ls a2

/-- Lines 408-413 (and 563-568): the first link with exception readiness. -/
def firstExcept (selecter : SelectHelper) (w : Wake) (nlink : Nat) : Option Nat :=
  (List.range nlink).find? (fun i => selecter.CheckExcept w i)

/-- Lines 415-422: read data from the children. -/
def allreduceReadChilds (parent_index : Int) (selecter : SelectHelper) (w : Wake)
    (size_up_out : Nat) (links : List LinkRecord) :
    Option (Nat × ReturnType) × List LinkRecord :=
  forLinks (fun i l =>
    if (i : Int) ≠ parent_index ∧ selecter.CheckRead w i = true then
      l.ReadToRingBuffer size_up_out (w i)
    else (ReturnType.kSuccess, l)) 0 links

/-- Lines 425-436: the bound `max_reduce` (before rounding) and the common `buffer_size`. -/
def reduceBounds (parent_index : Int) :
    Nat → List LinkRecord → Nat → Nat → Except AssertMsg (Nat × Nat)
  | _, [], max_reduce, buffer_size =>
    if buffer_size ≠ 0 then Except.ok (max_reduce, buffer_size)
    else Except.error AssertMsg.must_assign_buffer_size
  | i, l :: ls, max_reduce, buffer_size =>
    if (i : Int) ≠ parent_index then
      if buffer_size = 0 ∨ buffer_size = l.buffer_size then
        reduceBounds parent_index (i + 1) ls (min max_reduce l.size_read) l.buffer_size
      else Except.error AssertMsg.buffer_size_inconsistent
    else reduceBounds parent_index (i + 1) ls max_reduce buffer_size

/-- The call `reducer(src, dst, len, dtype)` on the memory `dst`: the reducer works in place,
so `dst` keeps its size whatever the reducer function yields. -/
def callReducer (reducer : ReduceFunction) (src dst : List Nat) (len : Int) (dtype : Nat) :
    List Nat :=
  (reducer src dst len dtype).take dst.length ++ dst.drop (reducer src dst len dtype).length

/-- Lines 447-454: one segment is reduced with the ring buffer of every child in turn. -/
def reduceSegment (reducer : ReduceFunction) (type_nbytes start nread : Nat)
    (childs : List LinkRecord) (dst : List Nat) : List Nat :=
  childs.foldl (fun d l =>
    callReducer reducer (slice l.buffer_head start nread) d
      (static_cast_int (nread / type_nbytes)) type_nbytes) dst

/-- Lines 440-456: `while (size_up_reduce < max_reduce)`; `fuel` bounds the number of rounds
(a round that reduces nothing would repeat for ever). The state is the buffer,
`size_up_reduce` and the count of reducer calls. -/
def reduceLoop (reducer : ReduceFunction) (type_nbytes buffer_size max_reduce : Nat)
    (childs : List LinkRecord) :
    Nat → List Nat × Nat × Nat → Step (List Nat × Nat × Nat)
  | 0, (buf, size_up_reduce, calls) =>
    if size_up_reduce < max_reduce then Step.undefined
    else Step.next (buf, size_up_reduce, calls)
  | fuel + 1, (buf, size_up_reduce, calls) =>
    if size_up_reduce < max_reduce then
      let start := size_up_reduce % buffer_size
      let nread := min (buffer_size - start) (max_reduce - size_up_reduce)
      if nread % type_nbytes = 0 then
        reduceLoop reducer type_nbytes buffer_size max_reduce childs fuel
          (writeAt buf size_up_reduce
              (reduceSegment reducer type_nbytes start nread childs
                (slice buf size_up_reduce nread)),
            size_up_reduce + nread, calls + childs.length)
      else Step.stop (Exit.aborted AssertMsg.allreduce_size_check) none
        (buf, size_up_reduce, calls)
    else Step.next (buf, size_up_reduce, calls)

/-- Lines 423-457: the reduction of one iteration. -/
def allreduceReduce (reducer : ReduceFunction) (parent_index : Int)
    (type_nbytes total_size : Nat) (s : AllreduceState) : Step AllreduceState :=
  if s.links.length > (if parent_index ≠ -1 then 1 else 0) then
    match reduceBounds parent_index 0 s.links total_size 0 with
    | Except.error m => Step.stop (Exit.aborted m) none s
    | Except.ok (m, buffer_size) =>
      let max_reduce := m / type_nbytes * type_nbytes
      match reduceLoop reducer type_nbytes buffer_size max_reduce
          (childLinks parent_index 0 s.links) (max_reduce - s.size_up_reduce)
          (s.sendrecvbuf, s.size_up_reduce, s.reducer_calls) with
      | Step.next (buf, r, calls) =>
        Step.next { s with sendrecvbuf := buf, size_up_reduce := r, reducer_calls := calls }
      | Step.stop e el (buf, r, calls) =>
        Step.stop e el { s with sendrecvbuf := buf, size_up_reduce := r, reducer_calls := calls }
      | Step.undefined => Step.undefined
  else Step.next s

/-- Lines 460-471: pass the reduced bytes up to the parent (link `p`). -/
def allreduceSendUp (p : Nat) (w : Wake) (s : AllreduceState) : Step AllreduceState :=
  if s.size_up_out < s.size_up_reduce then
    match s.links[p]? with
    | none => Step.undefined
    | some pl =>
      match (w p).send with
      | SendResult.accepted n =>
        let out := slice s.sendrecvbuf s.size_up_out (min n (s.size_up_reduce - s.size_up_out))
        Step.next { s with
          size_up_out := s.size_up_out + out.length
          links := s.links.set p { pl with tx := pl.tx ++ out } }
      | SendResult.error e =>
        if Errno2Return e ≠ ReturnType.kSuccess then
          ReportError p (Errno2Return e) s
        else Step.next s
  else Step.next s

/-- Lines 472-491: read the result from the parent (link `p`). -/
def allreduceRecvDown (p : Nat) (selecter : SelectHelper) (w : Wake) (total_size : Nat)
    (s : AllreduceState) : Step AllreduceState :=
  if selecter.CheckRead w p = true ∧ total_size > s.size_down_in then
    match s.links[p]? with
    | none => Step.undefined
    | some pl =>
      match (w p).recv with
      | RecvResult.data bytes =>
        let got := bytes.take (total_size - s.size_down_in)
        if got.length = 0 then
          ReportError p ReturnType.kRecvZeroLen
            { s with links := s.links.set p { pl with sock := { closed := true } } }
        else
          let s1 : AllreduceState := { s with
            sendrecvbuf := writeAt s.sendrecvbuf s.size_down_in got
            size_down_in := s.size_down_in + got.length
            links := s.links.set p { pl with rx := pl.rx ++ got } }
          if s1.size_down_in ≤ s1.size_up_out then Step.next s1
          else Step.stop (Exit.aborted AssertMsg.allreduce_boundary_error) none s1
      | RecvResult.error e =>
        if Errno2Return e ≠ ReturnType.kSuccess then
          ReportError p (Errno2Return e) s
        else Step.next s
  else Step.next s

/-- Lines 497-504: pass the result down to the children. -/
def allreduceWriteChilds (parent_index : Int) (w : Wake) (sendrecvbuf : List Nat)
    (size_down_in : Nat) (links : List LinkRecord) :
    Option (Nat × ReturnType) × List LinkRecord :=
  forLinks (fun i l =>
    if (i : Int) ≠ parent_index ∧ l.size_write < size_down_in then
      l.WriteFromArray sendrecvbuf size_down_in (w i)
    else (ReturnType.kSuccess, l)) 0 links

/-- Lines 458-504: the exchange with the parent (or the root's shortcut) and the down pass
to the children. -/
def allreduceParentAndDown (parent_index : Int) (selecter : SelectHelper) (w : Wake)
    (total_size : Nat) (s : AllreduceState) : Step AllreduceState :=
  (if parent_index ≠ -1 then
      (allreduceSendUp parent_index.toNat w s).andThen
        (allreduceRecvDown parent_index.toNat selecter w total_size)
    else
      Step.next { s with size_up_out := s.size_up_reduce, size_down_in := s.size_up_reduce }
    ).andThen (fun s2 =>
      afterLinks (allreduceWriteChilds parent_index w s2.sendrecvbuf s2.size_down_in s2.links)
        (fun links => { s2 with links := links }))

/-- Lines 396-504: one iteration of the main loop after `finished` was found false, with the
selector `selecter` and the wake `w`. -/
def allreduceBody (reducer : ReduceFunction) (parent_index : Int)
    (type_nbytes total_size : Nat) (selecter : SelectHelper) (w : Wake)
    (s : AllreduceState) : Step AllreduceState :=
  match firstExcept selecter w s.links.length with
  | some i =>
    ReportError i ReturnType.kGetExcept
      { s with exec := s.exec.map PreprocLoopExecutor.Run }
  | none =>
    (afterLinks (allreduceReadChilds parent_index selecter w s.size_up_out s.links)
      (fun links => { s with exec := s.exec.map PreprocLoopExecutor.Run, links := links })
      ).andThen (fun s1 =>
        (allreduceReduce reducer parent_index type_nbytes total_size s1).andThen
          (allreduceParentAndDown parent_index selecter w total_size))

/-- Lines 364-506: the main loop; every iteration consumes one wake. -/
def allreduceLoop (reducer : ReduceFunction) (parent_index : Int)
    (type_nbytes total_size : Nat) :
    List Wake → AllreduceState → Option (Exit × Option Nat × AllreduceState)
  | [], s =>
    if (allreduceWatch parent_index total_size s.size_up_reduce s.size_up_out s.size_down_in
        0 s.links (true, SelectHelper.empty)).1 = true then
      some (Exit.returned ReturnType.kSuccess, none, s)
    else none
  | w :: ws, s =>
    if (allreduceWatch parent_index total_size s.size_up_reduce s.size_up_out s.size_down_in
        0 s.links (true, SelectHelper.empty)).1 = true then
      some (Exit.returned ReturnType.kSuccess, none, s)
    else
      match allreduceBody reducer parent_index type_nbytes total_size
          (allreduceWatch parent_index total_size s.size_up_reduce s.size_up_out
            s.size_down_in 0 s.links (true, SelectHelper.empty)).2 w s with
      | Step.next s1 => allreduceLoop reducer parent_index type_nbytes total_size ws s1
      | Step.stop e el s1 => some (e, el, s1)
      | Step.undefined => none

/-- The function `AllreduceBase::TryAllreduce` (lines 332-507). `ring_size` is the size
`InitBuffer` gives the ring buffers, `env` the wakes of `select`. -/
def TryAllreduce (ring_size : Nat → Nat → Nat → Nat) (eng : AllreduceBase)
    (sendrecvbuf : List Nat) (type_nbytes count : Nat) (reducer : ReduceFunction)
    (exec : Option PreprocLoopExecutor) (env : List Wake) : Option CallResult :=
  if eng.tree_links.length = 0 ∨ count = 0 then
    some ⟨Exit.returned ReturnType.kSuccess, eng, sendrecvbuf, exec, 0⟩
  else
    let total_size := (type_nbytes * count) % 2 ^ 64
    let links := allreduceInit ring_size eng.parent_index type_nbytes count
      eng.reduce_buffer_size 0 eng.tree_links
    let size_up_reduce :=
      if (eng.tree_links.length : Int) = (if eng.parent_index ≠ -1 then 1 else 0) then total_size
      else 0
    match allreduceLoop reducer eng.parent_index type_nbytes total_size env
        ⟨sendrecvbuf, size_up_reduce, 0, 0, links, exec, 0⟩ with
    | none => none
    | some (e, el, s) =>
      some ⟨e,
        { eng with
          tree_links := s.links
          err_link := match el with
            | some i => some i
            | none => eng.err_link },
        s.sendrecvbuf, s.exec, s.reducer_calls⟩

/-! ## TryBroadcast -/

/-- The local variables of `TryBroadcast` together with the memory it works on. -/
structure BroadcastState where
  sendrecvbuf : List Nat
  size_in : Nat
  in_link : Int
  links : List LinkRecord

/-- How a broadcast ended and the state it left, with the final values of the locals
`in_link` and `size_in`. -/
structure BroadcastResult where
  exit : Exit
  engine : AllreduceBase
  sendrecvbuf : List Nat
  in_link : Int
  size_in : Nat

/-- Lines 540-557: build the wait set; the result is `finished` and the selector. -/
def broadcastWatch (in_link : Int) (total_size size_in : Nat) :
    Nat → List LinkRecord → Bool × SelectHelper → Bool × SelectHelper
  | _, [], acc => acc
  | i, l :: ls, (finished, selecter) =>
    let a1 : Bool × SelectHelper :=
      if in_link = -2 then (false, selecter.WatchRead i) else (finished, selecter)
    let a2 : Bool × SelectHelper :=
      if (i : Int) = in_link ∧ l.size_read ≠ total_size then (false, a1.2.WatchRead i) else a1
    let a3 : Bool × SelectHelper :=
      if in_link ≠ -2 ∧ (i : Int) ≠ in_link ∧ l.size_write ≠ total_size then
        (false, if l.size_write < size_in then a2.2.WatchWrite i else a2.2)
      else a2
    broadcastWatch in_link total_size size_in (i + 1) ls (a3.1, a3.2.WatchException i)

/-- What the probe of lines 569-582 yields: a failed link, or the locals `size_in` and
`in_link` after the loop; in both cases with the links and the buffer. -/
structure ProbeResult where
  failed : Option (Nat × ReturnType)
  links : List LinkRecord
  sendrecvbuf : List Nat
  size_in : Nat
  in_link : Int

/-- Lines 571-581: probe the links for the input link, from position `i` on. -/
def broadcastProbe (selecter : SelectHelper) (w : Wake) (total_size : Nat) :
    Nat → List LinkRecord → List Nat → Nat → ProbeResult
  | _, [], buf, size_in => ⟨none, [], buf, size_in, -2⟩
  | i, l :: ls, buf, size_in =>
    if selecter.CheckRead w i = true then
      if (l.ReadToArray buf total_size (w i)).1 ≠ ReturnType.kSuccess then
        ⟨some (i, (l.ReadToArray buf total_size (w i)).1),
          (l.ReadToArray buf total_size (w i)).2.1 :: ls,
          (l.ReadToArray buf total_size (w i)).2.2, size_in, -2⟩
      else if (l.ReadToArray buf total_size (w i)).2.1.size_read ≠ 0 then
        ⟨none, (l.ReadToArray buf total_size (w i)).2.1 :: ls,
          (l.ReadToArray buf total_size (w i)).2.2,
          (l.ReadToArray buf total_size (w i)).2.1.size_read, (i : Int)⟩
      else
        let rest := broadcastProbe selecter w total_size (i + 1) ls
          (l.ReadToArray buf total_size (w i)).2.2
          (l.ReadToArray buf total_size (w i)).2.1.size_read
        { rest with links := (l.ReadToArray buf total_size (w i)).2.1 :: rest.links }
    else
      let rest := broadcastProbe selecter w total_size (i + 1) ls buf size_in
      { rest with links := l :: rest.links }

/-- The end of the probe: `return ReportError(&links[i], ret)` for a failed link, or the
function goes on with the locals the probe left. -/
def afterProbe (r : ProbeResult) : Step BroadcastState :=
  match r.failed with
  | none => Step.next ⟨r.sendrecvbuf, r.size_in, r.in_link, r.links⟩
  | some (i, ret) =>
    ReportError i ret ⟨r.sendrecvbuf, r.size_in, r.in_link, r.links⟩

/-- Lines 584-591: read from the input link `p`. -/
def broadcastReadIn (p : Nat) (w : Wake) (total_size : Nat) (s : BroadcastState) :
    Step BroadcastState :=
  match s.links[p]? with
  | none => Step.undefined
  | some l =>
    if (l.ReadToArray s.sendrecvbuf total_size (w p)).1 ≠ ReturnType.kSuccess then
      ReportError p (l.ReadToArray s.sendrecvbuf total_size (w p)).1
        { s with
          links := s.links.set p (l.ReadToArray s.sendrecvbuf total_size (w p)).2.1
          sendrecvbuf := (l.ReadToArray s.sendrecvbuf total_size (w p)).2.2 }
    else
      Step.next { s with
        links := s.links.set p (l.ReadToArray s.sendrecvbuf total_size (w p)).2.1
        sendrecvbuf := (l.ReadToArray s.sendrecvbuf total_size (w p)).2.2
        size_in := (l.ReadToArray s.sendrecvbuf total_size (w p)).2.1.size_read }

/-- Lines 569-592: determine the input link, or read from it. -/
def broadcastRead (selecter : SelectHelper) (w : Wake) (total_size : Nat)
    (s : BroadcastState) : Step BroadcastState :=
  if s.in_link = -2 then
    afterProbe (broadcastProbe selecter w total_size 0 s.links s.sendrecvbuf s.size_in)
  else if s.in_link ≥ 0 ∧ selecter.CheckRead w s.in_link.toNat = true then
    broadcastReadIn s.in_link.toNat w total_size s
  else Step.next s

/-- Lines 593-601: send data to all out-links. -/
def broadcastWrite (in_link : Int) (w : Wake) (sendrecvbuf : List Nat) (size_in : Nat)
    (links : List LinkRecord) : Option (Nat × ReturnType) × List LinkRecord :=
  forLinks (fun i l =>
    if (i : Int) ≠ in_link ∧ l.size_write < size_in then
      l.WriteFromArray sendrecvbuf size_in (w i)
    else (ReturnType.kSuccess, l)) 0 links

/-- Lines 560-601: one iteration of the main loop after `finished` was found false. -/
def broadcastBody (total_size : Nat) (selecter : SelectHelper) (w : Wake)
    (s : BroadcastState) : Step BroadcastState :=
  match firstExcept selecter w s.links.length with
  | some i => ReportError i ReturnType.kGetExcept s
  | none =>
    (broadcastRead selecter w total_size s).andThen (fun s1 =>
      afterLinks (broadcastWrite s1.in_link w s1.sendrecvbuf s1.size_in s1.links)
        (fun links => { s1 with links := links }))

/-- Lines 539-602: the main loop; every iteration consumes one wake. -/
def broadcastLoop (total_size : Nat) :
    List Wake → BroadcastState → Option (Exit × Option Nat × BroadcastState)
  | [], s =>
    if (broadcastWatch s.in_link total_size s.size_in 0 s.links
        (true, SelectHelper.empty)).1 = true then
      some (Exit.returned ReturnType.kSuccess, none, s)
    else none
  | w :: ws, s =>
    if (broadcastWatch s.in_link total_size s.size_in 0 s.links
        (true, SelectHelper.empty)).1 = true then
      some (Exit.returned ReturnType.kSuccess, none, s)
    else
      match broadcastBody total_size
          (broadcastWatch s.in_link total_size s.size_in 0 s.links
            (true, SelectHelper.empty)).2 w s with
      | Step.next s1 => broadcastLoop total_size ws s1
      | Step.stop e el s1 => some (e, el, s1)
      | Step.undefined => none

/-- The function `AllreduceBase::TryBroadcast` (lines 516-604). When the call returns before
the locals exist, `in_link` and `size_in` are reported with their initial values. -/
def TryBroadcast (eng : AllreduceBase) (sendrecvbuf : List Nat) (total_size : Nat)
    (root : Int) (env : List Wake) : Option BroadcastResult :=
  if eng.tree_links.length = 0 ∨ total_size = 0 then
    some ⟨Exit.returned ReturnType.kSuccess, eng, sendrecvbuf, -2, 0⟩
  else if ¬ root < eng.world_size then
    some ⟨Exit.aborted AssertMsg.broadcast_root_check, eng, sendrecvbuf, -2, 0⟩
  else
    let links := eng.tree_links.map LinkRecord.ResetSize
    let s0 : BroadcastState :=
      if eng.rank = root then ⟨sendrecvbuf, total_size, -1, links⟩
      else ⟨sendrecvbuf, 0, -2, links⟩
    match broadcastLoop total_size env s0 with
    | none => none
    | some (e, el, s) =>
      some ⟨e,
        { eng with
          tree_links := s.links
          err_link := match el with
            | some i => some i
            | none => eng.err_link },
        s.sendrecvbuf, s.in_link, s.size_in⟩

/-! ## SetParam and the constructor -/

/-- The C library's `isspace` in the "C" locale: space, horizontal tab, line feed, vertical
tab, form feed and carriage return (the codes 32 and 9 to 13). -/
def isspace (c : Char) : Bool :=
  c.toNat = 32 || (9 ≤ c.toNat && c.toNat ≤ 13)

/-- The characters of the C string a `String` stands for: those before the first NUL. -/
def cString (val : String) : List Char :=
  val.toList.takeWhile (fun c => c.toNat ≠ 0)

/-- Skip the white space a numeric conversion of the C library skips. -/
def skipSpace (cs : List Char) : List Char :=
  cs.dropWhile isspace

/-- The value of a string of decimal digits. -/
def decimalValue (ds : List Char) : Nat :=
  ds.foldl (fun acc c => 10 * acc + (c.toNat - 48)) 0

/-- The C library's `atoi`: white space, an optional sign, decimal digits (a value outside
`int` is left as it is). -/
def atoi (val : String) : Int :=
  match skipSpace (cString val) with
  | '-' :: rest => - (decimalValue (rest.takeWhile Char.isDigit) : Int)
  | '+' :: rest => (decimalValue (rest.takeWhile Char.isDigit) : Int)
  | cs => (decimalValue (cs.takeWhile Char.isDigit) : Int)

/-- The conversion `%lu` (that of `strtoul` in base 10) on the digit string `ds` after an
optional sign: `ULONG_MAX` when the digits do not fit an `unsigned long`, whatever the sign;
else their value, negated in the unsigned type after a minus sign. -/
def convert_lu (minus : Bool) (ds : List Char) : Nat :=
  if decimalValue ds < 2 ^ 64 then
    if minus = true then (2 ^ 64 - decimalValue ds) % 2 ^ 64 else decimalValue ds
  else 2 ^ 64 - 1

/-- The call `sscanf(val, "%lu%c", &amount, &unit)`: `some (amount, unit)` when it returns 2,
that is when both conversions succeed: white space is skipped, an optional sign and at least
one digit are converted, and one more character follows. -/
def sscanf_lu_c (val : String) : Option (Nat × Char) :=
  let cs := skipSpace (cString val)
  let body : Bool × List Char :=
    match cs with
    | '-' :: rest => (true, rest)
    | '+' :: rest => (false, rest)
    | _ => (false, cs)
  let ds := body.2.takeWhile Char.isDigit
  if ds = [] then none
  else
    match body.2.dropWhile Char.isDigit with
    | [] => none
    | c :: _ => some (convert_lu body.1 ds, c)

/-- The function `AllreduceBase::SetParam` (lines 116-138). The arguments are C strings: a
`String` argument stands for its characters before the first NUL. -/
def SetParam (eng : AllreduceBase) (name val : String) : Except AssertMsg AllreduceBase :=
  let e1 := if name = "rabit_tracker_uri" then { eng with tracker_uri := val } else eng
  let e2 := if name = "rabit_tracker_port" then { e1 with tracker_port := atoi val } else e1
  let e3 := if name = "rabit_task_id" then { e2 with task_id := val } else e2
  let e4 := if name = "rabit_world_size" then { e3 with world_size := atoi val } else e3
  let e5 := if name = "rabit_hadoop_mode" then { e4 with hadoop_mode := atoi val } else e4
  if name = "rabit_reduce_buffer" then
    match sscanf_lu_c val with
    | some (amount, unit) =>
      if unit = 'B' then
        Except.ok { e5 with reduce_buffer_size := (amount + 7) % 2 ^ 64 / 8 }
      else if unit = 'K' then
        Except.ok { e5 with reduce_buffer_size := amount * 2 ^ 7 % 2 ^ 64 }
      else if unit = 'M' then
        Except.ok { e5 with reduce_buffer_size := amount * 2 ^ 17 % 2 ^ 64 }
      else if unit = 'G' then
        Except.ok { e5 with reduce_buffer_size := amount * 2 ^ 27 % 2 ^ 64 }
      else Except.error AssertMsg.invalid_reduce_buffer_unit
    | none => Except.error AssertMsg.invalid_reduce_buffer_format
  else Except.ok e5

/-- The constructor `AllreduceBase::AllreduceBase` (lines 20-37), run on the object `raw`
whose fields hold whatever the memory held. -/
def AllreduceBase.construct (raw : AllreduceBase) : Except AssertMsg AllreduceBase :=
  match SetParam
      { raw with
        tracker_uri := "NULL", tracker_port := 9000, host_uri := "", slave_port := 9010,
        nport_trial := 1000, rank := 0, world_size := -1, hadoop_mode := 0,
        version_number := 0, task_id := "NULL", err_link := none }
      "rabit_reduce_buffer" "256MB" with
  | Except.error m => Except.error m
  | Except.ok e =>
    Except.ok { e with
      approx_run_step := 1 / 1000, approx_check_step := 3 / 10,
      approx_check_min_step := 1 / 100 }

/-! ## LoopStatus and TryExecLoop -/

/-- The record `LoopStatus` (lines 606-626). -/
structure LoopStatus where
  num_left : Nat
  max_left : Nat
  num_finish : Nat
  deriving DecidableEq, Repr

/-- The constructor `LoopStatus(size_t num_left)`. -/
def LoopStatus.construct (num_left : Nat) : LoopStatus :=
  ⟨num_left, num_left, if num_left = 0 then 1 else 0⟩

/-- The function `LoopStatus::Reducer` (lines 618-625): the contents of the array `dst`
after the call (`src` is `const`). The function reads `src[0]` and `dst[0]`: arrays
without a first record leave its behaviour undefined (`none`). -/
def LoopStatus.Reducer (src dst : List LoopStatus) (_len : Int) (_dtype : Nat) :
    Option (List LoopStatus) :=
  match src, dst with
  | s :: _, d :: ds =>
    some ({ num_left := (d.num_left + s.num_left) % 2 ^ 64
            max_left := max d.max_left s.max_left
            num_finish := (d.num_finish + s.num_finish) % 2 ^ 64 } :: ds)
  | _, _ => none

/-- What one call `TryAllreduce(&status, sizeof(status), 1, LoopStatus::Reducer, exec)`
leaves behind: the classification, the contents of `status`, and the number of iterations
of the collective's main loop (each of which calls `exec->Run()` when an executor is
attached). -/
structure StatusReply where
  ret : ReturnType
  status : LoopStatus
  wakes : Nat
  deriving DecidableEq, Repr

/-- What `TryExecLoop` leaves behind: the classification, the value stored through
`out_rapprox` (when one was stored), the executor, and the statuses this worker handed to
the status Allreduces, in order. -/
structure ExecLoopResult where
  ret : ReturnType
  out_rapprox : Option ℚ
  exec : PreprocLoopExecutor
  contributed : List LoopStatus

/-- The conversion `static_cast<size_t>(x)` of a non-negative `double`, read exactly. -/
def static_cast_size_t (x : ℚ) : Nat :=
  ⌊x⌋.toNat

/-- Subtraction of `size_t` values. -/
def size_t_sub (a b : Nat) : Nat :=
  (a % 2 ^ 64 + 2 ^ 64 - b % 2 ^ 64) % 2 ^ 64

/-- Lines 680-690: the final status Allreduce (without executor) and the report. -/
def execLoopFinish (num_loop_iter num_total : Nat) (has_out : Bool)
    (replies : List StatusReply) (exec : PreprocLoopExecutor) (num_left : Nat)
    (contributed : List LoopStatus) : Option ExecLoopResult :=
  if num_left ≠ 0 then
    match replies with
    | [] => none
    | r :: _ =>
      let status := LoopStatus.construct (size_t_sub num_loop_iter exec.loop_counter)
      if r.ret ≠ ReturnType.kSuccess then some ⟨r.ret, none, exec, contributed ++ [status]⟩
      else
        some ⟨ReturnType.kSuccess,
          if has_out = true then
            some ((size_t_sub num_total r.status.num_left : ℚ) / (num_total : ℚ))
          else none,
          exec, contributed ++ [status]⟩
  else
    some ⟨ReturnType.kSuccess,
      if has_out = true then some ((size_t_sub num_total num_left : ℚ) / (num_total : ℚ))
      else none,
      exec, contributed⟩

/-- Lines 665-679 followed by lines 680-690: the loop check; every status Allreduce
consumes one reply. -/
def execLoopCheck (eng : AllreduceBase) (num_loop_iter num_total approx_gap : Nat)
    (has_out : Bool) :
    List StatusReply → PreprocLoopExecutor → Nat → List LoopStatus → Option ExecLoopResult
  | [], exec, num_left, contributed =>
    if num_left ≠ 0 then none
    else execLoopFinish num_loop_iter num_total has_out [] exec num_left contributed
  | r :: rs, exec, num_left, contributed =>
    if num_left ≠ 0 then
      let step0 :=
        static_cast_size_t ((num_left : ℚ) * eng.approx_check_step / (eng.world_size : ℚ))
      let step1 := max step0
        (static_cast_size_t
          ((num_total : ℚ) * eng.approx_check_min_step / (eng.world_size : ℚ)))
      let step := if step1 < exec.loop_step then exec.loop_step else step1
      let exec1 := exec.RunStep step
      let status := LoopStatus.construct (size_t_sub num_loop_iter exec1.loop_counter)
      let exec2 := (PreprocLoopExecutor.Run)^[r.wakes] exec1
      if r.ret ≠ ReturnType.kSuccess then some ⟨r.ret, none, exec2, contributed ++ [status]⟩
      else if r.status.num_left < approx_gap ∧
          (r.status.num_finish : ℚ) > (eng.world_size : ℚ) * (1 / 2) then
        execLoopFinish num_loop_iter num_total has_out rs exec2 r.status.num_left
          (contributed ++ [status])
      else
        execLoopCheck eng num_loop_iter num_total approx_gap has_out rs exec2
          r.status.num_left (contributed ++ [status])
    else execLoopFinish num_loop_iter num_total has_out (r :: rs) exec num_left contributed

/-- The function `AllreduceBase::TryExecLoop` (lines 637-691), with `double` arithmetic read
exactly. `total` is what the first `TryAllreduce` (the sum of `num_loop_iter`) leaves:
its classification and the contents of `num_total`; `replies` are the status Allreduces in
the order they are made; `has_out` says that `out_rapprox` is not `NULL`. -/
def TryExecLoop (eng : AllreduceBase) (num_loop_iter : Nat) (approx_ratio : ℚ)
    (has_out : Bool) (total : ReturnType × Nat) (replies : List StatusReply) :
    Option ExecLoopResult :=
  let num_total := total.2
  let exec0 : PreprocLoopExecutor := ⟨num_loop_iter, 0, 0, [], 0⟩
  if total.1 ≠ ReturnType.kSuccess then some ⟨total.1, none, exec0, []⟩
  else
    let loop_step0 :=
      static_cast_size_t ((num_total : ℚ) * eng.approx_run_step / (eng.world_size : ℚ))
    let exec : PreprocLoopExecutor :=
      { exec0 with loop_step := if loop_step0 = 0 then 1 else loop_step0 }
    let approx_gap :=
      size_t_sub num_total (static_cast_size_t (approx_ratio * (num_total : ℚ)))
    if approx_gap = 0 then
      some ⟨ReturnType.kSuccess, if has_out = true then some 1 else none,
        exec.RunStep num_loop_iter, []⟩
    else execLoopCheck eng num_loop_iter num_total approx_gap has_out replies exec num_total []

/-! ## ReConnectLinks: the topology derivation -/

/-- What lines 292-308 of `ReConnectLinks` write: `parent_index`, the vector
`tree_links.plinks` and the pointers `ring_prev` and `ring_next`, with the pointers into
`all_links` followed (`none` is `NULL`). -/
structure Topology where
  parent_index : Int
  plinks : List LinkRecord
  ring_prev : Option LinkRecord
  ring_next : Option LinkRecord
  deriving DecidableEq, Repr

/-- Lines 300-307: what the walk over `all_links` does with the link `l`. `tree_neighbors`
lists the ranks entered as keys of the map `tree_neighbors` (lines 194-199). -/
def visitLink (tree_neighbors : List Int) (parent_rank prev_rank next_rank : Int)
    (l : LinkRecord) (t : Topology) : Topology :=
  let t1 : Topology :=
    if l.rank ∈ tree_neighbors then
      { t with
        parent_index :=
          if l.rank = parent_rank then static_cast_int t.plinks.length else t.parent_index
        plinks := t.plinks ++ [l] }
    else t
  let t2 : Topology := if l.rank = prev_rank then { t1 with ring_prev := some l } else t1
  if l.rank = next_rank then { t2 with ring_next := some l } else t2

/-- Lines 295-308: the walk over `all_links`. `BadSocket` is `utils::TCPSocket::BadSocket`
(declared outside the sources). `SetNonBlock` and `SetKeepAlive` change nothing the
embedding keeps of a socket. -/
def deriveTopology (BadSocket : TCPSocket → Bool) (tree_neighbors : List Int)
    (parent_rank prev_rank next_rank : Int) : List LinkRecord → Topology →
    Except AssertMsg Topology
  | [], t => Except.ok t
  | l :: ls, t =>
    if BadSocket l.sock = true then Except.error AssertMsg.reconnect_bad_socket
    else
      deriveTopology BadSocket tree_neighbors parent_rank prev_rank next_rank ls
        (visitLink tree_neighbors parent_rank prev_rank next_rank l t)

/-- Lines 292-315: the end of `AllreduceBase::ReConnectLinks`, from `this->parent_index = -1`
on. `ring_prev` and `ring_next` are the values the two pointers have on entry. -/
def ReConnectLinks_topology (BadSocket : TCPSocket → Bool) (eng : AllreduceBase)
    (all_links : List LinkRecord) (tree_neighbors : List Int) (prev_rank next_rank : Int)
    (ring_prev ring_next : Option LinkRecord) :
    Except AssertMsg (AllreduceBase × Option LinkRecord × Option LinkRecord) :=
  match deriveTopology BadSocket tree_neighbors eng.parent_rank prev_rank next_rank all_links
      ⟨-1, [], ring_prev, ring_next⟩ with
  | Except.error m => Except.error m
  | Except.ok t =>
    if ¬ (eng.parent_rank = -1 ∨ t.parent_index ≠ -1) then
      Except.error AssertMsg.cannot_find_parent
    else if ¬ (prev_rank = -1 ∨ t.ring_prev.isSome = true) then
      Except.error AssertMsg.cannot_find_prev_ring
    else if ¬ (next_rank = -1 ∨ t.ring_next.isSome = true) then
      Except.error AssertMsg.cannot_find_next_ring
    else
      Except.ok ({ eng with parent_index := t.parent_index, tree_links := t.plinks },
        t.ring_prev, t.ring_next)

/-! ## Concrete inputs used by the examples -/

/-- A link that has carried no traffic, with an open socket and no ring buffer. -/
def freshLink (rank : Int) : LinkRecord :=
  ⟨⟨false⟩, rank, 0, 0, [], 0, [], []⟩

/-- An engine object before its constructor ran, every field zero. -/
def rawEngine : AllreduceBase :=
  ⟨"", 0, "", 0, 0, 0, 0, 0, 0, "", none, 0, 0, 0, 0, 0, 0, []⟩

/-- An engine with the given position in the cohort and the given tree links. -/
def engineWith (rank world_size parent_index : Int) (reduce_buffer_size : Nat)
    (links : List LinkRecord) : AllreduceBase :=
  { rawEngine with
    rank := rank, world_size := world_size, parent_index := parent_index,
    reduce_buffer_size := reduce_buffer_size, tree_links := links }

/-- The wake in which every link shows the same event. -/
def wakeAll (ev : LinkEvent) : Wake :=
  fun _ => ev

/-- A reducer on one-byte elements: the sum modulo 256. -/
def sumReducer : ReduceFunction :=
  fun src dst _ _ => List.zipWith (fun d s => (d + s) % 256) dst src

/-- A reducer on one-byte elements: the minimum. -/
def minReducer : ReduceFunction :=
  fun src dst _ _ => List.zipWith (fun d s => min d s) dst src

/-- An engine after its constructor, placed in a cohort. -/
def cohortEngine (rank world_size : Int) : AllreduceBase :=
  { rawEngine with
    rank := rank, world_size := world_size, parent_index := -1,
    reduce_buffer_size := 33554432, approx_run_step := 1 / 1000,
    approx_check_step := 3 / 10, approx_check_min_step := 1 / 100 }

/-! ## Notions used by the theorems -/

/-- The open/closed state of the socket of every link, in link order. -/
def sockStates (links : List LinkRecord) : List Bool :=
  links.map (fun l => l.sock.closed)

/-- The event of a link on which nothing happens: not ready, and a `recv` or `send` would
block. -/
def quietEvent : LinkEvent :=
  ⟨false, false, RecvResult.error EAGAIN, SendResult.error EAGAIN⟩

/-- The wake with the listed events for the first links and nothing on the others. -/
def wakeOf (evs : List LinkEvent) : Wake :=
  fun i => evs.getD i quietEvent

/-- The sockets after a call of `TryAllreduce` that ended with `e` and reported `el`:
unchanged, or the parent's socket closed on a zero-length `recv`. -/
def SockFrame (parent_index : Int) (links links' : List LinkRecord) (e : Exit)
    (el : Option Nat) : Prop :=
  sockStates links' = sockStates links ∨
    (e = Exit.returned ReturnType.kRecvZeroLen ∧ parent_index ≠ -1 ∧
      el = some parent_index.toNat ∧
      sockStates links' = (sockStates links).set parent_index.toNat true)

/-- The invariant of the main loop of `TryBroadcast`, for the buffer `buf0` the call started
with. `is_root` says that `rank == root`. -/
structure BroadcastInv (buf0 : List Nat) (total_size : Nat) (is_root : Prop)
    (s : BroadcastState) : Prop where
  len : s.sendrecvbuf.length = buf0.length
  total_le : total_size ≤ buf0.length
  size_in_le : s.size_in ≤ total_size
  unknown : s.in_link = -2 → s.size_in = 0
  root : s.in_link = -1 → is_root ∧ s.sendrecvbuf = buf0
  not_root : s.in_link ≠ -1 → ¬ is_root
  range : s.in_link = -2 ∨ s.in_link = -1 ∨
    ∃ p : Nat, s.in_link = (p : Int) ∧ p < s.links.length
  input : ∀ (p : Nat) (l : LinkRecord), s.in_link = (p : Int) → s.links[p]? = some l →
    l.size_read = s.size_in ∧ l.rx = s.sendrecvbuf.take s.size_in
  others_rx : ∀ (i : Nat) (l : LinkRecord), s.links[i]? = some l → (i : Int) ≠ s.in_link →
    l.size_read = 0 ∧ l.rx = []
  others_tx : ∀ (i : Nat) (l : LinkRecord), s.links[i]? = some l → (i : Int) ≠ s.in_link →
    l.size_write ≤ s.size_in ∧ l.tx = s.sendrecvbuf.take l.size_write

/-- Worker 0 of a cohort of three with the tree links to ranks 1 and 2. -/
def relayEngine : AllreduceBase :=
  engineWith 0 3 0 8 [freshLink 1, freshLink 2]

/-- Two wakes: rank 1 delivers "hel" and then "lo"; rank 2 accepts up to four bytes per
send. -/
def relayEnv : List Wake :=
  [wakeOf [⟨false, true, RecvResult.data [104, 101, 108], SendResult.accepted 4⟩,
      ⟨false, false, RecvResult.error EAGAIN, SendResult.accepted 4⟩],
    wakeOf [⟨false, true, RecvResult.data [108, 111], SendResult.accepted 4⟩,
      ⟨false, false, RecvResult.error EAGAIN, SendResult.accepted 4⟩]]

/-- The state the relay of "hello" leaves at worker 0. -/
def relayResult : BroadcastResult :=
  ⟨Exit.returned ReturnType.kSuccess,
    { relayEngine with
      tree_links :=
        [{ freshLink 1 with size_read := 5, rx := [104, 101, 108, 108, 111] },
          { freshLink 2 with size_write := 5, tx := [104, 101, 108, 108, 111] }] },
    [104, 101, 108, 108, 111], 0, 5⟩

/-- A ring buffer of `B` bytes holds the last `B` bytes of the stream `rx`. -/
def RingHolds (B : Nat) (ring rx : List Nat) : Prop :=
  ring.length = B ∧
    ∀ q, q < rx.length → rx.length ≤ q + B → ring[q % B]? = rx[q]?

/-- The element-wise reducer contract for elements of `tn` bytes: on `n` elements the call
`reducer(src, dst, n, dtype)` keeps the size of `dst` and leaves in element `e` of `dst` what
the reducer makes of element `e` of `src` and element `e` of `dst` alone. -/
def ReducerContract (reducer : ReduceFunction) (tn : Nat) : Prop :=
  ∀ (src dst : List Nat) (n : Nat), src.length = n * tn → dst.length = n * tn →
    (reducer src dst (n : Int) tn).length = n * tn ∧
    ∀ e, e < n →
      elemAt tn (reducer src dst (n : Int) tn) e =
        reducer (elemAt tn src e) (elemAt tn dst e) 1 tn

/-- Element `e` of the buffer `buf0` combined by the reducer with element `e` of the stream
received from each of the links `childs`, in order. -/
def reducedElem (reducer : ReduceFunction) (tn : Nat) (buf0 : List Nat)
    (childs : List LinkRecord) (e : Nat) : List Nat :=
  childs.foldl (fun acc c => reducer (elemAt tn c.rx e) acc 1 tn) (elemAt tn buf0 e)

/-- The invariant of a child link in the main loop of `TryAllreduce`, against the cursors
`R = size_up_reduce`, `O = size_up_out`, `D = size_down_in` and the buffer. -/
structure ChildInv (B0 R O D : Nat) (buf : List Nat) (l : LinkRecord) : Prop where
  read_len : l.size_read = l.rx.length
  reduce_le : R ≤ l.size_read
  gap : l.size_read ≤ O + B0
  bsize : l.buffer_size = B0
  ring : RingHolds B0 l.buffer_head l.rx
  write_le : l.size_write ≤ D
  tx_eq : l.tx = buf.take l.size_write

/-- The invariant of the main loop of `TryAllreduce`: `buf0` is the buffer the call started
with, `B0` the size of the ring buffers, `up` the reduced bytes produced so far. -/
structure AllreduceInv (reducer : ReduceFunction) (tn T B0 : Nat) (parent_index : Int)
    (buf0 up : List Nat) (s : AllreduceState) : Prop where
  len : s.sendrecvbuf.length = buf0.length
  total_le : T ≤ buf0.length
  down_le : s.size_down_in ≤ s.size_up_out
  out_le : s.size_up_out ≤ s.size_up_reduce
  reduce_le : s.size_up_reduce ≤ T
  aligned : tn ∣ s.size_up_reduce
  tail : s.sendrecvbuf.drop s.size_up_reduce = buf0.drop s.size_up_reduce
  up_len : up.length = s.size_up_reduce
  up_buf : ∀ q, (if parent_index = -1 then 0 else s.size_down_in) ≤ q →
    q < s.size_up_reduce → s.sendrecvbuf[q]? = up[q]?
  up_elem : ReducerContract reducer tn → T / tn < 2 ^ 31 → 0 < tn →
    ∀ e, (e + 1) * tn ≤ s.size_up_reduce →
      elemAt tn up e = reducedElem reducer tn buf0 (childLinks parent_index 0 s.links) e
  parent : parent_index ≠ -1 → ∃ pl, s.links[parent_index.toNat]? = some pl ∧
    pl.tx = up.take s.size_up_out ∧ pl.rx = s.sendrecvbuf.take s.size_down_in
  pi_range : parent_index = -1 ∨ 0 ≤ parent_index
  childs : ∀ (i : Nat) (l : LinkRecord), s.links[i]? = some l → (i : Int) ≠ parent_index →
    ChildInv B0 s.size_up_reduce s.size_up_out s.size_down_in s.sendrecvbuf l

/-- Three wakes of a worker with one link: the peer delivers `[3, 8]` and then `[1]`, and
accepts what it is sent. -/
def upEnv : List Wake :=
  [wakeOf [⟨false, true, RecvResult.data [3, 8], SendResult.accepted 5⟩],
    wakeOf [⟨false, true, RecvResult.data [1], SendResult.accepted 2⟩],
    wakeOf [⟨false, false, RecvResult.error EAGAIN, SendResult.accepted 2⟩]]

/-- The state the root of a cohort of two is left in by `upEnv`: ring buffers of two bytes,
own buffer `[5, 2, 9]`, minimum reducer. -/
def upResult : CallResult :=
  ⟨Exit.returned ReturnType.kSuccess,
    { engineWith 0 2 (-1) 8 [freshLink 1] with
      tree_links :=
        [{ freshLink 1 with
            size_read := 3, size_write := 3, buffer_head := [1, 8], buffer_size := 2,
            rx := [3, 8, 1], tx := [3, 2, 1] }] },
    [3, 2, 1], none, 2⟩

/-- Four wakes of a worker with its parent on link 0 and a child on link 1: the child
delivers `[3, 8]` and `[1]`, the parent takes the reduced bytes and returns `[1, 1, 1]`. -/
def downEnv : List Wake :=
  [wakeOf [⟨false, false, RecvResult.error EAGAIN, SendResult.accepted 2⟩,
      ⟨false, true, RecvResult.data [3, 8], SendResult.accepted 5⟩],
    wakeOf [⟨false, true, RecvResult.data [1, 1, 1], SendResult.accepted 2⟩,
      ⟨false, true, RecvResult.data [1], SendResult.accepted 2⟩],
    wakeOf [⟨false, true, RecvResult.data [1, 1], SendResult.accepted 2⟩,
      ⟨false, false, RecvResult.error EAGAIN, SendResult.accepted 2⟩],
    wakeOf [⟨false, true, RecvResult.data [1, 7], SendResult.accepted 2⟩,
      ⟨false, false, RecvResult.error EAGAIN, SendResult.accepted 2⟩]]

/-- The child link of worker 1 after `downEnv`. -/
def downChild : LinkRecord :=
  { freshLink 2 with
    size_read := 3, size_write := 3, buffer_head := [1, 8], buffer_size := 2,
    rx := [3, 8, 1], tx := [1, 1, 1] }

/-- The state worker 1 of a cohort of three is left in by `downEnv`. -/
def downResult : CallResult :=
  ⟨Exit.returned ReturnType.kSuccess,
    { engineWith 1 3 0 8 [freshLink 0, freshLink 2] with
      tree_links := [{ freshLink 0 with rx := [1, 1, 1], tx := [3, 2, 1] }, downChild] },
    [1, 1, 1], none, 2⟩

/-- The locals of `TryAllreduce` at the top of the iterations of its main loop (line 364,
one state per evaluation of the wait set), in order, for the wakes `env`: the recursion of
`allreduceLoop`, keeping every state the loop passes through. -/
def allreduceTops (reducer : ReduceFunction) (parent_index : Int)
    (type_nbytes total_size : Nat) : List Wake → AllreduceState → List AllreduceState
  | [], s => [s]
  | w :: ws, s =>
    if (allreduceWatch parent_index total_size s.size_up_reduce s.size_up_out s.size_down_in
        0 s.links (true, SelectHelper.empty)).1 = true then [s]
    else
      match allreduceBody reducer parent_index type_nbytes total_size
          (allreduceWatch parent_index total_size s.size_up_reduce s.size_up_out
            s.size_down_in 0 s.links (true, SelectHelper.empty)).2 w s with
      | Step.next s1 => s :: allreduceTops reducer parent_index type_nbytes total_size ws s1
      | Step.stop _ _ _ => [s]
      | Step.undefined => [s]

/-- The tops of the iterations of the main loop in a call of `TryAllreduce`: none when the
call returns at line 339, else those of the loop started as lines 341-362 prepare it. -/
def TryAllreduce_tops (ring_size : Nat → Nat → Nat → Nat) (eng : AllreduceBase)
    (sendrecvbuf : List Nat) (type_nbytes count : Nat) (reducer : ReduceFunction)
    (exec : Option PreprocLoopExecutor) (env : List Wake) : List AllreduceState :=
  if eng.tree_links.length = 0 ∨ count = 0 then []
  else
    allreduceTops reducer eng.parent_index type_nbytes ((type_nbytes * count) % 2 ^ 64) env
      ⟨sendrecvbuf,
        if (eng.tree_links.length : Int) = (if eng.parent_index ≠ -1 then 1 else 0) then
          (type_nbytes * count) % 2 ^ 64
        else 0,
        0, 0,
        allreduceInit ring_size eng.parent_index type_nbytes count eng.reduce_buffer_size 0
          eng.tree_links,
        exec, 0⟩

/-- The ordering of the cursors of `TryAllreduce` for a message of `T` bytes: the three
cursors of the function, and those of every child link against them. -/
def CursorOrder (parent_index : Int) (T : Nat) (s : AllreduceState) : Prop :=
  s.size_down_in ≤ s.size_up_out ∧ s.size_up_out ≤ s.size_up_reduce ∧ s.size_up_reduce ≤ T ∧
    ∀ (i : Nat) (l : LinkRecord), s.links[i]? = some l → (i : Int) ≠ parent_index →
      l.size_write ≤ s.size_down_in ∧ s.size_up_out ≤ l.size_read ∧
        l.size_read ≤ s.size_up_out + l.buffer_size ∧ l.size_write ≤ l.size_read

/-- No cursor of the links `links'` is behind the same cursor of `links`. -/
def LinksLe (links links' : List LinkRecord) : Prop :=
  links'.length = links.length ∧
    ∀ (i : Nat) (l l' : LinkRecord), links[i]? = some l → links'[i]? = some l' →
      l.size_read ≤ l'.size_read ∧ l.size_write ≤ l'.size_write

/-- No cursor of the state `s'` is behind the same cursor of the state `s`. -/
def CursorsLe (s s' : AllreduceState) : Prop :=
  s.size_up_reduce ≤ s'.size_up_reduce ∧ s.size_up_out ≤ s'.size_up_out ∧
    s.size_down_in ≤ s'.size_down_in ∧ LinksLe s.links s'.links

/-- The cursors of a state: `(size_down_in, size_up_out, size_up_reduce)` and, for every
link, `(size_write, size_read, buffer_size)`. -/
def cursorsOf (s : AllreduceState) : (Nat × Nat × Nat) × List (Nat × Nat × Nat) :=
  ((s.size_down_in, s.size_up_out, s.size_up_reduce),
    s.links.map (fun l => (l.size_write, l.size_read, l.buffer_size)))

/-- One wake of the root of a cohort of two: the child delivers four bytes, one more than the
message of three, and accepts what it is sent. -/
def overrunEnv : List Wake :=
  [wakeOf [⟨false, true, RecvResult.data [3, 8, 1, 9], SendResult.accepted 5⟩]]

/-- Three wakes of the root of a cohort of two, for two-byte elements: the child delivers one
byte, then two, then the last one, and accepts up to three bytes per send. -/
def partialEnv : List Wake :=
  [wakeOf [⟨false, true, RecvResult.data [3], SendResult.accepted 3⟩],
    wakeOf [⟨false, true, RecvResult.data [8, 1], SendResult.accepted 3⟩],
    wakeOf [⟨false, true, RecvResult.data [9], SendResult.accepted 3⟩]]

/-- Lines 447-455: one round of the loop `while (size_up_reduce < max_reduce)` on the segment
of `nread` bytes at offset `start` of the ring buffers; the state is the buffer,
`size_up_reduce` and the count of reducer calls, as in `reduceLoop`. -/
def reduceRound (reducer : ReduceFunction) (type_nbytes : Nat) (childs : List LinkRecord)
    (start nread : Nat) (st : List Nat × Nat × Nat) : List Nat × Nat × Nat :=
  (writeAt st.1 st.2.1
      (reduceSegment reducer type_nbytes start nread childs (slice st.1 st.2.1 nread)),
    st.2.1 + nread, st.2.2 + childs.length)

/-- The state of the root of a cohort of two in the middle of an Allreduce of four two-byte
elements: six bytes have arrived from the child, ring buffers of four bytes, the first
element is reduced and passed on. -/
def wrapState : AllreduceState :=
  ⟨[1, 2, 7, 7, 7, 7, 7, 7], 2, 2, 2,
    [{ freshLink 1 with
        size_read := 6, size_write := 2, buffer_head := [5, 6, 3, 4], buffer_size := 4,
        rx := [1, 2, 3, 4, 5, 6], tx := [1, 2] }],
    none, 1⟩

/-- One wake of a worker with its parent on link 0: the parent is readable and its `recv`
returns zero bytes. -/
def shutdownEnv : List Wake :=
  [wakeOf [⟨false, true, RecvResult.data [], SendResult.accepted 1⟩]]

/-- The state worker 1 of a cohort of three (parent on link 0, child on link 1, ring buffers
of four bytes) is left in by `shutdownEnv`: the parent's socket is closed. -/
def shutdownResult : CallResult :=
  ⟨Exit.returned ReturnType.kRecvZeroLen,
    { engineWith 1 3 0 8 [freshLink 0, freshLink 2] with
      err_link := some 0
      tree_links :=
        [{ freshLink 0 with sock := { closed := true } },
          { freshLink 2 with buffer_head := [0, 0, 0, 0], buffer_size := 4 }] },
    [1, 2], none, 0⟩

/-! ## Theorems -/

/-! ### C3: the trivial Allreduce -/

/-- C3. With an empty tree link set or `count == 0`, `TryAllreduce` returns `kSuccess` at once,
whatever the buffer, the element size, the reducer, the executor and the environment: the
buffer, the engine (links, cursors, sockets, `err_link`) and the executor (`run_calls`
included) are returned as they were, and the reducer has been called zero times. -/
theorem TryAllreduce_trivial (ring_size : Nat → Nat → Nat → Nat) (eng : AllreduceBase)
    (sendrecvbuf : List Nat) (type_nbytes count : Nat) (reducer : ReduceFunction)
    (exec : Option PreprocLoopExecutor) (env : List Wake)
    (h : eng.tree_links = [] ∨ count = 0) :
    TryAllreduce ring_size eng sendrecvbuf type_nbytes count reducer exec env =
      some ⟨Exit.returned ReturnType.kSuccess, eng, sendrecvbuf, exec, 0⟩ := by
  unfold TryAllreduce
  have h2 : eng.tree_links.length = 0 ∨ count = 0 := by
    rcases h with h | h
    · left; simp [h]
    · right; exact h
  rw [if_pos h2]

/-- C3, the scenario of the spec: N = 1, sum reducer, `[7,7,7]` stays `[7,7,7]`. -/
theorem TryAllreduce_trivial_witness :
    (engineWith 0 1 (-1) 8 []).tree_links = [] ∧
    TryAllreduce (fun _ _ _ => 8) (engineWith 0 1 (-1) 8 []) [7, 7, 7] 1 3 sumReducer none [] =
      some ⟨Exit.returned ReturnType.kSuccess, engineWith 0 1 (-1) 8 [], [7, 7, 7], none, 0⟩ :=
  ⟨rfl, TryAllreduce_trivial (fun _ _ _ => 8) (engineWith 0 1 (-1) 8 []) [7, 7, 7] 1 3
    sumReducer none [] (Or.inl rfl)⟩

/-! ### C5: the root check of TryBroadcast -/

/-- C5, counterexample: with an empty link set (and with `total_size == 0`) a broadcast whose
root is not smaller than the world size returns `kSuccess`. -/
theorem TryBroadcast_root_check_counterexample :
    ¬ ((5 : Int) < (engineWith 0 1 (-1) 8 []).world_size) ∧
    (TryBroadcast (engineWith 0 1 (-1) 8 []) [1, 2] 2 5 []).map (fun r => r.exit) =
      some (Exit.returned ReturnType.kSuccess) ∧
    (TryBroadcast (engineWith 0 2 (-1) 8 [freshLink 1]) [] 0 5 []).map (fun r => r.exit) =
      some (Exit.returned ReturnType.kSuccess) := by
  decide

/-- C5, amended. For a call with `root >= world_size`: when the link set is not empty and
`total_size > 0` the call fails with the check "Broadcast: root should be smaller than world
size" (and so does not return `kSuccess`), with the buffer and the engine untouched; when the
link set is empty or `total_size == 0` the call returns `kSuccess` before the check. -/
theorem TryBroadcast_root_check (eng : AllreduceBase) (sendrecvbuf : List Nat)
    (total_size : Nat) (root : Int) (env : List Wake) (hroot : eng.world_size ≤ root) :
    (eng.tree_links ≠ [] ∧ total_size ≠ 0 →
      TryBroadcast eng sendrecvbuf total_size root env =
        some ⟨Exit.aborted AssertMsg.broadcast_root_check, eng, sendrecvbuf, -2, 0⟩) ∧
    (eng.tree_links = [] ∨ total_size = 0 →
      TryBroadcast eng sendrecvbuf total_size root env =
        some ⟨Exit.returned ReturnType.kSuccess, eng, sendrecvbuf, -2, 0⟩) := by
  constructor
  · rintro ⟨hl, ht⟩
    have h1 : ¬ (eng.tree_links.length = 0 ∨ total_size = 0) := by
      rintro (h | h)
      · exact hl (List.length_eq_zero.mp h)
      · exact ht h
    have h2 : ¬ root < eng.world_size := not_lt.mpr hroot
    unfold TryBroadcast
    rw [if_neg h1, if_pos h2]
  · intro h
    have h1 : eng.tree_links.length = 0 ∨ total_size = 0 := by
      rcases h with h | h
      · left; simp [h]
      · right; exact h
    unfold TryBroadcast
    rw [if_pos h1]

/-- C5, amended, at a concrete call: two links, five bytes, root 7 in a world of 3. -/
theorem TryBroadcast_root_check_witness :
    (engineWith 0 3 (-1) 8 [freshLink 1, freshLink 2]).world_size ≤ 7 ∧
    TryBroadcast (engineWith 0 3 (-1) 8 [freshLink 1, freshLink 2]) [0, 0, 0, 0, 0] 5 7 [] =
      some ⟨Exit.aborted AssertMsg.broadcast_root_check,
        engineWith 0 3 (-1) 8 [freshLink 1, freshLink 2], [0, 0, 0, 0, 0], -2, 0⟩ :=
  ⟨by decide,
    (TryBroadcast_root_check (engineWith 0 3 (-1) 8 [freshLink 1, freshLink 2])
      [0, 0, 0, 0, 0] 5 7 [] (by decide)).1 ⟨by decide, by decide⟩⟩

/-! ### C7: the classification of a parent shutdown -/

/-- C7, the code at the failing input: a worker whose only link is its parent, two one-byte
elements, the parent readable and its `recv` returning zero bytes while `size_down_in = 0 < 2`.
`TryAllreduce` returns `kRecvZeroLen`, not `kSockError`, with the parent as the link
reported; the value is none of `kSuccess`, `kSockError`, `kGetExcept`. -/
theorem TryAllreduce_parent_shutdown_returns_kRecvZeroLen :
    (TryAllreduce (fun _ _ _ => 4) (engineWith 1 2 0 8 [freshLink 0]) [1, 2] 1 2
        (fun _ dst _ _ => dst) none
        [wakeAll ⟨false, true, RecvResult.data [], SendResult.accepted 1⟩]).map
      (fun r => (r.exit, r.engine.err_link)) =
      some (Exit.returned ReturnType.kRecvZeroLen, some 0) ∧
    ReturnType.kRecvZeroLen ≠ ReturnType.kSuccess ∧
    ReturnType.kRecvZeroLen ≠ ReturnType.kSockError ∧
    ReturnType.kRecvZeroLen ≠ ReturnType.kGetExcept := by
  decide

/-! ### C8: the parameter rabit_reduce_buffer -/

/-- The ring buffer of every child is sized by `ring_size` applied to the engine's
`reduce_buffer_size`. -/
theorem allreduceInit_buffer_size (ring_size : Nat → Nat → Nat → Nat) (parent_index : Int)
    (type_nbytes count target : Nat) (links : List LinkRecord) :
    ∀ (k i : Nat) (l : LinkRecord),
      (allreduceInit ring_size parent_index type_nbytes count target k links)[i]? = some l →
      ((k + i : Nat) : Int) ≠ parent_index →
      l.buffer_size = ring_size type_nbytes count target ∧
        l.buffer_head.length = ring_size type_nbytes count target := by
  induction links with
  | nil => intro k i l h; simp [allreduceInit] at h
  | cons a as ih =>
    intro k i l h hne
    cases i with
    | zero =>
      simp only [allreduceInit, List.getElem?_cons_zero, Option.some.injEq] at h
      have hk : (k : Int) ≠ parent_index := by simpa using hne
      rw [if_pos hk] at h
      subst h
      unfold LinkRecord.InitBuffer LinkRecord.ResetSize
      by_cases hc : a.buffer_size = ring_size type_nbytes count target ∧
          a.buffer_head.length = ring_size type_nbytes count target
      · simp [hc]
      · simp [hc]
    | succ j =>
      simp only [allreduceInit, List.getElem?_cons_succ] at h
      have hne2 : ((k + 1 + j : Nat) : Int) ≠ parent_index := by
        have : k + 1 + j = k + (j + 1) := by omega
        rw [this]; exact hne
      exact ih (k + 1) j l h hne2

/-- C10, counterexample: with `len = 2` the second record of `dst` is left as it was
(`num_left` stays 4 where the contract asks for 4 + 2). -/
theorem LoopStatus_Reducer_counterexample :
    LoopStatus.Reducer [⟨1, 1, 0⟩, ⟨2, 2, 0⟩] [⟨3, 3, 0⟩, ⟨4, 4, 0⟩] 2 24 =
      some [⟨4, 3, 0⟩, ⟨4, 4, 0⟩] ∧
    (⟨4, 4, 0⟩ : LoopStatus).num_left ≠ (⟨4, 4, 0⟩ : LoopStatus).num_left +
      (⟨2, 2, 0⟩ : LoopStatus).num_left := by
  decide

/-- C10, amended. Whatever `len` and `dtype` are, `LoopStatus::Reducer` combines the first
record only: `dst[0]` gets `num_left = dst[0].num_left + src[0].num_left`, `max_left =
max(dst[0].max_left, src[0].max_left)` and `num_finish = dst[0].num_finish +
src[0].num_finish` (`size_t` arithmetic), every other record of `dst` is unchanged and `src`
is only read. This is the reducer contract for `len == 1`, the length `TryExecLoop` uses. -/
theorem LoopStatus_Reducer_first_record (s d : LoopStatus) (ss ds : List LoopStatus)
    (len : Int) (dtype : Nat) :
    LoopStatus.Reducer (s :: ss) (d :: ds) len dtype =
      some (⟨(d.num_left + s.num_left) % 2 ^ 64, max d.max_left s.max_left,
        (d.num_finish + s.num_finish) % 2 ^ 64⟩ :: ds) := by
  rfl

/-! ### C9: the achieved ratio of TryExecLoop -/

/-- Subtraction of `size_t` values without borrow is the subtraction of numbers. -/
theorem size_t_sub_eq (a b : Nat) (ha : a < 2 ^ 64) (hb : b ≤ a) : size_t_sub a b = a - b := by
  unfold size_t_sub
  rw [Nat.mod_eq_of_lt ha, Nat.mod_eq_of_lt (lt_of_le_of_lt hb ha)]
  have : a + 2 ^ 64 - b = (a - b) + 2 ^ 64 := by omega
  rw [this, Nat.add_mod_right, Nat.mod_eq_of_lt]
  omega

/-- With a ratio of at most one, the truncated product does not exceed the total. -/
theorem static_cast_size_t_le (r : ℚ) (n : Nat) (hr1 : r ≤ 1) :
    static_cast_size_t (r * (n : ℚ)) ≤ n := by
  unfold static_cast_size_t
  have h1 : r * (n : ℚ) ≤ (n : ℚ) := by
    have : (0 : ℚ) ≤ (n : ℚ) := Nat.cast_nonneg n
    nlinarith
  have h2 : ⌊r * (n : ℚ)⌋ ≤ (n : Int) := by
    have h3 : (⌊r * (n : ℚ)⌋ : ℚ) ≤ r * (n : ℚ) := Int.floor_le _
    have h4 : (⌊r * (n : ℚ)⌋ : ℚ) ≤ ((n : Int) : ℚ) := by
      push_cast
      linarith
    exact_mod_cast h4
  omega

/-- The ratio reported for a `num_left` that is zero or below `approx_gap` lies between the
requested ratio and one. -/
theorem ratio_bounds (r : ℚ) (nt nl : Nat) (hr1 : r ≤ 1) (hnt : 0 < nt)
    (hnl : nl = 0 ∨ nl < nt - static_cast_size_t (r * (nt : ℚ))) :
    r ≤ ((nt - nl : Nat) : ℚ) / (nt : ℚ) ∧ ((nt - nl : Nat) : ℚ) / (nt : ℚ) ≤ 1 := by
  have hntq : (0 : ℚ) < (nt : ℚ) := by exact_mod_cast hnt
  constructor
  · rw [le_div_iff₀ hntq]
    rcases hnl with h | h
    · subst h
      simp only [Nat.sub_zero]
      nlinarith
    · have hF : (r * (nt : ℚ)) < ((static_cast_size_t (r * (nt : ℚ)) : Nat) : ℚ) + 1 := by
        unfold static_cast_size_t
        have h1 : r * (nt : ℚ) < (⌊r * (nt : ℚ)⌋ : ℚ) + 1 := Int.lt_floor_add_one _
        have h2 : ⌊r * (nt : ℚ)⌋ ≤ ((⌊r * (nt : ℚ)⌋.toNat : Nat) : Int) :=
          Int.self_le_toNat _
        have h3 : (⌊r * (nt : ℚ)⌋ : ℚ) ≤ ((⌊r * (nt : ℚ)⌋.toNat : Nat) : ℚ) := by
          exact_mod_cast h2
        linarith
      have h4 : static_cast_size_t (r * (nt : ℚ)) + 1 ≤ nt - nl := by omega
      have h5 : ((static_cast_size_t (r * (nt : ℚ)) : Nat) : ℚ) + 1 ≤ ((nt - nl : Nat) : ℚ) := by
        exact_mod_cast h4
      linarith
  · rw [div_le_one hntq]
    exact_mod_cast Nat.sub_le nt nl


/-- What the final status Allreduce and the report of lines 680-690 store. -/
theorem execLoopFinish_out (nli nt : Nat) (replies : List StatusReply)
    (exec : PreprocLoopExecutor) (nl : Nat) (contributed : List LoopStatus)
    (res : ExecLoopResult)
    (h : execLoopFinish nli nt true replies exec nl contributed = some res)
    (hret : res.ret = ReturnType.kSuccess) :
    (nl = 0 ∧ res.out_rapprox = some ((size_t_sub nt 0 : ℚ) / (nt : ℚ)) ∧
      res.contributed = contributed) ∨
    (nl ≠ 0 ∧ ∃ r rs, replies = r :: rs ∧
      res.out_rapprox = some ((size_t_sub nt r.status.num_left : ℚ) / (nt : ℚ)) ∧
      res.contributed.length = contributed.length + 1) := by
  unfold execLoopFinish at h
  by_cases hnl : nl = 0
  · left
    subst hnl
    simp only [ne_eq, not_true_eq_false, if_false, if_true, Option.some.injEq] at h
    subst h
    exact ⟨rfl, rfl, rfl⟩
  · right
    rw [if_pos hnl] at h
    cases replies with
    | nil => simp at h
    | cons r rs =>
      simp only at h
      by_cases hr : r.ret ≠ ReturnType.kSuccess
      · rw [if_pos hr] at h
        simp only [Option.some.injEq] at h
        subst h
        exact absurd hret hr
      · rw [if_neg hr] at h
        simp only [if_true, Option.some.injEq] at h
        subst h
        exact ⟨hnl, r, rs, rfl, rfl, by simp⟩

/-- With nothing left the loop check is skipped. -/
theorem execLoopCheck_zero (eng : AllreduceBase) (nli nt gap : Nat) (b : Bool)
    (rs : List StatusReply) (exec : PreprocLoopExecutor) (c : List LoopStatus) :
    execLoopCheck eng nli nt gap b rs exec 0 c = execLoopFinish nli nt b rs exec 0 c := by
  cases rs with
  | nil => simp [execLoopCheck]
  | cons a as => simp [execLoopCheck]

/-- The loop check, entered with work left, ends on the reply `rep` of the last status
Allreduce it makes and reports the ratio for the `num_left` of that reply. -/
theorem execLoopCheck_out (eng : AllreduceBase) (nli nt gap : Nat) :
    ∀ (replies : List StatusReply) (exec : PreprocLoopExecutor) (nl : Nat)
      (contributed : List LoopStatus) (res : ExecLoopResult),
      nl ≠ 0 →
      execLoopCheck eng nli nt gap true replies exec nl contributed = some res →
      res.ret = ReturnType.kSuccess →
      List.Chain (fun a b => b ≤ a) nl (replies.map (fun x => x.status.num_left)) →
      ∃ pre rep post, replies = pre ++ rep :: post ∧
        res.contributed.length = contributed.length + pre.length + 1 ∧
        res.out_rapprox = some ((size_t_sub nt rep.status.num_left : ℚ) / (nt : ℚ)) ∧
        (rep.status.num_left = 0 ∨ rep.status.num_left < gap) ∧
        rep.status.num_left ≤ nl := by
  intro replies
  induction replies with
  | nil =>
    intro exec nl contributed res hnl h _ _
    simp [execLoopCheck, hnl] at h
  | cons r rs ih =>
    intro exec nl contributed res hnl h hret hchain
    simp only [List.map_cons, List.chain_cons] at hchain
    obtain ⟨hle, hchain⟩ := hchain
    unfold execLoopCheck at h
    rw [if_pos hnl] at h
    simp only at h
    by_cases hr : r.ret ≠ ReturnType.kSuccess
    · rw [if_pos hr] at h
      simp only [Option.some.injEq] at h
      subst h
      exact absurd hret hr
    · rw [if_neg hr] at h
      by_cases hbr : r.status.num_left < gap ∧
          (r.status.num_finish : ℚ) > (eng.world_size : ℚ) * (1 / 2)
      · rw [if_pos hbr] at h
        rcases execLoopFinish_out _ _ _ _ _ _ _ h hret with ⟨h0, hout, hc⟩ | ⟨_, r2, rs2, hrs, hout, hc⟩
        · refine ⟨[], r, rs, rfl, ?_, ?_, Or.inl h0, hle⟩
          · rw [hc]; simp
          · rw [hout, h0]
        · subst hrs
          simp only [List.map_cons, List.chain_cons] at hchain
          refine ⟨[r], r2, rs2, rfl, ?_, hout, Or.inr (lt_of_le_of_lt hchain.1 hbr.1),
            le_trans hchain.1 hle⟩
          rw [hc]; simp
      · rw [if_neg hbr] at h
        by_cases h0 : r.status.num_left = 0
        · rw [h0, execLoopCheck_zero] at h
          rcases execLoopFinish_out _ _ _ _ _ _ _ h hret with ⟨_, hout, hc⟩ | ⟨hne, _⟩
          · refine ⟨[], r, rs, rfl, ?_, ?_, Or.inl h0, hle⟩
            · rw [hc]; simp
            · rw [hout, h0]
          · exact absurd rfl hne
        · obtain ⟨pre, rep, post, hrs, hlen, hout, hcond, hle2⟩ :=
            ih _ _ _ res h0 h hret hchain
          refine ⟨r :: pre, rep, post, by rw [hrs]; rfl, ?_, hout, hcond, le_trans hle2 hle⟩
          rw [hlen]
          simp
          omega


/-- C9. Reading the arithmetic exactly, for every `approx_ratio <= 1`, every `world_size` and
every `num_loop_iter`: if the status Allreduces return `num_left` values that are at most
`num_total` and never above the previous one, and `TryExecLoop` returns `kSuccess` with
`out_rapprox` non-null, then a value `v` has been stored with `approx_ratio <= v <= 1`; `v` is 1
when `approx_gap == 0`, and otherwise `v = (num_total - num_left) / num_total` for the
`num_left` of the reply `rep` to the last status Allreduce the call made. -/
theorem TryExecLoop_ratio (eng : AllreduceBase) (num_loop_iter : Nat) (approx_ratio : ℚ)
    (num_total : Nat) (replies : List StatusReply) (res : ExecLoopResult)
    (hr1 : approx_ratio ≤ 1) (hnt : num_total < 2 ^ 64)
    (hchain : List.Chain (fun a b => b ≤ a) num_total
      (replies.map (fun x => x.status.num_left)))
    (hrun : TryExecLoop eng num_loop_iter approx_ratio true (ReturnType.kSuccess, num_total)
      replies = some res)
    (hret : res.ret = ReturnType.kSuccess) :
    ∃ v, res.out_rapprox = some v ∧ approx_ratio ≤ v ∧ v ≤ 1 ∧
      (size_t_sub num_total (static_cast_size_t (approx_ratio * (num_total : ℚ))) = 0 →
        v = 1) ∧
      (size_t_sub num_total (static_cast_size_t (approx_ratio * (num_total : ℚ))) ≠ 0 →
        ∃ pre rep post, replies = pre ++ rep :: post ∧
          res.contributed.length = pre.length + 1 ∧
          v = ((num_total - rep.status.num_left : Nat) : ℚ) / (num_total : ℚ)) := by
  have hF := static_cast_size_t_le approx_ratio num_total hr1
  have hgap := size_t_sub_eq num_total _ hnt hF
  unfold TryExecLoop at hrun
  simp only [ne_eq, not_true_eq_false, if_false, if_true] at hrun
  by_cases hg : size_t_sub num_total (static_cast_size_t (approx_ratio * (num_total : ℚ))) = 0
  · rw [if_pos hg] at hrun
    simp only [Option.some.injEq] at hrun
    subst hrun
    exact ⟨1, rfl, hr1, le_refl _, fun _ => rfl, fun h => absurd hg h⟩
  · rw [if_neg hg] at hrun
    have hnt0 : num_total ≠ 0 := by
      intro h0
      apply hg
      rw [hgap, h0]
      simp
    obtain ⟨pre, rep, post, hrs, hlen, hout, hcond, hle⟩ :=
      execLoopCheck_out eng num_loop_iter num_total _ replies _ num_total [] res hnt0 hrun
        hret hchain
    rw [size_t_sub_eq num_total _ hnt hle] at hout
    have hb := ratio_bounds approx_ratio num_total rep.status.num_left hr1
      (Nat.pos_of_ne_zero hnt0) (by rw [hgap] at hcond; exact hcond)
    refine ⟨_, hout, hb.1, hb.2, fun h => absurd h hg, fun _ => ⟨pre, rep, post, hrs, ?_, rfl⟩⟩
    simpa using hlen

/-- The truncation of a value between `n` and `n + 1`. -/
theorem static_cast_size_t_eq (x : ℚ) (n : Nat) (h1 : (n : ℚ) ≤ x) (h2 : x < (n : ℚ) + 1) :
    static_cast_size_t x = n := by
  unfold static_cast_size_t
  have : ⌊x⌋ = (n : Int) := by
    rw [Int.floor_eq_iff]
    constructor
    · exact_mod_cast h1
    · exact_mod_cast h2
  rw [this]
  simp

/-- C9, the scenario of the spec: N = 4, 1000 iterations each, ratio 0.9. The first status
Allreduce agrees on 300 iterations left with 3 workers finished, the final one on 200: the
call reports 3800 / 4000 = 0.95, which lies in [0.9, 1]. -/
theorem TryExecLoop_ratio_witness :
    TryExecLoop (cohortEngine 0 4) 1000 (9 / 10) true (ReturnType.kSuccess, 4000)
      [⟨ReturnType.kSuccess, ⟨300, 100, 3⟩, 3⟩, ⟨ReturnType.kSuccess, ⟨200, 100, 3⟩, 3⟩] =
      some ⟨ReturnType.kSuccess, some (19 / 20),
        ⟨1000, 1, 303, [(0, 300), (300, 301), (301, 302), (302, 303)], 4⟩,
        [⟨700, 700, 0⟩, ⟨697, 697, 0⟩]⟩ ∧
    (9 / 10 : ℚ) ≤ 19 / 20 ∧ (19 / 20 : ℚ) ≤ 1 := by
  have e1 : static_cast_size_t ((4000 : ℚ) * 1000⁻¹ / 4) = 1 :=
    static_cast_size_t_eq _ 1 (by norm_num) (by norm_num)
  have e2 : static_cast_size_t ((9 / 10 : ℚ) * 4000) = 3600 :=
    static_cast_size_t_eq _ 3600 (by norm_num) (by norm_num)
  have e3 : static_cast_size_t ((4000 : ℚ) * (3 / 10) / 4) = 300 :=
    static_cast_size_t_eq _ 300 (by norm_num) (by norm_num)
  have e4 : static_cast_size_t ((4000 : ℚ) * 100⁻¹ / 4) = 10 :=
    static_cast_size_t_eq _ 10 (by norm_num) (by norm_num)
  have e5 : size_t_sub 4000 3600 = 400 := by decide
  have e6 : size_t_sub 1000 300 = 700 := by decide
  have e7 : size_t_sub 1000 303 = 697 := by decide
  have e8 : size_t_sub 4000 200 = 3800 := by decide
  have e6 : size_t_sub 1000 300 = 700 := by decide
  have e7 : size_t_sub 1000 303 = 697 := by decide
  have e8 : size_t_sub 4000 200 = 3800 := by decide
  have h : TryExecLoop (cohortEngine 0 4) 1000 (9 / 10) true (ReturnType.kSuccess, 4000)
      [⟨ReturnType.kSuccess, ⟨300, 100, 3⟩, 3⟩, ⟨ReturnType.kSuccess, ⟨200, 100, 3⟩, 3⟩] =
      some ⟨ReturnType.kSuccess, some (19 / 20),
        ⟨1000, 1, 303, [(0, 300), (300, 301), (301, 302), (302, 303)], 4⟩,
        [⟨700, 700, 0⟩, ⟨697, 697, 0⟩]⟩ := by
    simp [TryExecLoop, execLoopCheck, execLoopFinish, cohortEngine, rawEngine, e1, e2, e3, e4,
      e5, PreprocLoopExecutor.RunStep, PreprocLoopExecutor.Run, Function.iterate_succ,
      LoopStatus.construct, e6, e7, e8]
    norm_num
  obtain ⟨v, hv, h1, h2, _⟩ := TryExecLoop_ratio (cohortEngine 0 4) 1000 (9 / 10) 4000 _ _
    (by norm_num) (by norm_num) (by simp) h rfl
  cases hv
  exact ⟨h, h1, h2⟩

/-! ### The link loop and the phases of an iteration -/

theorem forLinks_length (f : Nat → LinkRecord → ReturnType × LinkRecord) :
    ∀ (links : List LinkRecord) (k : Nat), (forLinks f k links).2.length = links.length := by
  intro links
  induction links with
  | nil => intro k; rfl
  | cons a as ih =>
    intro k
    unfold forLinks
    by_cases h : (f k a).1 = ReturnType.kSuccess
    · rw [if_pos h]; simp [ih]
    · rw [if_neg h]; simp

theorem forLinks_rel (f : Nat → LinkRecord → ReturnType × LinkRecord)
    (R : Nat → LinkRecord → LinkRecord → Prop) (hrefl : ∀ i l, R i l l)
    (hf : ∀ i l, R i l (f i l).2) :
    ∀ (links : List LinkRecord) (k i : Nat) (l l' : LinkRecord),
      links[i]? = some l → (forLinks f k links).2[i]? = some l' → R (k + i) l l' := by
  intro links
  induction links with
  | nil => intro k i l l' h; simp at h
  | cons a as ih =>
    intro k i l l' h h'
    unfold forLinks at h'
    by_cases hs : (f k a).1 = ReturnType.kSuccess
    · rw [if_pos hs] at h'
      cases i with
      | zero =>
        simp only [List.getElem?_cons_zero, Option.some.injEq] at h h'
        subst h; subst h'
        exact hf k a
      | succ j =>
        simp only [List.getElem?_cons_succ] at h h'
        have := ih (k + 1) j l l' h h'
        have e : k + 1 + j = k + (j + 1) := by omega
        rw [e] at this
        exact this
    · rw [if_neg hs] at h'
      cases i with
      | zero =>
        simp only [List.getElem?_cons_zero, Option.some.injEq] at h h'
        subst h; subst h'
        exact hf k a
      | succ j =>
        simp only [List.getElem?_cons_succ] at h h'
        rw [h] at h'
        simp only [Option.some.injEq] at h'
        subst h'
        exact hrefl _ _

theorem forLinks_ok (f : Nat → LinkRecord → ReturnType × LinkRecord) :
    ∀ (links : List LinkRecord) (k : Nat), (forLinks f k links).1 = none →
      ∀ (i : Nat) (l : LinkRecord), links[i]? = some l →
        (forLinks f k links).2[i]? = some (f (k + i) l).2 ∧
          (f (k + i) l).1 = ReturnType.kSuccess := by
  intro links
  induction links with
  | nil => intro k _ i l h; simp at h
  | cons a as ih =>
    intro k hk i l h
    unfold forLinks at hk ⊢
    by_cases hs : (f k a).1 = ReturnType.kSuccess
    · rw [if_pos hs] at hk ⊢
      cases i with
      | zero =>
        simp only [List.getElem?_cons_zero, Option.some.injEq] at h
        subst h
        exact ⟨by simp, by simpa using hs⟩
      | succ j =>
        simp only [List.getElem?_cons_succ] at h ⊢
        have e : k + (j + 1) = k + 1 + j := by omega
        rw [e]
        exact ih (k + 1) hk j l h
    · rw [if_neg hs] at hk
      simp at hk

theorem forLinks_failed (f : Nat → LinkRecord → ReturnType × LinkRecord) :
    ∀ (links : List LinkRecord) (k i : Nat) (ret : ReturnType),
      (forLinks f k links).1 = some (i, ret) → ret ≠ ReturnType.kSuccess := by
  intro links
  induction links with
  | nil => intro k i ret h; simp [forLinks] at h
  | cons a as ih =>
    intro k i ret h
    unfold forLinks at h
    by_cases hs : (f k a).1 = ReturnType.kSuccess
    · rw [if_pos hs] at h
      exact ih (k + 1) i ret h
    · rw [if_neg hs] at h
      simp only [Option.some.injEq, Prod.mk.injEq] at h
      rw [← h.2]
      exact hs


theorem sockStates_eq_of_rel (links links' : List LinkRecord)
    (hlen : links'.length = links.length)
    (h : ∀ (i : Nat) (l l' : LinkRecord), links[i]? = some l → links'[i]? = some l' →
      l'.sock = l.sock) :
    sockStates links' = sockStates links := by
  apply List.ext_getElem?
  intro i
  unfold sockStates
  simp only [List.getElem?_map]
  by_cases hi : i < links.length
  · have hi' : i < links'.length := by omega
    rw [List.getElem?_eq_getElem hi, List.getElem?_eq_getElem hi']
    simp only [Option.map_some', Option.some.injEq]
    rw [h i links[i] links'[i] (List.getElem?_eq_getElem hi) (List.getElem?_eq_getElem hi')]
  · have hi' : ¬ i < links'.length := by omega
    rw [List.getElem?_eq_none (by omega), List.getElem?_eq_none (by omega)]

theorem ReadToRingBuffer_sock (l : LinkRecord) (p : Nat) (ev : LinkEvent) :
    (l.ReadToRingBuffer p ev).2.sock = l.sock := by
  unfold LinkRecord.ReadToRingBuffer
  simp only
  split
  · rfl
  · split
    · rfl
    · split <;> rfl

theorem WriteFromArray_sock (l : LinkRecord) (src : List Nat) (upto : Nat) (ev : LinkEvent) :
    (l.WriteFromArray src upto ev).2.sock = l.sock := by
  unfold LinkRecord.WriteFromArray
  split <;> rfl

theorem ReadToArray_sock (l : LinkRecord) (dst : List Nat) (total : Nat) (ev : LinkEvent) :
    (l.ReadToArray dst total ev).2.1.sock = l.sock := by
  unfold LinkRecord.ReadToArray
  split
  · rfl
  · split
    · rfl
    · dsimp only
      split <;> rfl

theorem forLinks_sockStates (f : Nat → LinkRecord → ReturnType × LinkRecord)
    (hf : ∀ i l, (f i l).2.sock = l.sock) (links : List LinkRecord) (k : Nat) :
    sockStates (forLinks f k links).2 = sockStates links :=
  sockStates_eq_of_rel links _ (forLinks_length f links k)
    (fun i l l' h h' =>
      forLinks_rel f (fun _ a b => b.sock = a.sock) (fun _ _ => rfl) hf links k i l l' h h')

theorem set_sockStates (links : List LinkRecord) (p : Nat) (pl l' : LinkRecord)
    (hp : links[p]? = some pl) (hs : l'.sock = pl.sock) :
    sockStates (links.set p l') = sockStates links := by
  apply sockStates_eq_of_rel
  · simp
  · intro i l l2 h h2
    by_cases hip : p = i
    · subst hip
      rw [hp] at h
      have hlt : p < links.length := by
        by_contra hc
        rw [List.getElem?_eq_none (by omega)] at hp
        simp at hp
      rw [List.getElem?_set_self hlt] at h2
      simp only [Option.some.injEq] at h h2
      subst h; subst h2
      exact hs
    · rw [List.getElem?_set_ne hip] at h2
      rw [h] at h2
      simp only [Option.some.injEq] at h2
      rw [h2]

theorem allreduceInit_sockStates (ring_size : Nat → Nat → Nat → Nat) (parent_index : Int)
    (type_nbytes count target : Nat) :
    ∀ (links : List LinkRecord) (k : Nat),
      sockStates (allreduceInit ring_size parent_index type_nbytes count target k links) =
        sockStates links := by
  intro links
  induction links with
  | nil => intro k; rfl
  | cons a as ih =>
    intro k
    unfold allreduceInit
    have ih' := ih (k + 1)
    unfold sockStates at ih' ⊢
    simp only [List.map_cons, ih']
    congr 1
    unfold LinkRecord.InitBuffer LinkRecord.ResetSize
    split
    · simp only
      split <;> rfl
    · rfl

theorem allreduceReduce_next (reducer : ReduceFunction) (parent_index : Int)
    (type_nbytes total_size : Nat) (s s' : AllreduceState)
    (h : allreduceReduce reducer parent_index type_nbytes total_size s = Step.next s') :
    s'.links = s.links ∧ s'.exec = s.exec ∧ s'.size_up_out = s.size_up_out ∧
      s'.size_down_in = s.size_down_in := by
  unfold allreduceReduce at h
  by_cases hc : s.links.length > (if parent_index ≠ -1 then 1 else 0)
  · rw [if_pos hc] at h
    split at h
    · simp at h
    · dsimp only at h
      split at h
      · simp only [Step.next.injEq] at h
        subst h
        exact ⟨rfl, rfl, rfl, rfl⟩
      · simp at h
      · simp at h
  · rw [if_neg hc] at h
    simp only [Step.next.injEq] at h
    subst h
    exact ⟨rfl, rfl, rfl, rfl⟩

theorem reduceLoop_stop (reducer : ReduceFunction) (type_nbytes buffer_size max_reduce : Nat)
    (childs : List LinkRecord) :
    ∀ (fuel : Nat) (st st' : List Nat × Nat × Nat) (e : Exit) (el : Option Nat),
      reduceLoop reducer type_nbytes buffer_size max_reduce childs fuel st = Step.stop e el st' →
      e = Exit.aborted AssertMsg.allreduce_size_check ∧ el = none := by
  intro fuel
  induction fuel with
  | zero =>
    intro st st' e el h
    obtain ⟨buf, r, calls⟩ := st
    unfold reduceLoop at h
    split at h <;> simp at h
  | succ n ih =>
    intro st st' e el h
    obtain ⟨buf, r, calls⟩ := st
    unfold reduceLoop at h
    by_cases h1 : r < max_reduce
    · rw [if_pos h1] at h
      dsimp only at h
      split at h
      · exact ih _ _ _ _ h
      · simp only [Step.stop.injEq] at h
        exact ⟨h.1.symm, h.2.1.symm⟩
    · rw [if_neg h1] at h
      simp at h

theorem allreduceReduce_stop (reducer : ReduceFunction) (parent_index : Int)
    (type_nbytes total_size : Nat) (s s' : AllreduceState) (e : Exit) (el : Option Nat)
    (h : allreduceReduce reducer parent_index type_nbytes total_size s = Step.stop e el s') :
    s'.links = s.links ∧ (∃ m, e = Exit.aborted m) ∧ el = none := by
  unfold allreduceReduce at h
  by_cases hc : s.links.length > (if parent_index ≠ -1 then 1 else 0)
  · rw [if_pos hc] at h
    split at h
    · simp only [Step.stop.injEq] at h
      obtain ⟨h1, h2, h3⟩ := h
      subst h3
      exact ⟨rfl, ⟨_, h1.symm⟩, h2.symm⟩
    · dsimp only at h
      split at h
      · simp at h
      · rename_i heq
        simp only [Step.stop.injEq] at h
        obtain ⟨h1, h2, h3⟩ := h
        subst h3; subst h1; subst h2
        have := reduceLoop_stop _ _ _ _ _ _ _ _ _ _ heq
        exact ⟨rfl, ⟨_, this.1⟩, this.2⟩
      · simp at h
  · rw [if_neg hc] at h
    simp at h

theorem allreduceSendUp_next (p : Nat) (w : Wake) (s s' : AllreduceState)
    (h : allreduceSendUp p w s = Step.next s') :
    s' = s ∨
    (s.size_up_out < s.size_up_reduce ∧ ∃ pl n, s.links[p]? = some pl ∧
      s' = { s with
        size_up_out := s.size_up_out +
          (slice s.sendrecvbuf s.size_up_out (min n (s.size_up_reduce - s.size_up_out))).length
        links := s.links.set p { pl with
          tx := pl.tx ++
            slice s.sendrecvbuf s.size_up_out (min n (s.size_up_reduce - s.size_up_out)) } }) := by
  unfold allreduceSendUp at h
  by_cases hc : s.size_up_out < s.size_up_reduce
  · rw [if_pos hc] at h
    cases hp : s.links[p]? with
    | none => rw [hp] at h; simp at h
    | some pl =>
      rw [hp] at h
      dsimp only at h
      cases hs : (w p).send with
      | accepted n =>
        rw [hs] at h
        simp only [Step.next.injEq] at h
        right
        exact ⟨hc, pl, n, rfl, h.symm⟩
      | error e =>
        rw [hs] at h
        dsimp only at h
        split at h
        · simp at h
        · simp only [Step.next.injEq] at h
          left; exact h.symm
  · rw [if_neg hc] at h
    simp only [Step.next.injEq] at h
    left; exact h.symm

theorem allreduceSendUp_stop (p : Nat) (w : Wake) (s s' : AllreduceState) (e : Exit)
    (el : Option Nat) (h : allreduceSendUp p w s = Step.stop e el s') :
    s' = s ∧ el = some p ∧ ∃ r, e = Exit.returned r ∧ r ≠ ReturnType.kSuccess ∧
      r ≠ ReturnType.kRecvZeroLen := by
  unfold allreduceSendUp at h
  by_cases hc : s.size_up_out < s.size_up_reduce
  · rw [if_pos hc] at h
    cases hp : s.links[p]? with
    | none => rw [hp] at h; simp at h
    | some pl =>
      rw [hp] at h
      dsimp only at h
      cases hs : (w p).send with
      | accepted n => rw [hs] at h; simp at h
      | error e =>
        rw [hs] at h
        dsimp only at h
        split at h
        · rename_i hne
          simp only [Step.stop.injEq] at h
          refine ⟨h.2.2.symm, h.2.1.symm, _, h.1.symm, hne, ?_⟩
          unfold Errno2Return
          split <;> simp
        · simp at h
  · rw [if_neg hc] at h
    simp at h

theorem allreduceRecvDown_next (p : Nat) (selecter : SelectHelper) (w : Wake)
    (total_size : Nat) (s s' : AllreduceState)
    (h : allreduceRecvDown p selecter w total_size s = Step.next s') :
    s' = s ∨
    (s.size_down_in < total_size ∧ ∃ pl got, s.links[p]? = some pl ∧ got ≠ [] ∧
      got.length ≤ total_size - s.size_down_in ∧
      s.size_down_in + got.length ≤ s.size_up_out ∧
      s' = { s with
        sendrecvbuf := writeAt s.sendrecvbuf s.size_down_in got
        size_down_in := s.size_down_in + got.length
        links := s.links.set p { pl with rx := pl.rx ++ got } }) := by
  unfold allreduceRecvDown at h
  by_cases hc : selecter.CheckRead w p = true ∧ total_size > s.size_down_in
  · rw [if_pos hc] at h
    cases hp : s.links[p]? with
    | none => rw [hp] at h; simp at h
    | some pl =>
      rw [hp] at h
      dsimp only at h
      cases hs : (w p).recv with
      | data bytes =>
        rw [hs] at h
        dsimp only at h
        by_cases hz : (List.take (total_size - s.size_down_in) bytes).length = 0
        · rw [if_pos hz] at h; simp at h
        · rw [if_neg hz] at h
          by_cases hb : s.size_down_in + (List.take (total_size - s.size_down_in) bytes).length ≤
              s.size_up_out
          · rw [if_pos hb] at h
            simp only [Step.next.injEq] at h
            right
            refine ⟨hc.2, pl, _, rfl, ?_, ?_, hb, h.symm⟩
            · intro hnil
              rw [hnil] at hz
              exact hz rfl
            · simp
          · rw [if_neg hb] at h; simp at h
      | error e =>
        rw [hs] at h
        dsimp only at h
        split at h
        · simp at h
        · simp only [Step.next.injEq] at h
          left; exact h.symm
  · rw [if_neg hc] at h
    simp only [Step.next.injEq] at h
    left; exact h.symm

theorem allreduceRecvDown_stop (p : Nat) (selecter : SelectHelper) (w : Wake)
    (total_size : Nat) (s s' : AllreduceState) (e : Exit) (el : Option Nat)
    (h : allreduceRecvDown p selecter w total_size s = Step.stop e el s') :
    (s'.links = s.links ∧ e ≠ Exit.returned ReturnType.kSuccess) ∨
    (e = Exit.returned ReturnType.kRecvZeroLen ∧ el = some p ∧
      ∃ pl, s.links[p]? = some pl ∧
        s'.links = s.links.set p { pl with sock := { closed := true } }) ∨
    (e = Exit.aborted AssertMsg.allreduce_boundary_error ∧ el = none ∧
      ∃ pl l', s.links[p]? = some pl ∧ l'.sock = pl.sock ∧ s'.links = s.links.set p l') := by
  unfold allreduceRecvDown at h
  by_cases hc : selecter.CheckRead w p = true ∧ total_size > s.size_down_in
  · rw [if_pos hc] at h
    cases hp : s.links[p]? with
    | none => rw [hp] at h; simp at h
    | some pl =>
      rw [hp] at h
      dsimp only at h
      cases hs : (w p).recv with
      | data bytes =>
        rw [hs] at h
        dsimp only at h
        by_cases hz : (List.take (total_size - s.size_down_in) bytes).length = 0
        · rw [if_pos hz] at h
          simp only [Step.stop.injEq] at h
          right; left
          refine ⟨h.1.symm, h.2.1.symm, pl, rfl, ?_⟩
          rw [← h.2.2]
        · rw [if_neg hz] at h
          by_cases hb : s.size_down_in + (List.take (total_size - s.size_down_in) bytes).length ≤
              s.size_up_out
          · rw [if_pos hb] at h; simp at h
          · rw [if_neg hb] at h
            simp only [Step.stop.injEq] at h
            right; right
            refine ⟨h.1.symm, h.2.1.symm, pl,
              { pl with rx := pl.rx ++ List.take (total_size - s.size_down_in) bytes },
              rfl, rfl, ?_⟩
            rw [← h.2.2]
      | error e =>
        rw [hs] at h
        dsimp only at h
        split at h
        · rename_i hne
          simp only [Step.stop.injEq] at h
          left
          refine ⟨by rw [← h.2.2], ?_⟩
          rw [← h.1]
          intro hh
          simp only [Exit.returned.injEq] at hh
          exact hne hh
        · simp at h
  · rw [if_neg hc] at h
    simp at h

theorem andThen_next {σ : Type} (r : Step σ) (f : σ → Step σ) (s' : σ)
    (h : r.andThen f = Step.next s') : ∃ s1, r = Step.next s1 ∧ f s1 = Step.next s' := by
  cases r with
  | next s1 => exact ⟨s1, rfl, h⟩
  | stop e el s1 => simp [Step.andThen] at h
  | undefined => simp [Step.andThen] at h

theorem andThen_stop {σ : Type} (r : Step σ) (f : σ → Step σ) (e : Exit) (el : Option Nat)
    (s' : σ) (h : r.andThen f = Step.stop e el s') :
    r = Step.stop e el s' ∨ ∃ s1, r = Step.next s1 ∧ f s1 = Step.stop e el s' := by
  cases r with
  | next s1 => exact Or.inr ⟨s1, rfl, h⟩
  | stop e1 el1 s1 => left; exact h
  | undefined => simp [Step.andThen] at h

theorem afterLinks_next {σ : Type} (r : Option (Nat × ReturnType) × List LinkRecord)
    (k : List LinkRecord → σ) (s' : σ) (h : afterLinks r k = Step.next s') :
    r.1 = none ∧ s' = k r.2 := by
  unfold afterLinks at h
  split at h
  · rename_i heq
    simp only [Step.next.injEq] at h
    exact ⟨heq, h.symm⟩
  · simp at h

theorem afterLinks_stop {σ : Type} (r : Option (Nat × ReturnType) × List LinkRecord)
    (k : List LinkRecord → σ) (e : Exit) (el : Option Nat) (s' : σ)
    (h : afterLinks r k = Step.stop e el s') :
    ∃ i ret, r.1 = some (i, ret) ∧ e = Exit.returned ret ∧ el = some i ∧ s' = k r.2 := by
  unfold afterLinks at h
  split at h
  · simp at h
  · rename_i i ret heq
    simp only [Step.stop.injEq] at h
    exact ⟨i, ret, heq, h.1.symm, h.2.1.symm, h.2.2.symm⟩

theorem allreduceSendUp_socks (p : Nat) (w : Wake) (s s' : AllreduceState)
    (h : allreduceSendUp p w s = Step.next s') :
    sockStates s'.links = sockStates s.links := by
  rcases allreduceSendUp_next p w s s' h with h1 | ⟨_, pl, n, hp, h1⟩
  · rw [h1]
  · rw [h1]
    exact set_sockStates s.links p pl _ hp rfl

theorem allreduceRecvDown_socks (p : Nat) (selecter : SelectHelper) (w : Wake)
    (total_size : Nat) (s s' : AllreduceState)
    (h : allreduceRecvDown p selecter w total_size s = Step.next s') :
    sockStates s'.links = sockStates s.links := by
  rcases allreduceRecvDown_next p selecter w total_size s s' h with
    h1 | ⟨_, pl, got, hp, _, _, _, h1⟩
  · rw [h1]
  · rw [h1]
    exact set_sockStates s.links p pl _ hp rfl

theorem sockStates_set (links : List LinkRecord) (p : Nat) (l : LinkRecord) :
    sockStates (links.set p l) = (sockStates links).set p l.sock.closed := by
  unfold sockStates
  rw [List.map_set]

theorem allreduceWriteChilds_socks (parent_index : Int) (w : Wake) (buf : List Nat)
    (size_down_in : Nat) (links : List LinkRecord) :
    sockStates (allreduceWriteChilds parent_index w buf size_down_in links).2 =
      sockStates links := by
  unfold allreduceWriteChilds
  apply forLinks_sockStates
  intro i l
  dsimp only
  split
  · exact WriteFromArray_sock _ _ _ _
  · rfl

theorem allreduceReadChilds_socks (parent_index : Int) (selecter : SelectHelper) (w : Wake)
    (size_up_out : Nat) (links : List LinkRecord) :
    sockStates (allreduceReadChilds parent_index selecter w size_up_out links).2 =
      sockStates links := by
  unfold allreduceReadChilds
  apply forLinks_sockStates
  intro i l
  dsimp only
  split
  · exact ReadToRingBuffer_sock _ _ _
  · rfl

theorem allreduceParentAndDown_socks_next (parent_index : Int) (selecter : SelectHelper)
    (w : Wake) (total_size : Nat) (s s' : AllreduceState)
    (h : allreduceParentAndDown parent_index selecter w total_size s = Step.next s') :
    sockStates s'.links = sockStates s.links := by
  unfold allreduceParentAndDown at h
  obtain ⟨s2, h2, hw⟩ := andThen_next _ _ _ h
  obtain ⟨_, hs'⟩ := afterLinks_next _ _ _ hw
  rw [hs']
  dsimp only
  rw [allreduceWriteChilds_socks]
  by_cases hpi : parent_index ≠ -1
  · rw [if_pos hpi] at h2
    obtain ⟨s1, h1, hr⟩ := andThen_next _ _ _ h2
    rw [allreduceRecvDown_socks _ _ _ _ _ _ hr, allreduceSendUp_socks _ _ _ _ h1]
  · rw [if_neg hpi] at h2
    simp only [Step.next.injEq] at h2
    rw [← h2]

theorem allreduceParentAndDown_socks_stop (parent_index : Int) (selecter : SelectHelper)
    (w : Wake) (total_size : Nat) (s s' : AllreduceState) (e : Exit) (el : Option Nat)
    (h : allreduceParentAndDown parent_index selecter w total_size s = Step.stop e el s') :
    SockFrame parent_index s.links s'.links e el := by
  unfold allreduceParentAndDown at h
  rcases andThen_stop _ _ _ _ _ h with h2 | ⟨s2, h2, hw⟩
  · by_cases hpi : parent_index ≠ -1
    · rw [if_pos hpi] at h2
      rcases andThen_stop _ _ _ _ _ h2 with h1 | ⟨s1, h1, hr⟩
      · left
        rw [(allreduceSendUp_stop _ _ _ _ _ _ h1).1]
      · have hs1 := allreduceSendUp_socks _ _ _ _ h1
        rcases allreduceRecvDown_stop _ _ _ _ _ _ _ _ hr with
          ⟨hl, _⟩ | ⟨he, hel, pl, hp, hl⟩ | ⟨_, _, pl, l', hp, hsock, hl⟩
        · left; rw [hl, hs1]
        · right
          refine ⟨he, hpi, hel, ?_⟩
          rw [hl, sockStates_set, hs1]
        · left
          rw [hl, set_sockStates s1.links _ pl l' hp hsock, hs1]
    · rw [if_neg hpi] at h2
      simp at h2
  · obtain ⟨i, ret, _, _, _, hs'⟩ := afterLinks_stop _ _ _ _ _ hw
    left
    rw [hs']
    dsimp only
    rw [allreduceWriteChilds_socks]
    by_cases hpi : parent_index ≠ -1
    · rw [if_pos hpi] at h2
      obtain ⟨s1, h1, hr⟩ := andThen_next _ _ _ h2
      rw [allreduceRecvDown_socks _ _ _ _ _ _ hr, allreduceSendUp_socks _ _ _ _ h1]
    · rw [if_neg hpi] at h2
      simp only [Step.next.injEq] at h2
      rw [← h2]

theorem allreduceBody_socks_next (reducer : ReduceFunction) (parent_index : Int)
    (type_nbytes total_size : Nat) (selecter : SelectHelper) (w : Wake)
    (s s' : AllreduceState)
    (h : allreduceBody reducer parent_index type_nbytes total_size selecter w s = Step.next s') :
    sockStates s'.links = sockStates s.links := by
  unfold allreduceBody at h
  split at h
  · simp at h
  · obtain ⟨s1, h1, h2⟩ := andThen_next _ _ _ h
    obtain ⟨s2, h3, h4⟩ := andThen_next _ _ _ h2
    obtain ⟨_, hs1⟩ := afterLinks_next _ _ _ h1
    rw [allreduceParentAndDown_socks_next _ _ _ _ _ _ h4,
      (allreduceReduce_next _ _ _ _ _ _ h3).1, hs1]
    exact allreduceReadChilds_socks _ _ _ _ _

theorem allreduceBody_socks_stop (reducer : ReduceFunction) (parent_index : Int)
    (type_nbytes total_size : Nat) (selecter : SelectHelper) (w : Wake)
    (s s' : AllreduceState) (e : Exit) (el : Option Nat)
    (h : allreduceBody reducer parent_index type_nbytes total_size selecter w s =
      Step.stop e el s') :
    SockFrame parent_index s.links s'.links e el := by
  unfold allreduceBody at h
  split at h
  · simp only [Step.stop.injEq] at h
    left
    rw [← h.2.2]
  · rcases andThen_stop _ _ _ _ _ h with h1 | ⟨s1, h1, h2⟩
    · obtain ⟨i, ret, _, _, _, hs'⟩ := afterLinks_stop _ _ _ _ _ h1
      left
      rw [hs']
      exact allreduceReadChilds_socks _ _ _ _ _
    · obtain ⟨_, hs1⟩ := afterLinks_next _ _ _ h1
      have hrc : sockStates s1.links = sockStates s.links := by
        rw [hs1]
        exact allreduceReadChilds_socks _ _ _ _ _
      rcases andThen_stop _ _ _ _ _ h2 with h3 | ⟨s2, h3, h4⟩
      · left
        rw [(allreduceReduce_stop _ _ _ _ _ _ _ _ h3).1, hrc]
      · have := allreduceParentAndDown_socks_stop _ _ _ _ _ _ _ _ h4
        rw [(allreduceReduce_next _ _ _ _ _ _ h3).1] at this
        unfold SockFrame at this ⊢
        rw [hrc] at this
        exact this

theorem allreduceLoop_socks (reducer : ReduceFunction) (parent_index : Int)
    (type_nbytes total_size : Nat) :
    ∀ (env : List Wake) (s s' : AllreduceState) (e : Exit) (el : Option Nat),
      allreduceLoop reducer parent_index type_nbytes total_size env s = some (e, el, s') →
      SockFrame parent_index s.links s'.links e el := by
  intro env
  induction env with
  | nil =>
    intro s s' e el h
    unfold allreduceLoop at h
    split at h
    · simp only [Option.some.injEq, Prod.mk.injEq] at h
      left; rw [← h.2.2]
    · simp at h
  | cons w ws ih =>
    intro s s' e el h
    unfold allreduceLoop at h
    split at h
    · simp only [Option.some.injEq, Prod.mk.injEq] at h
      left; rw [← h.2.2]
    · split at h
      · rename_i s1 heq
        have h1 := allreduceBody_socks_next _ _ _ _ _ _ _ _ heq
        have := ih s1 s' e el h
        unfold SockFrame at this ⊢
        rw [h1] at this
        exact this
      · rename_i e1 el1 s1 heq
        simp only [Option.some.injEq, Prod.mk.injEq] at h
        obtain ⟨h1, h2, h3⟩ := h
        subst h1; subst h2; subst h3
        exact allreduceBody_socks_stop _ _ _ _ _ _ _ _ _ _ heq
      · simp at h


/-! ### C6: faults and the sockets of the links -/

theorem broadcastProbe_socks (selecter : SelectHelper) (w : Wake) (total_size : Nat) :
    ∀ (links : List LinkRecord) (k : Nat) (buf : List Nat) (size_in : Nat),
      sockStates (broadcastProbe selecter w total_size k links buf size_in).links =
        sockStates links := by
  intro links
  induction links with
  | nil => intro k buf size_in; rfl
  | cons a as ih =>
    intro k buf size_in
    unfold broadcastProbe
    split
    · split
      · simp [sockStates, ReadToArray_sock]
      · split
        · simp [sockStates, ReadToArray_sock]
        · dsimp only
          have := ih (k + 1) (a.ReadToArray buf total_size (w k)).2.2
            (a.ReadToArray buf total_size (w k)).2.1.size_read
          unfold sockStates at this ⊢
          simp only [List.map_cons, this, ReadToArray_sock]
    · dsimp only
      have := ih (k + 1) buf size_in
      unfold sockStates at this ⊢
      simp only [List.map_cons, this]

theorem broadcastRead_socks (selecter : SelectHelper) (w : Wake) (total_size : Nat)
    (s : BroadcastState) :
    (∀ s', broadcastRead selecter w total_size s = Step.next s' →
      sockStates s'.links = sockStates s.links) ∧
    (∀ e el s', broadcastRead selecter w total_size s = Step.stop e el s' →
      sockStates s'.links = sockStates s.links) := by
  unfold broadcastRead
  split
  · unfold afterProbe
    constructor
    · intro s' h
      split at h
      · simp only [Step.next.injEq] at h
        rw [← h]
        exact broadcastProbe_socks _ _ _ _ _ _ _
      · simp at h
    · intro e el s' h
      split at h
      · simp at h
      · simp only [Step.stop.injEq] at h
        rw [← h.2.2]
        exact broadcastProbe_socks _ _ _ _ _ _ _
  · split
    · unfold broadcastReadIn
      cases hp : s.links[s.in_link.toNat]? with
      | none => simp
      | some l =>
        dsimp only
        constructor
        · intro s' h
          split at h
          · simp at h
          · simp only [Step.next.injEq] at h
            rw [← h]
            exact set_sockStates _ _ l _ hp (ReadToArray_sock _ _ _ _)
        · intro e el s' h
          split at h
          · simp only [Step.stop.injEq] at h
            rw [← h.2.2]
            exact set_sockStates _ _ l _ hp (ReadToArray_sock _ _ _ _)
          · simp at h
    · constructor
      · intro s' h
        simp only [Step.next.injEq] at h
        rw [h]
      · intro e el s' h
        simp at h

theorem broadcastWrite_socks (in_link : Int) (w : Wake) (buf : List Nat)
    (size_in : Nat) (links : List LinkRecord) :
    sockStates (broadcastWrite in_link w buf size_in links).2 = sockStates links := by
  unfold broadcastWrite
  apply forLinks_sockStates
  intro i l
  dsimp only
  split
  · exact WriteFromArray_sock _ _ _ _
  · rfl

theorem broadcastBody_socks (total_size : Nat) (selecter : SelectHelper) (w : Wake)
    (s : BroadcastState) :
    (∀ s', broadcastBody total_size selecter w s = Step.next s' →
      sockStates s'.links = sockStates s.links) ∧
    (∀ e el s', broadcastBody total_size selecter w s = Step.stop e el s' →
      sockStates s'.links = sockStates s.links) := by
  unfold broadcastBody
  split
  · constructor
    · intro s' h; simp at h
    · intro e el s' h
      simp only [Step.stop.injEq] at h
      rw [← h.2.2]
  · constructor
    · intro s' h
      obtain ⟨s1, h1, h2⟩ := andThen_next _ _ _ h
      obtain ⟨_, hs'⟩ := afterLinks_next _ _ _ h2
      rw [hs']
      dsimp only
      rw [broadcastWrite_socks, (broadcastRead_socks _ _ _ _).1 _ h1]
    · intro e el s' h
      rcases andThen_stop _ _ _ _ _ h with h1 | ⟨s1, h1, h2⟩
      · exact (broadcastRead_socks _ _ _ _).2 _ _ _ h1
      · obtain ⟨_, _, _, _, _, hs'⟩ := afterLinks_stop _ _ _ _ _ h2
        rw [hs']
        dsimp only
        rw [broadcastWrite_socks, (broadcastRead_socks _ _ _ _).1 _ h1]

theorem broadcastLoop_socks (total_size : Nat) :
    ∀ (env : List Wake) (s s' : BroadcastState) (e : Exit) (el : Option Nat),
      broadcastLoop total_size env s = some (e, el, s') →
      sockStates s'.links = sockStates s.links := by
  intro env
  induction env with
  | nil =>
    intro s s' e el h
    unfold broadcastLoop at h
    split at h
    · simp only [Option.some.injEq, Prod.mk.injEq] at h
      rw [← h.2.2]
    · simp at h
  | cons w ws ih =>
    intro s s' e el h
    unfold broadcastLoop at h
    split at h
    · simp only [Option.some.injEq, Prod.mk.injEq] at h
      rw [← h.2.2]
    · split at h
      · rename_i s1 heq
        rw [ih s1 s' e el h, (broadcastBody_socks _ _ _ _).1 _ heq]
      · rename_i e1 el1 s1 heq
        simp only [Option.some.injEq, Prod.mk.injEq] at h
        obtain ⟨h1, h2, h3⟩ := h
        subst h1; subst h2; subst h3
        exact (broadcastBody_socks _ _ _ _).2 _ _ _ heq
      · simp at h

theorem sockStates_ResetSize (links : List LinkRecord) :
    sockStates (links.map LinkRecord.ResetSize) = sockStates links := by
  unfold sockStates
  simp [LinkRecord.ResetSize, Function.comp_def]

theorem forLinks_failed_at (f : Nat → LinkRecord → ReturnType × LinkRecord) :
    ∀ (links : List LinkRecord) (k i : Nat) (ret : ReturnType),
      (forLinks f k links).1 = some (i, ret) → ∃ l, (f i l).1 = ret := by
  intro links
  induction links with
  | nil => intro k i ret h; simp [forLinks] at h
  | cons a as ih =>
    intro k i ret h
    unfold forLinks at h
    by_cases hs : (f k a).1 = ReturnType.kSuccess
    · rw [if_pos hs] at h
      exact ih (k + 1) i ret h
    · rw [if_neg hs] at h
      simp only [Option.some.injEq, Prod.mk.injEq] at h
      exact ⟨a, by rw [← h.1]; exact h.2⟩

theorem Errno2Return_ne_kRecvZeroLen (errsv : Nat) :
    Errno2Return errsv ≠ ReturnType.kRecvZeroLen := by
  unfold Errno2Return
  split <;> simp

theorem WriteFromArray_ne_kRecvZeroLen (l : LinkRecord) (src : List Nat) (upto : Nat)
    (ev : LinkEvent) : (l.WriteFromArray src upto ev).1 ≠ ReturnType.kRecvZeroLen := by
  unfold LinkRecord.WriteFromArray
  split
  · exact Errno2Return_ne_kRecvZeroLen _
  · simp

theorem allreduceRecvDown_zero (p : Nat) (selecter : SelectHelper) (w : Wake)
    (total_size : Nat) (s : AllreduceState) (pl : LinkRecord)
    (hready : selecter.CheckRead w p = true) (hleft : s.size_down_in < total_size)
    (hpl : s.links[p]? = some pl) (hrecv : (w p).recv = RecvResult.data []) :
    allreduceRecvDown p selecter w total_size s =
      Step.stop (Exit.returned ReturnType.kRecvZeroLen) (some p)
        { s with links := s.links.set p { pl with sock := { closed := true } } } := by
  unfold allreduceRecvDown
  rw [if_pos ⟨hready, hleft⟩, hpl]
  dsimp only
  rw [hrecv]
  dsimp only
  rw [if_pos (by simp)]

theorem allreduceRecvDown_stop_zero (p : Nat) (selecter : SelectHelper) (w : Wake)
    (total_size : Nat) (s s' : AllreduceState) (e : Exit) (el : Option Nat)
    (h : allreduceRecvDown p selecter w total_size s = Step.stop e el s')
    (he : e = Exit.returned ReturnType.kRecvZeroLen) :
    el = some p ∧ ∃ pl, s.links[p]? = some pl ∧
      s'.links = s.links.set p { pl with sock := { closed := true } } := by
  unfold allreduceRecvDown at h
  by_cases hc : selecter.CheckRead w p = true ∧ total_size > s.size_down_in
  · rw [if_pos hc] at h
    cases hp : s.links[p]? with
    | none => rw [hp] at h; simp at h
    | some pl =>
      rw [hp] at h
      dsimp only at h
      cases hs : (w p).recv with
      | data bytes =>
        rw [hs] at h
        dsimp only at h
        by_cases hz : (List.take (total_size - s.size_down_in) bytes).length = 0
        · rw [if_pos hz] at h
          simp only [Step.stop.injEq] at h
          refine ⟨h.2.1.symm, pl, rfl, ?_⟩
          rw [← h.2.2]
        · rw [if_neg hz] at h
          split at h
          · simp at h
          · simp only [Step.stop.injEq] at h
            rw [he] at h
            simp at h
      | error e0 =>
        rw [hs] at h
        dsimp only at h
        split at h
        · simp only [Step.stop.injEq] at h
          rw [he] at h
          simp only [Exit.returned.injEq] at h
          exact absurd h.1 (Errno2Return_ne_kRecvZeroLen e0)
        · simp at h
  · rw [if_neg hc] at h
    simp at h

theorem length_sockStates (links : List LinkRecord) :
    (sockStates links).length = links.length := by
  unfold sockStates
  simp

theorem length_eq_of_sockStates (links links' : List LinkRecord)
    (h : sockStates links' = sockStates links) : links'.length = links.length := by
  rw [← length_sockStates links', ← length_sockStates links, h]

theorem allreduceParentAndDown_stop_zero (parent_index : Int) (selecter : SelectHelper)
    (w : Wake) (total_size : Nat) (s s' : AllreduceState) (e : Exit) (el : Option Nat)
    (h : allreduceParentAndDown parent_index selecter w total_size s = Step.stop e el s')
    (he : e = Exit.returned ReturnType.kRecvZeroLen) :
    parent_index ≠ -1 ∧ el = some parent_index.toNat ∧
      parent_index.toNat < s.links.length ∧
      sockStates s'.links = (sockStates s.links).set parent_index.toNat true := by
  unfold allreduceParentAndDown at h
  rcases andThen_stop _ _ _ _ _ h with h2 | ⟨s2, h2, hw⟩
  · by_cases hpi : parent_index ≠ -1
    · rw [if_pos hpi] at h2
      rcases andThen_stop _ _ _ _ _ h2 with h1 | ⟨s1, h1, hr⟩
      · obtain ⟨_, _, r, hr, _, hz⟩ := allreduceSendUp_stop _ _ _ _ _ _ h1
        rw [he] at hr
        simp only [Exit.returned.injEq] at hr
        exact absurd hr.symm hz
      · have hs1 := allreduceSendUp_socks _ _ _ _ h1
        obtain ⟨hel, pl, hp, hl⟩ := allreduceRecvDown_stop_zero _ _ _ _ _ _ _ _ hr he
        have hlt : parent_index.toNat < s1.links.length :=
          (List.getElem?_eq_some_iff.mp hp).1
        refine ⟨hpi, hel, ?_, ?_⟩
        · rw [← length_eq_of_sockStates _ _ hs1]
          exact hlt
        · rw [hl, sockStates_set, hs1]
    · rw [if_neg hpi] at h2
      simp at h2
  · obtain ⟨i, ret, hf, hret, _, _⟩ := afterLinks_stop _ _ _ _ _ hw
    unfold allreduceWriteChilds at hf
    obtain ⟨l, hl⟩ := forLinks_failed_at _ _ _ _ _ hf
    rw [he] at hret
    simp only [Exit.returned.injEq] at hret
    rw [← hret] at hl
    split at hl
    · exact absurd hl (WriteFromArray_ne_kRecvZeroLen _ _ _ _)
    · simp at hl

theorem allreduceBody_stop_zero (reducer : ReduceFunction) (parent_index : Int)
    (type_nbytes total_size : Nat) (selecter : SelectHelper) (w : Wake)
    (s s' : AllreduceState) (e : Exit) (el : Option Nat)
    (hpi : parent_index = -1 ∨ 0 ≤ parent_index)
    (h : allreduceBody reducer parent_index type_nbytes total_size selecter w s =
      Step.stop e el s')
    (he : e = Exit.returned ReturnType.kRecvZeroLen) (hpi1 : parent_index ≠ -1)
    (hel : el = some parent_index.toNat ∨ el = none) :
    parent_index.toNat < s.links.length ∧
      sockStates s'.links = (sockStates s.links).set parent_index.toNat true := by
  unfold allreduceBody at h
  split at h
  · simp only [Step.stop.injEq] at h
    rw [he] at h
    simp at h
  · rcases andThen_stop _ _ _ _ _ h with h1 | ⟨s1, h1, h2⟩
    · obtain ⟨i, ret, hf, hret, hi, _⟩ := afterLinks_stop _ _ _ _ _ h1
      unfold allreduceReadChilds at hf
      have hne := forLinks_failed _ _ _ _ _ hf
      obtain ⟨l, hl⟩ := forLinks_failed_at _ _ _ _ _ hf
      split at hl
      · rename_i hcond
        have hip : i ≠ parent_index.toNat := by
          intro hh
          apply hcond.1
          rw [hh]
          omega
        rcases hel with hel | hel
        · rw [hel] at hi
          simp only [Option.some.injEq] at hi
          exact absurd hi.symm hip
        · rw [hel] at hi
          simp at hi
      · exact absurd hl.symm hne
    · obtain ⟨_, hs1⟩ := afterLinks_next _ _ _ h1
      have hrc : sockStates s1.links = sockStates s.links := by
        rw [hs1]
        exact allreduceReadChilds_socks _ _ _ _ _
      rcases andThen_stop _ _ _ _ _ h2 with h3 | ⟨s2, h3, h4⟩
      · obtain ⟨_, ⟨m, hm⟩, _⟩ := allreduceReduce_stop _ _ _ _ _ _ _ _ h3
        rw [he] at hm
        simp at hm
      · obtain ⟨_, _, hlt, hs⟩ := allreduceParentAndDown_stop_zero _ _ _ _ _ _ _ _ h4 he
        rw [(allreduceReduce_next _ _ _ _ _ _ h3).1] at hlt hs
        rw [hrc] at hs
        rw [length_eq_of_sockStates _ _ hrc] at hlt
        exact ⟨hlt, hs⟩

theorem allreduceLoop_stop_zero (reducer : ReduceFunction) (parent_index : Int)
    (type_nbytes total_size : Nat) (hpi : parent_index = -1 ∨ 0 ≤ parent_index) :
    ∀ (env : List Wake) (s s' : AllreduceState) (e : Exit) (el : Option Nat),
      allreduceLoop reducer parent_index type_nbytes total_size env s = some (e, el, s') →
      e = Exit.returned ReturnType.kRecvZeroLen → parent_index ≠ -1 →
      (el = some parent_index.toNat ∨ el = none) →
      parent_index.toNat < s.links.length ∧
        sockStates s'.links = (sockStates s.links).set parent_index.toNat true := by
  intro env
  induction env with
  | nil =>
    intro s s' e el h he _ _
    unfold allreduceLoop at h
    split at h
    · simp only [Option.some.injEq, Prod.mk.injEq] at h
      rw [he] at h
      simp at h
    · simp at h
  | cons w ws ih =>
    intro s s' e el h he hpi1 hel
    unfold allreduceLoop at h
    split at h
    · simp only [Option.some.injEq, Prod.mk.injEq] at h
      rw [he] at h
      simp at h
    · split at h
      · rename_i s1 heq
        have h1 := allreduceBody_socks_next _ _ _ _ _ _ _ _ heq
        obtain ⟨hlt, hs⟩ := ih s1 s' e el h he hpi1 hel
        rw [h1] at hs
        rw [length_eq_of_sockStates _ _ h1] at hlt
        exact ⟨hlt, hs⟩
      · rename_i e1 el1 s1 heq
        simp only [Option.some.injEq, Prod.mk.injEq] at h
        obtain ⟨h1, h2, h3⟩ := h
        subst h1; subst h2; subst h3
        exact allreduceBody_stop_zero _ _ _ _ _ _ _ _ _ _ hpi heq he hpi1 hel
      · simp at h

/-- C6, counterexample: a worker with a parent (link 0) and a child (link 1); the parent's
`recv` returns zero bytes. The call is abandoned with a classification other than `kSuccess`
and the parent's socket, open on entry, is closed on return. -/
theorem faults_close_parent_counterexample :
    sockStates (engineWith 1 3 0 8 [freshLink 0, freshLink 2]).tree_links = [false, false] ∧
    (TryAllreduce (fun _ _ _ => 4) (engineWith 1 3 0 8 [freshLink 0, freshLink 2]) [1, 2] 1 2
        sumReducer none
        [wakeOf [⟨false, true, RecvResult.data [], SendResult.accepted 1⟩]]).map
      (fun r => (r.exit, r.engine.err_link, sockStates r.engine.tree_links)) =
      some (Exit.returned ReturnType.kRecvZeroLen, some 0, [true, false]) := by
  decide

/-- C6, amended. With the Link operations as the spec describes them (`ReadToRingBuffer`,
`ReadToArray` and `WriteFromArray` report the outcome and leave the socket alone):
`TryBroadcast` never changes the open/closed state of a link's socket, however it ends. A
call of `TryAllreduce` (with `parent_index` -1 or a position) that returns `kRecvZeroLen`
with the parent as the reported link has closed the parent's socket and left every other
socket as it was; every other call, however it ends (exception readiness, a failed `recv` or
`send`, a zero-length read from a child, a failed check, success), leaves all sockets, the
faulted link's included, as they were. And a `recv` from the parent that returns zero
bytes (lines 473-480) does end the call in that way: the parent's socket is closed and
`kRecvZeroLen` is returned with the parent as the reported link. -/
theorem faults_and_link_sockets :
    (∀ (eng : AllreduceBase) (sendrecvbuf : List Nat) (total_size : Nat) (root : Int)
        (env : List Wake) (res : BroadcastResult),
      TryBroadcast eng sendrecvbuf total_size root env = some res →
      sockStates res.engine.tree_links = sockStates eng.tree_links) ∧
    (∀ (ring_size : Nat → Nat → Nat → Nat) (eng : AllreduceBase) (sendrecvbuf : List Nat)
        (type_nbytes count : Nat) (reducer : ReduceFunction)
        (exec : Option PreprocLoopExecutor) (env : List Wake) (res : CallResult),
      (eng.parent_index = -1 ∨ 0 ≤ eng.parent_index) →
      TryAllreduce ring_size eng sendrecvbuf type_nbytes count reducer exec env = some res →
      ((res.exit = Exit.returned ReturnType.kRecvZeroLen ∧ eng.parent_index ≠ -1 ∧
          res.engine.err_link = some eng.parent_index.toNat) →
        sockStates res.engine.tree_links =
            (sockStates eng.tree_links).set eng.parent_index.toNat true ∧
          (sockStates res.engine.tree_links)[eng.parent_index.toNat]? = some true) ∧
      (¬ (res.exit = Exit.returned ReturnType.kRecvZeroLen ∧ eng.parent_index ≠ -1 ∧
          res.engine.err_link = some eng.parent_index.toNat) →
        sockStates res.engine.tree_links = sockStates eng.tree_links)) ∧
    (∀ (p : Nat) (selecter : SelectHelper) (w : Wake) (total_size : Nat)
        (s : AllreduceState) (pl : LinkRecord),
      selecter.CheckRead w p = true → s.size_down_in < total_size →
      s.links[p]? = some pl → (w p).recv = RecvResult.data [] →
      allreduceRecvDown p selecter w total_size s =
        Step.stop (Exit.returned ReturnType.kRecvZeroLen) (some p)
          { s with links := s.links.set p { pl with sock := { closed := true } } }) := by
  refine ⟨?_, ?_, ?_⟩
  · intro eng buf total_size root env res h
    unfold TryBroadcast at h
    split at h
    · simp only [Option.some.injEq] at h
      rw [← h]
    · split at h
      · simp only [Option.some.injEq] at h
        rw [← h]
      · dsimp only at h
        split at h
        · simp at h
        · rename_i e el s heq
          simp only [Option.some.injEq] at h
          rw [← h]
          dsimp only
          rw [broadcastLoop_socks _ _ _ _ _ _ heq]
          split <;> exact sockStates_ResetSize _
  · intro ring_size eng buf tn count reducer exec env res hpi h
    unfold TryAllreduce at h
    split at h
    · simp only [Option.some.injEq] at h
      rw [← h]
      constructor
      · intro hz
        simp at hz
      · intro _
        rfl
    · dsimp only at h
      split at h
      · simp at h
      · rename_i e el s heq
        simp only [Option.some.injEq] at h
        have hframe := allreduceLoop_socks _ _ _ _ _ _ _ _ _ heq
        have hzero := allreduceLoop_stop_zero _ _ _ _ hpi _ _ _ _ _ heq
        unfold SockFrame at hframe
        dsimp only at hframe hzero
        rw [allreduceInit_sockStates] at hframe hzero
        rw [length_eq_of_sockStates _ _ (allreduceInit_sockStates ring_size eng.parent_index tn
          count eng.reduce_buffer_size eng.tree_links 0)] at hzero
        rw [← h]
        dsimp only
        constructor
        · rintro ⟨he, hpi1, herr⟩
          have hel : el = some eng.parent_index.toNat ∨ el = none := by
            cases el with
            | none => right; rfl
            | some i =>
              left
              simpa using herr
          obtain ⟨hlt, hs⟩ := hzero he hpi1 hel
          refine ⟨hs, ?_⟩
          rw [hs, List.getElem?_set_self (by rw [length_sockStates]; exact hlt)]
        · intro hn
          rcases hframe with h1 | ⟨h1, h2, h3, _⟩
          · exact h1
          · exfalso
            apply hn
            refine ⟨h1, h2, ?_⟩
            rw [h3]
  · intro p selecter w total_size s pl hready hleft hpl hrecv
    exact allreduceRecvDown_zero p selecter w total_size s pl hready hleft hpl hrecv

/-- C6, amended, at a concrete run: the parent's `recv` returns zero bytes; the call returns
`kRecvZeroLen` naming the parent (link 0), whose socket is closed on return. -/
theorem faults_and_link_sockets_witness :
    TryAllreduce (fun _ _ _ => 4) (engineWith 1 3 0 8 [freshLink 0, freshLink 2]) [1, 2] 1 2
      sumReducer none shutdownEnv = some shutdownResult ∧
    (sockStates shutdownResult.engine.tree_links)[0]? = some true :=
  ⟨by rfl,
    ((faults_and_link_sockets.2.1 (fun _ _ _ => 4)
      (engineWith 1 3 0 8 [freshLink 0, freshLink 2]) [1, 2] 1 2 sumReducer none
      shutdownEnv shutdownResult (Or.inr (by decide)) (by rfl)).1
      ⟨rfl, by decide, rfl⟩).2⟩

/-! ### C4: the relay of TryBroadcast -/

theorem length_slice (xs : List Nat) (pos len : Nat) :
    (slice xs pos len).length = min len (xs.length - pos) := by
  unfold slice
  simp

theorem take_append_slice (xs : List Nat) (a n : Nat) :
    xs.take a ++ slice xs a n = xs.take (a + n) := by
  unfold slice
  rw [List.take_add]

theorem length_writeAt (xs : List Nat) (pos : Nat) (data : List Nat)
    (h : pos + data.length ≤ xs.length) : (writeAt xs pos data).length = xs.length := by
  unfold writeAt
  simp
  omega

theorem take_writeAt_of_le (xs : List Nat) (pos k : Nat) (data : List Nat) (h : k ≤ pos)
    (hp : pos ≤ xs.length) :
    (writeAt xs pos data).take k = xs.take k := by
  unfold writeAt
  rw [List.append_assoc, List.take_append_of_le_length (by simp; omega)]
  rw [List.take_take]
  congr 1
  omega

theorem take_writeAt_end (xs : List Nat) (pos : Nat) (data : List Nat)
    (h : pos + data.length ≤ xs.length) :
    (writeAt xs pos data).take (pos + data.length) = xs.take pos ++ data := by
  unfold writeAt
  have hl : (List.take pos xs ++ data).length = pos + data.length := by
    simp; omega
  rw [← hl, List.take_left']
  rfl

theorem drop_writeAt_end (xs : List Nat) (pos : Nat) (data : List Nat)
    (h : pos + data.length ≤ xs.length) :
    (writeAt xs pos data).drop (pos + data.length) = xs.drop (pos + data.length) := by
  unfold writeAt
  have hl : (List.take pos xs ++ data).length = pos + data.length := by
    simp; omega
  rw [← hl, List.drop_left']
  rw [hl]

theorem ReadToArray_cases (l : LinkRecord) (dst : List Nat) (total : Nat) (ev : LinkEvent) :
    ((l.ReadToArray dst total ev).2.1 = l ∧ (l.ReadToArray dst total ev).2.2 = dst) ∨
    ((l.ReadToArray dst total ev).1 = ReturnType.kSuccess ∧ ∃ got, got ≠ [] ∧
      got.length ≤ total - l.size_read ∧
      (l.ReadToArray dst total ev).2.1 =
        { l with size_read := l.size_read + got.length, rx := l.rx ++ got } ∧
      (l.ReadToArray dst total ev).2.2 = writeAt dst l.size_read got) := by
  unfold LinkRecord.ReadToArray
  split
  · left; exact ⟨rfl, rfl⟩
  · split
    · left; exact ⟨rfl, rfl⟩
    · rename_i bytes _
      dsimp only
      split
      · left; exact ⟨rfl, rfl⟩
      · rename_i hz
        right
        refine ⟨rfl, _, ?_, ?_, rfl, rfl⟩
        · intro hnil
          rw [hnil] at hz
          exact hz rfl
        · simp

theorem WriteFromArray_cases (l : LinkRecord) (src : List Nat) (upto : Nat) (ev : LinkEvent) :
    (l.WriteFromArray src upto ev).2 = l ∨
    ((l.WriteFromArray src upto ev).1 = ReturnType.kSuccess ∧ ∃ n,
      (l.WriteFromArray src upto ev).2 =
        { l with
          size_write := l.size_write + (slice src l.size_write (min n (upto - l.size_write))).length
          tx := l.tx ++ slice src l.size_write (min n (upto - l.size_write)) }) := by
  unfold LinkRecord.WriteFromArray
  split
  · left; rfl
  · rename_i n _
    right
    exact ⟨rfl, n, rfl⟩

/-- When the wait set of `TryBroadcast` reports `finished`, the input link is known, it has
delivered `total_size` bytes and every other link has been sent `total_size` bytes. -/
theorem broadcastWatch_finished (in_link : Int) (total_size size_in : Nat) :
    ∀ (links : List LinkRecord) (k : Nat) (acc : Bool × SelectHelper),
      (broadcastWatch in_link total_size size_in k links acc).1 = true →
      acc.1 = true ∧ (links ≠ [] → in_link ≠ -2) ∧
      ∀ (i : Nat) (l : LinkRecord), links[i]? = some l →
        (((k + i : Nat) : Int) = in_link → l.size_read = total_size) ∧
        (((k + i : Nat) : Int) ≠ in_link → l.size_write = total_size) := by
  intro links
  induction links with
  | nil =>
    intro k acc h
    unfold broadcastWatch at h
    exact ⟨h, fun hh => absurd rfl hh, fun i l hl => by simp at hl⟩
  | cons a as ih =>
    intro k acc h
    obtain ⟨fin, sel⟩ := acc
    unfold broadcastWatch at h
    dsimp only at h
    obtain ⟨h1, _, h3⟩ := ih _ _ h
    dsimp only at h1
    by_cases c3 : in_link ≠ -2 ∧ (k : Int) ≠ in_link ∧ a.size_write ≠ total_size
    · rw [if_pos c3] at h1
      simp at h1
    · rw [if_neg c3] at h1
      by_cases c2 : (k : Int) = in_link ∧ a.size_read ≠ total_size
      · rw [if_pos c2] at h1
        simp at h1
      · rw [if_neg c2] at h1
        by_cases c1 : in_link = -2
        · rw [if_pos c1] at h1
          simp at h1
        · rw [if_neg c1] at h1
          dsimp only at h1
          refine ⟨h1, fun _ => c1, ?_⟩
          intro i l hl
          cases i with
          | zero =>
            simp only [List.getElem?_cons_zero, Option.some.injEq] at hl
            subst hl
            simp only [Nat.add_zero]
            constructor
            · intro hk
              by_contra hne
              exact c2 ⟨hk, hne⟩
            · intro hk
              by_contra hne
              exact c3 ⟨c1, hk, hne⟩
          | succ j =>
            simp only [List.getElem?_cons_succ] at hl
            have := h3 j l hl
            have e : k + 1 + j = k + (j + 1) := by omega
            rw [e] at this
            exact this

theorem writeAt_nil (xs : List Nat) (pos : Nat) : writeAt xs pos [] = xs := by
  unfold writeAt
  simp

theorem ReadToArray_got (l : LinkRecord) (dst : List Nat) (total : Nat) (ev : LinkEvent) :
    ∃ got, got.length ≤ total - l.size_read ∧
      (l.ReadToArray dst total ev).2.1 =
        { l with size_read := l.size_read + got.length, rx := l.rx ++ got } ∧
      (l.ReadToArray dst total ev).2.2 = writeAt dst l.size_read got := by
  rcases ReadToArray_cases l dst total ev with ⟨h1, h2⟩ | ⟨_, got, _, h2, h3, h4⟩
  · refine ⟨[], by simp, ?_, ?_⟩
    · rw [h1]; simp
    · rw [h2, writeAt_nil]
  · exact ⟨got, h2, h3, h4⟩

theorem forLinks_rel_ex (f : Nat → LinkRecord → ReturnType × LinkRecord)
    (R : Nat → LinkRecord → LinkRecord → Prop) (hrefl : ∀ i l, R i l l)
    (hf : ∀ i l, R i l (f i l).2) (links : List LinkRecord) (k i : Nat) (l' : LinkRecord)
    (h : (forLinks f k links).2[i]? = some l') :
    ∃ l, links[i]? = some l ∧ R (k + i) l l' := by
  have hlen := forLinks_length f links k
  have hi : i < links.length := by
    by_contra hc
    rw [List.getElem?_eq_none (by omega)] at h
    simp at h
  exact ⟨links[i], List.getElem?_eq_getElem hi,
    forLinks_rel f R hrefl hf links k i _ l' (List.getElem?_eq_getElem hi) h⟩

theorem getElem?_set_cases (links : List LinkRecord) (p i : Nat) (a l' : LinkRecord)
    (h : (links.set p a)[i]? = some l') :
    (i = p ∧ l' = a ∧ p < links.length) ∨ (i ≠ p ∧ links[i]? = some l') := by
  by_cases hip : p = i
  · subst hip
    have hlt : p < links.length := by
      by_contra hc
      rw [List.getElem?_eq_none (by simp; omega)] at h
      simp at h
    rw [List.getElem?_set_self hlt] at h
    simp only [Option.some.injEq] at h
    exact Or.inl ⟨rfl, h.symm, hlt⟩
  · rw [List.getElem?_set_ne hip] at h
    exact Or.inr ⟨fun hh => hip hh.symm, h⟩

theorem BroadcastInv_recv (buf0 : List Nat) (total_size : Nat) (is_root : Prop)
    (s : BroadcastState) (hinv : BroadcastInv buf0 total_size is_root s) (p : Nat)
    (l : LinkRecord) (got : List Nat) (hin : s.in_link = -2 ∨ s.in_link = (p : Int))
    (hp : s.links[p]? = some l) (hgot : got.length ≤ total_size - l.size_read) :
    BroadcastInv buf0 total_size is_root
      ⟨writeAt s.sendrecvbuf l.size_read got, l.size_read + got.length, (p : Int),
        s.links.set p { l with size_read := l.size_read + got.length, rx := l.rx ++ got }⟩ := by
  have hl : l.size_read = s.size_in ∧ l.rx = s.sendrecvbuf.take s.size_in := by
    rcases hin with h | h
    · have h1 := hinv.others_rx p l hp (by rw [h]; omega)
      have h2 := hinv.unknown h
      rw [h2, h1.1, h1.2]
      simp
    · exact hinv.input p l h hp
  have hsz := hinv.size_in_le
  have htl := hinv.total_le
  have hlen := hinv.len
  have hplt : p < s.links.length := by
    by_contra hc
    rw [List.getElem?_eq_none (by omega)] at hp
    simp at hp
  have hne1 : s.in_link ≠ -1 := by
    rcases hin with h | h
    · rw [h]; omega
    · rw [h]; omega
  constructor
  · dsimp only
    rw [length_writeAt _ _ _ (by rw [hl.1]; omega)]
    exact hlen
  · exact htl
  · dsimp only
    rw [hl.1]; omega
  · dsimp only
    intro h; omega
  · dsimp only
    intro h; omega
  · intro _
    exact hinv.not_root hne1
  · right; right
    exact ⟨p, rfl, by simpa using hplt⟩
  · dsimp only
    intro q l' hq hl'
    have hqp : q = p := by omega
    subst hqp
    rw [List.getElem?_set_self hplt] at hl'
    simp only [Option.some.injEq] at hl'
    subst hl'
    dsimp only
    refine ⟨rfl, ?_⟩
    rw [take_writeAt_end _ _ _ (by rw [hl.1]; omega), hl.2, hl.1]
  · dsimp only
    intro i l' hi hne
    have hip : p ≠ i := by
      intro hh; apply hne; rw [hh]
    rw [List.getElem?_set_ne hip] at hi
    apply hinv.others_rx i l' hi
    rcases hin with h | h
    · rw [h]; omega
    · rw [h]; exact hne
  · dsimp only
    intro i l' hi hne
    have hip : p ≠ i := by
      intro hh; apply hne; rw [hh]
    rw [List.getElem?_set_ne hip] at hi
    have hold := hinv.others_tx i l' hi (by
      rcases hin with h | h
      · rw [h]; omega
      · rw [h]; exact hne)
    refine ⟨by omega, ?_⟩
    rw [take_writeAt_of_le _ _ _ _ (by rw [hl.1]; exact hold.1) (by rw [hl.1]; omega)]
    exact hold.2

theorem broadcastProbe_found (selecter : SelectHelper) (w : Wake) (total_size : Nat) :
    ∀ (links : List LinkRecord) (k : Nat) (buf : List Nat),
      (∀ (i : Nat) (l : LinkRecord), links[i]? = some l → l.size_read = 0) →
      (broadcastProbe selecter w total_size k links buf 0).failed = none →
      ((broadcastProbe selecter w total_size k links buf 0).in_link = -2 ∧
        (broadcastProbe selecter w total_size k links buf 0).links = links ∧
        (broadcastProbe selecter w total_size k links buf 0).sendrecvbuf = buf ∧
        (broadcastProbe selecter w total_size k links buf 0).size_in = 0) ∨
      (∃ (i : Nat) (l : LinkRecord) (got : List Nat), links[i]? = some l ∧
        got.length ≤ total_size - l.size_read ∧
        (broadcastProbe selecter w total_size k links buf 0).in_link = ((k + i : Nat) : Int) ∧
        (broadcastProbe selecter w total_size k links buf 0).links =
          links.set i { l with size_read := l.size_read + got.length, rx := l.rx ++ got } ∧
        (broadcastProbe selecter w total_size k links buf 0).sendrecvbuf =
          writeAt buf l.size_read got ∧
        (broadcastProbe selecter w total_size k links buf 0).size_in =
          l.size_read + got.length) := by
  intro links
  induction links with
  | nil =>
    intro k buf _ _
    left
    exact ⟨rfl, rfl, rfl, rfl⟩
  | cons a as ih =>
    intro k buf hz hf
    have ha : a.size_read = 0 := hz 0 a (by simp)
    have hz' : ∀ (i : Nat) (l : LinkRecord), as[i]? = some l → l.size_read = 0 :=
      fun i l h => hz (i + 1) l (by simpa using h)
    unfold broadcastProbe at hf ⊢
    by_cases hc : selecter.CheckRead w k = true
    · rw [if_pos hc] at hf ⊢
      by_cases hr : (a.ReadToArray buf total_size (w k)).1 ≠ ReturnType.kSuccess
      · rw [if_pos hr] at hf
        simp at hf
      · rw [if_neg hr] at hf ⊢
        obtain ⟨got, hg1, hg2, hg3⟩ := ReadToArray_got a buf total_size (w k)
        by_cases hs : (a.ReadToArray buf total_size (w k)).2.1.size_read ≠ 0
        · rw [if_pos hs]
          right
          refine ⟨0, a, got, by simp, hg1, by simp, ?_, ?_, ?_⟩
          · dsimp only
            rw [hg2]; rfl
          · dsimp only
            rw [hg3]
          · dsimp only
            rw [hg2]
        · rw [if_neg hs] at hf ⊢
          dsimp only at hf ⊢
          have hs0 : (a.ReadToArray buf total_size (w k)).2.1.size_read = 0 := by
            by_contra hh; exact hs hh
          have hgot : got = [] := by
            rw [hg2] at hs0
            dsimp only at hs0
            have : got.length = 0 := by omega
            exact List.length_eq_zero.mp this
          have hl' : (a.ReadToArray buf total_size (w k)).2.1 = a := by
            rw [hg2, hgot]; simp
          have hb' : (a.ReadToArray buf total_size (w k)).2.2 = buf := by
            rw [hg3, hgot, writeAt_nil]
          rw [hl', hb', ha] at hf ⊢
          rcases ih (k + 1) buf hz' hf with ⟨h1, h2, h3, h4⟩ | ⟨i, l, g, h1, h2, h3, h4, h5, h6⟩
          · left
            exact ⟨h1, by rw [h2], h3, h4⟩
          · right
            refine ⟨i + 1, l, g, by simpa using h1, h2, ?_, ?_, h5, h6⟩
            · rw [h3]
              congr 1
              omega
            · rw [h4]
              simp
    · rw [if_neg hc] at hf ⊢
      dsimp only at hf ⊢
      rcases ih (k + 1) buf hz' hf with ⟨h1, h2, h3, h4⟩ | ⟨i, l, g, h1, h2, h3, h4, h5, h6⟩
      · left
        exact ⟨h1, by rw [h2], h3, h4⟩
      · right
        refine ⟨i + 1, l, g, by simpa using h1, h2, ?_, ?_, h5, h6⟩
        · rw [h3]
          congr 1
          omega
        · rw [h4]
          simp

theorem broadcastRead_inv (buf0 : List Nat) (total_size : Nat) (is_root : Prop)
    (selecter : SelectHelper) (w : Wake) (s s' : BroadcastState)
    (hinv : BroadcastInv buf0 total_size is_root s)
    (h : broadcastRead selecter w total_size s = Step.next s') :
    BroadcastInv buf0 total_size is_root s' := by
  unfold broadcastRead at h
  by_cases hu : s.in_link = -2
  · rw [if_pos hu] at h
    unfold afterProbe at h
    split at h
    · rename_i hf
      simp only [Step.next.injEq] at h
      have hs0 := hinv.unknown hu
      rw [hs0] at hf h
      have hz : ∀ (i : Nat) (l : LinkRecord), s.links[i]? = some l → l.size_read = 0 :=
        fun i l hl => (hinv.others_rx i l hl (by rw [hu]; omega)).1
      rcases broadcastProbe_found selecter w total_size s.links 0 s.sendrecvbuf hz hf with
        ⟨h1, h2, h3, h4⟩ | ⟨i, l, got, h1, h2, h3, h4, h5, h6⟩
      · rw [h1, h2, h3, h4] at h
        rw [← h]
        have : (⟨s.sendrecvbuf, 0, -2, s.links⟩ : BroadcastState) = s := by
          cases s
          simp only [BroadcastState.mk.injEq, true_and]
          exact ⟨hs0.symm, hu.symm, trivial⟩
        rw [this]
        exact hinv
      · rw [h3, h4, h5, h6] at h
        rw [← h]
        simp only [Nat.zero_add]
        exact BroadcastInv_recv buf0 total_size is_root s hinv i l got (Or.inl hu) h1 h2
    · simp at h
  · rw [if_neg hu] at h
    by_cases hc : s.in_link ≥ 0 ∧ selecter.CheckRead w s.in_link.toNat = true
    · rw [if_pos hc] at h
      unfold broadcastReadIn at h
      cases hp : s.links[s.in_link.toNat]? with
      | none => rw [hp] at h; simp at h
      | some l =>
        rw [hp] at h
        dsimp only at h
        split at h
        · simp at h
        · simp only [Step.next.injEq] at h
          obtain ⟨got, hg1, hg2, hg3⟩ :=
            ReadToArray_got l s.sendrecvbuf total_size (w s.in_link.toNat)
          rw [hg2, hg3] at h
          rw [← h]
          have hin : s.in_link = ((s.in_link.toNat : Nat) : Int) := by
            have := hc.1
            omega
          have := BroadcastInv_recv buf0 total_size is_root s hinv s.in_link.toNat l got
            (Or.inr hin) hp hg1
          rw [← hin] at this
          exact this
    · rw [if_neg hc] at h
      simp only [Step.next.injEq] at h
      rw [← h]
      exact hinv

theorem broadcastWrite_inv (buf0 : List Nat) (total_size : Nat) (is_root : Prop)
    (w : Wake) (s : BroadcastState) (hinv : BroadcastInv buf0 total_size is_root s) :
    BroadcastInv buf0 total_size is_root
      { s with links := (broadcastWrite s.in_link w s.sendrecvbuf s.size_in s.links).2 } := by
  have hrel : ∀ (i : Nat) (l' : LinkRecord),
      (broadcastWrite s.in_link w s.sendrecvbuf s.size_in s.links).2[i]? = some l' →
      ∃ l, s.links[i]? = some l ∧ (l' = l ∨ ((i : Int) ≠ s.in_link ∧ l.size_write < s.size_in ∧
        ∃ n, l' = { l with
          size_write := l.size_write +
            (slice s.sendrecvbuf l.size_write (min n (s.size_in - l.size_write))).length
          tx := l.tx ++ slice s.sendrecvbuf l.size_write (min n (s.size_in - l.size_write)) })) := by
    intro i l' h
    unfold broadcastWrite at h
    have := forLinks_rel_ex
      (fun i l =>
        if (i : Int) ≠ s.in_link ∧ l.size_write < s.size_in then
          l.WriteFromArray s.sendrecvbuf s.size_in (w i)
        else (ReturnType.kSuccess, l))
      (fun (i : Nat) (l l' : LinkRecord) =>
        l' = l ∨ ((i : Int) ≠ s.in_link ∧ l.size_write < s.size_in ∧
        ∃ n, l' = { l with
          size_write := l.size_write +
            (slice s.sendrecvbuf l.size_write (min n (s.size_in - l.size_write))).length
          tx := l.tx ++ slice s.sendrecvbuf l.size_write (min n (s.size_in - l.size_write)) }))
      (fun _ _ => Or.inl rfl)
      (by
        intro j l
        dsimp only
        split
        · rename_i hc
          rcases WriteFromArray_cases l s.sendrecvbuf s.size_in (w j) with h1 | ⟨_, n, h1⟩
          · left; exact h1
          · right; exact ⟨hc.1, hc.2, n, h1⟩
        · left; rfl) s.links 0 i l' h
    simpa using this
  have hlen : (broadcastWrite s.in_link w s.sendrecvbuf s.size_in s.links).2.length =
      s.links.length := by
    unfold broadcastWrite
    exact forLinks_length _ _ _
  constructor
  · exact hinv.len
  · exact hinv.total_le
  · exact hinv.size_in_le
  · exact hinv.unknown
  · exact hinv.root
  · exact hinv.not_root
  · dsimp only
    rw [hlen]
    exact hinv.range
  · dsimp only
    intro p l' hp hl'
    obtain ⟨l, hl, hcase⟩ := hrel p l' hl'
    rcases hcase with h1 | ⟨hne, _, _⟩
    · rw [h1]; exact hinv.input p l hp hl
    · exact absurd hp.symm hne
  · dsimp only
    intro i l' hl' hne
    obtain ⟨l, hl, hcase⟩ := hrel i l' hl'
    rcases hcase with h1 | ⟨_, _, n, h1⟩
    · rw [h1]; exact hinv.others_rx i l hl hne
    · rw [h1]; exact hinv.others_rx i l hl hne
  · dsimp only
    intro i l' hl' hne
    obtain ⟨l, hl, hcase⟩ := hrel i l' hl'
    have hold := hinv.others_tx i l hl hne
    rcases hcase with h1 | ⟨_, hlt, n, h1⟩
    · rw [h1]; exact hold
    · rw [h1]
      dsimp only
      have hsz := hinv.size_in_le
      have htl := hinv.total_le
      have hbl := hinv.len
      rw [length_slice]
      refine ⟨by omega, ?_⟩
      rw [hold.2, take_append_slice]
      congr 1
      omega

theorem broadcastProbe_failed (selecter : SelectHelper) (w : Wake) (total_size : Nat) :
    ∀ (links : List LinkRecord) (k : Nat) (buf : List Nat) (size_in i : Nat) (ret : ReturnType),
      (broadcastProbe selecter w total_size k links buf size_in).failed = some (i, ret) →
      ret ≠ ReturnType.kSuccess := by
  intro links
  induction links with
  | nil => intro k buf size_in i ret h; simp [broadcastProbe] at h
  | cons a as ih =>
    intro k buf size_in i ret h
    unfold broadcastProbe at h
    split at h
    · split at h
      · rename_i hne
        simp only [Option.some.injEq, Prod.mk.injEq] at h
        rw [← h.2]; exact hne
      · split at h
        · simp at h
        · exact ih _ _ _ _ _ h
    · exact ih _ _ _ _ _ h

theorem broadcastBody_stop (total_size : Nat) (selecter : SelectHelper) (w : Wake)
    (s s' : BroadcastState) (e : Exit) (el : Option Nat)
    (h : broadcastBody total_size selecter w s = Step.stop e el s') :
    e ≠ Exit.returned ReturnType.kSuccess := by
  unfold broadcastBody at h
  split at h
  · simp only [Step.stop.injEq] at h
    rw [← h.1]; simp
  · rcases andThen_stop _ _ _ _ _ h with h1 | ⟨s1, _, h2⟩
    · unfold broadcastRead at h1
      split at h1
      · unfold afterProbe at h1
        split at h1
        · simp at h1
        · rename_i i ret hf
          simp only [Step.stop.injEq] at h1
          rw [← h1.1]
          have := broadcastProbe_failed _ _ _ _ _ _ _ _ _ hf
          simpa using this
      · split at h1
        · unfold broadcastReadIn at h1
          split at h1
          · simp at h1
          · split at h1
            · rename_i hne
              simp only [Step.stop.injEq] at h1
              rw [← h1.1]
              simpa using hne
            · simp at h1
        · simp at h1
    · obtain ⟨i, ret, hf, he, _, _⟩ := afterLinks_stop _ _ _ _ _ h2
      unfold broadcastWrite at hf
      have := forLinks_failed _ _ _ _ _ hf
      rw [he]
      simpa using this

theorem broadcastBody_inv (buf0 : List Nat) (total_size : Nat) (is_root : Prop)
    (selecter : SelectHelper) (w : Wake) (s s' : BroadcastState)
    (hinv : BroadcastInv buf0 total_size is_root s)
    (h : broadcastBody total_size selecter w s = Step.next s') :
    BroadcastInv buf0 total_size is_root s' := by
  unfold broadcastBody at h
  split at h
  · simp at h
  · obtain ⟨s1, h1, h2⟩ := andThen_next _ _ _ h
    obtain ⟨_, hs'⟩ := afterLinks_next _ _ _ h2
    rw [hs']
    exact broadcastWrite_inv buf0 total_size is_root w s1
      (broadcastRead_inv buf0 total_size is_root selecter w s s1 hinv h1)

theorem broadcastLoop_inv (buf0 : List Nat) (total_size : Nat) (is_root : Prop) :
    ∀ (env : List Wake) (s s' : BroadcastState) (el : Option Nat),
      BroadcastInv buf0 total_size is_root s →
      broadcastLoop total_size env s = some (Exit.returned ReturnType.kSuccess, el, s') →
      BroadcastInv buf0 total_size is_root s' ∧
        (broadcastWatch s'.in_link total_size s'.size_in 0 s'.links
          (true, SelectHelper.empty)).1 = true := by
  intro env
  induction env with
  | nil =>
    intro s s' el hinv h
    unfold broadcastLoop at h
    split at h
    · rename_i hfin
      simp only [Option.some.injEq, Prod.mk.injEq, true_and] at h
      rw [← h.2]
      exact ⟨hinv, hfin⟩
    · simp at h
  | cons w ws ih =>
    intro s s' el hinv h
    unfold broadcastLoop at h
    split at h
    · rename_i hfin
      simp only [Option.some.injEq, Prod.mk.injEq, true_and] at h
      rw [← h.2]
      exact ⟨hinv, hfin⟩
    · split at h
      · rename_i s1 heq
        exact ih s1 s' el (broadcastBody_inv _ _ _ _ _ _ _ hinv heq) h
      · rename_i e1 el1 s1 heq
        simp only [Option.some.injEq, Prod.mk.injEq] at h
        have := broadcastBody_stop _ _ _ _ _ _ _ heq
        exact absurd h.1 this
      · simp at h

theorem BroadcastInv_init (eng : AllreduceBase) (buf : List Nat) (total_size : Nat)
    (root : Int) (hbuf : total_size ≤ buf.length) :
    BroadcastInv buf total_size (eng.rank = root)
      (if eng.rank = root then
        ⟨buf, total_size, -1, eng.tree_links.map LinkRecord.ResetSize⟩
      else ⟨buf, 0, -2, eng.tree_links.map LinkRecord.ResetSize⟩) := by
  have hreset : ∀ (i : Nat) (l : LinkRecord),
      (eng.tree_links.map LinkRecord.ResetSize)[i]? = some l →
      l.size_read = 0 ∧ l.rx = [] ∧ l.size_write = 0 ∧ l.tx = [] := by
    intro i l h
    rw [List.getElem?_map] at h
    cases h0 : eng.tree_links[i]? with
    | none => rw [h0] at h; simp at h
    | some a =>
      rw [h0] at h
      simp only [Option.map_some', Option.some.injEq] at h
      rw [← h]
      exact ⟨rfl, rfl, rfl, rfl⟩
  by_cases hr : eng.rank = root
  · rw [if_pos hr]
    constructor
    · rfl
    · exact hbuf
    · exact le_refl _
    · intro h; simp at h
    · intro _; exact ⟨hr, rfl⟩
    · intro h; exact absurd rfl h
    · right; left; rfl
    · intro p l hp; dsimp only at hp; omega
    · intro i l hl _
      exact ⟨(hreset i l hl).1, (hreset i l hl).2.1⟩
    · intro i l hl _
      obtain ⟨_, _, h3, h4⟩ := hreset i l hl
      dsimp only
      rw [h3, h4]
      simp
  · rw [if_neg hr]
    constructor
    · rfl
    · exact hbuf
    · exact Nat.zero_le _
    · intro _; rfl
    · intro h; simp at h
    · intro _; exact hr
    · left; rfl
    · intro p l hp; dsimp only at hp; omega
    · intro i l hl _
      exact ⟨(hreset i l hl).1, (hreset i l hl).2.1⟩
    · intro i l hl _
      obtain ⟨_, _, h3, h4⟩ := hreset i l hl
      dsimp only
      rw [h3, h4]
      simp

/-- C4. For every call of `TryBroadcast` with a non-empty link set, `total_size > 0` and a
buffer of at least `total_size` bytes that returns `kSuccess` (which needs `root <
world_size`): the input side is known (`in_link` is not -2). When `rank == root`, `in_link`
is -1, the buffer is the one the call started with and nothing was read from any link.
Otherwise `in_link` is a link `p` with `size_read == total_size` whose transcript is exactly
the first `total_size` bytes of the buffer, and no other link was read from. Every link
other than the input link has `size_write == total_size` and was sent exactly the first
`total_size` bytes of the final buffer, in order. -/
theorem TryBroadcast_relay (eng : AllreduceBase) (sendrecvbuf : List Nat) (total_size : Nat)
    (root : Int) (env : List Wake) (res : BroadcastResult)
    (hlinks : eng.tree_links ≠ []) (htotal : 0 < total_size)
    (hbuf : total_size ≤ sendrecvbuf.length)
    (hrun : TryBroadcast eng sendrecvbuf total_size root env = some res)
    (hret : res.exit = Exit.returned ReturnType.kSuccess) :
    res.in_link ≠ -2 ∧
    (eng.rank = root →
      res.in_link = -1 ∧ res.sendrecvbuf = sendrecvbuf ∧
      ∀ (i : Nat) (l : LinkRecord), res.engine.tree_links[i]? = some l →
        l.size_read = 0 ∧ l.rx = []) ∧
    (eng.rank ≠ root →
      ∃ (p : Nat) (l : LinkRecord), res.in_link = (p : Int) ∧
        res.engine.tree_links[p]? = some l ∧ l.size_read = total_size ∧
        l.rx.length = total_size ∧ res.sendrecvbuf.take total_size = l.rx ∧
        ∀ (i : Nat) (l' : LinkRecord), res.engine.tree_links[i]? = some l' → i ≠ p →
          l'.size_read = 0 ∧ l'.rx = []) ∧
    (∀ (i : Nat) (l : LinkRecord), res.engine.tree_links[i]? = some l →
      (i : Int) ≠ res.in_link →
      l.size_write = total_size ∧ l.tx = res.sendrecvbuf.take total_size) := by
  unfold TryBroadcast at hrun
  have h1 : ¬ (eng.tree_links.length = 0 ∨ total_size = 0) := by
    rintro (h | h)
    · exact hlinks (List.length_eq_zero.mp h)
    · omega
  rw [if_neg h1] at hrun
  split at hrun
  · simp only [Option.some.injEq] at hrun
    rw [← hrun] at hret
    simp at hret
  · dsimp only at hrun
    split at hrun
    · simp at hrun
    · rename_i e el s heq
      simp only [Option.some.injEq] at hrun
      rw [← hrun] at hret ⊢
      dsimp only at hret ⊢
      subst hret
      obtain ⟨hinv, hfin⟩ := broadcastLoop_inv sendrecvbuf total_size (eng.rank = root) env _ s el
        (BroadcastInv_init eng sendrecvbuf total_size root hbuf) heq
      obtain ⟨_, hne, hall⟩ := broadcastWatch_finished _ _ _ _ _ _ hfin
      have hlen : s.links ≠ [] := by
        have := broadcastLoop_socks _ _ _ _ _ _ heq
        intro hnil
        rw [hnil] at this
        unfold sockStates at this
        have hl := congrArg List.length this
        simp only [List.map_nil, List.length_nil, List.length_map] at hl
        split at hl
        · simp at hl
          exact hlinks (List.length_eq_zero.mp hl.symm)
        · simp at hl
          exact hlinks (List.length_eq_zero.mp hl.symm)
      have hunk := hne hlen
      have hbl := hinv.len
      have htl := hinv.total_le
      refine ⟨hunk, ?_, ?_, ?_⟩
      · intro hr
        have hin : s.in_link = -1 := by
          by_contra hc
          exact hinv.not_root hc hr
        refine ⟨hin, (hinv.root hin).2, ?_⟩
        intro i l hl
        exact hinv.others_rx i l hl (by rw [hin]; omega)
      · intro hr
        rcases hinv.range with h | h | ⟨p, hp, hplt⟩
        · exact absurd h hunk
        · exact absurd (hinv.root h).1 hr
        · have hl : s.links[p]? = some s.links[p] := List.getElem?_eq_getElem hplt
          have hi := hinv.input p _ hp hl
          have hsr := (hall p _ hl).1 (by simpa using hp.symm)
          refine ⟨p, s.links[p], hp, hl, hsr, ?_, ?_, ?_⟩
          · rw [hi.2, ← hi.1, hsr]
            simp
            omega
          · rw [hi.2, ← hi.1, hsr]
          · intro i l' hl' hip
            exact hinv.others_rx i l' hl' (by rw [hp]; omega)
      · intro i l hl hne'
        have hsw := (hall i l hl).2 (by simpa using hne')
        have := hinv.others_tx i l hl hne'
        rw [hsw] at this
        exact ⟨hsw, this.2⟩

/-- C4 at a concrete relay: worker 0 receives "hello" from rank 1 in two pieces and passes
it on to rank 2. -/
theorem TryBroadcast_relay_witness :
    TryBroadcast relayEngine [0, 0, 0, 0, 0] 5 1 relayEnv = some relayResult ∧
    relayResult.in_link ≠ -2 ∧
    relayResult.sendrecvbuf = [104, 101, 108, 108, 111] := by
  have hrun : TryBroadcast relayEngine [0, 0, 0, 0, 0] 5 1 relayEnv = some relayResult := by
    rfl
  exact ⟨hrun,
    (TryBroadcast_relay relayEngine [0, 0, 0, 0, 0] 5 1 relayEnv relayResult (by decide)
      (by decide) (by decide) hrun rfl).1, rfl⟩

/-! ### C1 and C2: the up pass and the down pass of TryAllreduce -/

theorem getElem?_slice (xs : List Nat) (pos len j : Nat) :
    (slice xs pos len)[j]? = if j < len then xs[pos + j]? else none := by
  unfold slice
  rw [List.getElem?_take]
  split
  · rw [List.getElem?_drop]
  · rfl

theorem getElem?_writeAt (xs : List Nat) (pos : Nat) (data : List Nat) (q : Nat)
    (h : pos + data.length ≤ xs.length) :
    (writeAt xs pos data)[q]? =
      if q < pos then xs[q]? else if q < pos + data.length then data[q - pos]? else xs[q]? := by
  unfold writeAt
  have hl : (List.take pos xs).length = pos := by simp; omega
  by_cases h1 : q < pos
  · rw [if_pos h1, List.append_assoc, List.getElem?_append_left (by omega)]
    rw [List.getElem?_take, if_pos h1]
  · rw [if_neg h1, List.append_assoc, List.getElem?_append_right (by omega), hl]
    by_cases h2 : q < pos + data.length
    · rw [if_pos h2, List.getElem?_append_left (by omega)]
    · rw [if_neg h2, List.getElem?_append_right (by omega), List.getElem?_drop]
      congr 1
      omega

theorem slice_eq_of_getElem? (xs ys : List Nat) (a m : Nat)
    (h : ∀ q, a ≤ q → q < a + m → xs[q]? = ys[q]?) : slice xs a m = slice ys a m := by
  apply List.ext_getElem?
  intro j
  rw [getElem?_slice, getElem?_slice]
  split
  · exact h (a + j) (by omega) (by omega)
  · rfl

theorem slice_append_left (xs ys : List Nat) (a m : Nat) (h : a + m ≤ xs.length) :
    slice (xs ++ ys) a m = slice xs a m := by
  apply slice_eq_of_getElem?
  intro q _ hq
  rw [List.getElem?_append_left (by omega)]

theorem slice_append_right (xs ys : List Nat) (a m : Nat) (h : xs.length ≤ a) :
    slice (xs ++ ys) a m = slice ys (a - xs.length) m := by
  apply List.ext_getElem?
  intro j
  rw [getElem?_slice, getElem?_slice]
  split
  · rw [List.getElem?_append_right (by omega)]
    congr 1
    omega
  · rfl

theorem slice_slice (xs : List Nat) (a n b m : Nat) (h : b + m ≤ n) :
    slice (slice xs a n) b m = slice xs (a + b) m := by
  apply List.ext_getElem?
  intro j
  simp only [getElem?_slice]
  by_cases hj : j < m
  · rw [if_pos hj, if_pos (by omega), if_pos hj]
    congr 1
    omega
  · rw [if_neg hj, if_neg hj]

theorem slice_drop (xs : List Nat) (a b m : Nat) :
    slice (xs.drop a) b m = slice xs (a + b) m := by
  apply List.ext_getElem?
  intro j
  simp only [getElem?_slice, List.getElem?_drop]
  by_cases hj : j < m
  · rw [if_pos hj, if_pos hj]
    congr 1
    omega
  · rw [if_neg hj, if_neg hj]

theorem drop_writeAt_of_le (xs : List Nat) (pos k : Nat) (data : List Nat)
    (h : pos + data.length ≤ k) (hx : pos + data.length ≤ xs.length) :
    (writeAt xs pos data).drop k = xs.drop k := by
  apply List.ext_getElem?
  intro j
  rw [List.getElem?_drop, List.getElem?_drop, getElem?_writeAt _ _ _ _ hx]
  rw [if_neg (by omega), if_neg (by omega)]

theorem take_eq_of_getElem? (xs ys : List Nat) (n : Nat)
    (h : ∀ q, q < n → xs[q]? = ys[q]?) : xs.take n = ys.take n := by
  apply List.ext_getElem?
  intro j
  rw [List.getElem?_take, List.getElem?_take]
  split
  · rename_i hj; exact h j hj
  · rfl

theorem mod_ne_of_lt (B p n : Nat) (h1 : p < n) (h2 : n < p + B) : p % B ≠ n % B := by
  intro h
  have hB : 0 < B := by omega
  have h3 : (n - p) % B = 0 := Nat.sub_mod_eq_zero_of_mod_eq h.symm
  have h4 : B ∣ n - p := Nat.dvd_of_mod_eq_zero h3
  have h5 : B ≤ n - p := Nat.le_of_dvd (by omega) h4
  omega

theorem length_ringWrite (B : Nat) (data : List Nat) :
    ∀ (ring : List Nat) (pos : Nat), (ringWrite B ring pos data).length = ring.length := by
  induction data with
  | nil => intro ring pos; rfl
  | cons b bs ih =>
    intro ring pos
    unfold ringWrite
    rw [ih]
    simp

/-- Reading into the ring buffer keeps it holding the last `B` bytes of the stream. -/
theorem ringWrite_holds (B : Nat) (data : List Nat) :
    ∀ (ring rx : List Nat), RingHolds B ring rx →
      RingHolds B (ringWrite B ring rx.length data) (rx ++ data) := by
  induction data with
  | nil =>
    intro ring rx h
    unfold ringWrite
    simpa using h
  | cons b bs ih =>
    intro ring rx h
    unfold ringWrite
    have hstep : RingHolds B (ring.set (rx.length % B) b) (rx ++ [b]) := by
      obtain ⟨hl, hr⟩ := h
      refine ⟨by simpa using hl, ?_⟩
      intro q hq hqB
      simp only [List.length_append, List.length_singleton] at hq hqB
      have hB : 0 < B := by omega
      by_cases hqn : q = rx.length
      · subst hqn
        rw [List.getElem?_set_self (by rw [hl]; exact Nat.mod_lt _ hB)]
        simp
      · have hlt : q < rx.length := by omega
        rw [List.getElem?_set_ne (by
          intro hh
          exact mod_ne_of_lt B q rx.length hlt (by omega) hh.symm)]
        rw [List.getElem?_append_left hlt]
        exact hr q hlt (by omega)
    have := ih (ring.set (rx.length % B) b) (rx ++ [b]) hstep
    simp only [List.length_append, List.length_singleton, List.append_assoc,
      List.singleton_append] at this
    exact this

/-- A segment of the ring buffer that does not wrap is the matching segment of the stream. -/
theorem ring_slice (B : Nat) (ring rx : List Nat) (h : RingHolds B ring rx) (R nread : Nat)
    (h1 : R + nread ≤ rx.length) (h2 : rx.length ≤ R + B) (h3 : R % B + nread ≤ B) :
    slice ring (R % B) nread = slice rx R nread := by
  apply List.ext_getElem?
  intro j
  rw [getElem?_slice, getElem?_slice]
  split
  · rename_i hj
    have hB : 0 < B := by omega
    have hm : (R + j) % B = R % B + j := by
      rw [Nat.add_mod, Nat.mod_eq_of_lt (a := j) (by omega), Nat.mod_eq_of_lt]
      have := Nat.mod_lt R hB
      omega
    rw [← hm]
    exact h.2 (R + j) (by omega) (by omega)
  · rfl

theorem ringWrite_nil (B : Nat) (ring : List Nat) (pos : Nat) : ringWrite B ring pos [] = ring := by
  rfl

theorem ReadToRingBuffer_got (l : LinkRecord) (p : Nat) (ev : LinkEvent) :
    ∃ got, got.length ≤ l.buffer_size - (l.size_read - p) ∧
      (l.ReadToRingBuffer p ev).2 =
        { l with
          buffer_head := ringWrite l.buffer_size l.buffer_head l.size_read got
          size_read := l.size_read + got.length
          rx := l.rx ++ got } := by
  unfold LinkRecord.ReadToRingBuffer
  dsimp only
  split
  · exact ⟨[], by simp, by simp [ringWrite_nil]⟩
  · split
    · exact ⟨[], by simp, by simp [ringWrite_nil]⟩
    · rename_i bytes _
      split
      · exact ⟨[], by simp, by simp [ringWrite_nil]⟩
      · exact ⟨_, by simp, rfl⟩

theorem ChildInv_mono (B0 R O D R' O' D' : Nat) (buf buf' : List Nat) (l : LinkRecord)
    (h : ChildInv B0 R O D buf l) (hR : R' ≤ l.size_read) (hO : O ≤ O') (hD : D ≤ D')
    (hb : buf'.take l.size_write = buf.take l.size_write) :
    ChildInv B0 R' O' D' buf' l :=
  ⟨h.read_len, hR, by have := h.gap; omega, h.bsize, h.ring, by have := h.write_le; omega,
    by rw [hb]; exact h.tx_eq⟩

theorem ChildInv_read (B0 R O D : Nat) (buf : List Nat) (l : LinkRecord) (got : List Nat)
    (h : ChildInv B0 R O D buf l) (hgot : got.length ≤ l.buffer_size - (l.size_read - O)) :
    ChildInv B0 R O D buf
      { l with
        buffer_head := ringWrite l.buffer_size l.buffer_head l.size_read got
        size_read := l.size_read + got.length
        rx := l.rx ++ got } := by
  have hb := h.bsize
  have hg := h.gap
  constructor
  · dsimp only
    rw [h.read_len]
    simp
  · dsimp only
    have := h.reduce_le
    omega
  · dsimp only
    omega
  · exact hb
  · dsimp only
    rw [hb, h.read_len]
    exact ringWrite_holds B0 got _ _ h.ring
  · exact h.write_le
  · exact h.tx_eq

theorem childLinks_map_congr {α : Type} (parent_index : Int) (f : LinkRecord → α) :
    ∀ (links links' : List LinkRecord) (k : Nat), links'.length = links.length →
      (∀ (i : Nat) (l l' : LinkRecord), links[i]? = some l → links'[i]? = some l' →
        ((k + i : Nat) : Int) ≠ parent_index → f l' = f l) →
      (childLinks parent_index k links').map f = (childLinks parent_index k links).map f := by
  intro links
  induction links with
  | nil =>
    intro links' k hlen _
    have : links' = [] := List.length_eq_zero.mp (by simpa using hlen)
    rw [this]
  | cons a as ih =>
    intro links' k hlen h
    cases links' with
    | nil => simp at hlen
    | cons a' as' =>
      have hrest := ih as' (k + 1) (by simpa using hlen) (by
        intro i l l' hl hl' hne
        apply h (i + 1) l l' (by simpa using hl) (by simpa using hl')
        have e : k + (i + 1) = k + 1 + i := by omega
        rw [e]; exact hne)
      unfold childLinks
      by_cases hk : (k : Int) ≠ parent_index
      · rw [if_pos hk, if_pos hk]
        simp only [List.map_cons, hrest]
        congr 1
        exact h 0 a a' (by simp) (by simp) (by simpa using hk)
      · rw [if_neg hk, if_neg hk]
        exact hrest

theorem reducedElem_congr (reducer : ReduceFunction) (tn : Nat) (buf0 : List Nat)
    (parent_index : Int) (e : Nat) (links links' : List LinkRecord)
    (hlen : links'.length = links.length)
    (h : ∀ (i : Nat) (l l' : LinkRecord), links[i]? = some l → links'[i]? = some l' →
      (i : Int) ≠ parent_index → elemAt tn l'.rx e = elemAt tn l.rx e) :
    reducedElem reducer tn buf0 (childLinks parent_index 0 links') e =
      reducedElem reducer tn buf0 (childLinks parent_index 0 links) e := by
  unfold reducedElem
  have := childLinks_map_congr parent_index (fun c => elemAt tn c.rx e) links links' 0 hlen
    (by
      intro i l l' hl hl' hne
      exact h i l l' hl hl' (by simpa using hne))
  have e1 : ∀ cs : List LinkRecord,
      cs.foldl (fun acc c => reducer (elemAt tn c.rx e) acc 1 tn) (elemAt tn buf0 e) =
      (cs.map (fun c => elemAt tn c.rx e)).foldl (fun acc x => reducer x acc 1 tn)
        (elemAt tn buf0 e) := by
    intro cs
    rw [List.foldl_map]
  rw [e1, e1, this]

theorem elemAt_append_left (tn : Nat) (xs ys : List Nat) (e : Nat)
    (h : (e + 1) * tn ≤ xs.length) : elemAt tn (xs ++ ys) e = elemAt tn xs e := by
  unfold elemAt
  apply slice_append_left
  have : (e + 1) * tn = e * tn + tn := by ring
  omega

/-- The loop invariant survives a phase that only touches the links, when each child keeps
its invariant and the reduced part of its stream. -/
theorem AllreduceInv_links (reducer : ReduceFunction) (tn T B0 : Nat) (parent_index : Int)
    (buf0 up : List Nat) (s s' : AllreduceState)
    (hinv : AllreduceInv reducer tn T B0 parent_index buf0 up s)
    (hb : s'.sendrecvbuf = s.sendrecvbuf) (hR : s'.size_up_reduce = s.size_up_reduce)
    (hO : s'.size_up_out = s.size_up_out) (hD : s'.size_down_in = s.size_down_in)
    (hlen : s'.links.length = s.links.length)
    (hrel : ∀ (i : Nat) (l' : LinkRecord), s'.links[i]? = some l' →
      ∃ l, s.links[i]? = some l ∧
        ((i : Int) = parent_index → l'.tx = l.tx ∧ l'.rx = l.rx) ∧
        ((i : Int) ≠ parent_index →
          ChildInv B0 s.size_up_reduce s.size_up_out s.size_down_in s.sendrecvbuf l →
          ChildInv B0 s.size_up_reduce s.size_up_out s.size_down_in s.sendrecvbuf l' ∧
          ∀ e, (e + 1) * tn ≤ s.size_up_reduce → elemAt tn l'.rx e = elemAt tn l.rx e)) :
    AllreduceInv reducer tn T B0 parent_index buf0 up s' := by
  constructor
  · rw [hb]; exact hinv.len
  · exact hinv.total_le
  · rw [hD, hO]; exact hinv.down_le
  · rw [hO, hR]; exact hinv.out_le
  · rw [hR]; exact hinv.reduce_le
  · rw [hR]; exact hinv.aligned
  · rw [hb, hR]; exact hinv.tail
  · rw [hR]; exact hinv.up_len
  · rw [hb, hR, hD]; exact hinv.up_buf
  · rw [hR]
    intro hc h31 htn e he
    rw [hinv.up_elem hc h31 htn e he]
    symm
    apply reducedElem_congr _ _ _ _ _ _ _ hlen
    intro i l l' hl hl' hne
    obtain ⟨l0, hl0, _, hc⟩ := hrel i l' hl'
    rw [hl] at hl0
    simp only [Option.some.injEq] at hl0
    subst hl0
    exact (hc hne (hinv.childs i l hl hne)).2 e he
  · intro hpi
    obtain ⟨pl, hpl, htx, hrx⟩ := hinv.parent hpi
    have hplt : parent_index.toNat < s'.links.length := by
      rw [hlen]
      by_contra hc
      rw [List.getElem?_eq_none (by omega)] at hpl
      simp at hpl
    obtain ⟨l0, hl0, hp, _⟩ := hrel parent_index.toNat _ (List.getElem?_eq_getElem hplt)
    rw [hpl] at hl0
    simp only [Option.some.injEq] at hl0
    subst hl0
    have hpi' : ((parent_index.toNat : Nat) : Int) = parent_index := by
      rcases hinv.pi_range with h | h
      · exact absurd h hpi
      · omega
    refine ⟨_, List.getElem?_eq_getElem hplt, ?_, ?_⟩
    · rw [(hp hpi').1, htx, hO]
    · rw [(hp hpi').2, hrx, hb, hD]
  · exact hinv.pi_range
  · intro i l' hl' hne
    obtain ⟨l, hl, _, hc⟩ := hrel i l' hl'
    rw [hb, hR, hO, hD]
    exact (hc hne (hinv.childs i l hl hne)).1

theorem allreduceReadChilds_inv (reducer : ReduceFunction) (tn T B0 : Nat) (parent_index : Int)
    (buf0 up : List Nat) (selecter : SelectHelper) (w : Wake) (s s' : AllreduceState)
    (hinv : AllreduceInv reducer tn T B0 parent_index buf0 up s)
    (hb : s'.sendrecvbuf = s.sendrecvbuf) (hR : s'.size_up_reduce = s.size_up_reduce)
    (hO : s'.size_up_out = s.size_up_out) (hD : s'.size_down_in = s.size_down_in)
    (hl : s'.links = (allreduceReadChilds parent_index selecter w s.size_up_out s.links).2) :
    AllreduceInv reducer tn T B0 parent_index buf0 up s' := by
  apply AllreduceInv_links reducer tn T B0 parent_index buf0 up s s' hinv hb hR hO hD
  · rw [hl]
    unfold allreduceReadChilds
    exact forLinks_length _ _ _
  · intro i l' hl'
    rw [hl] at hl'
    unfold allreduceReadChilds at hl'
    have := forLinks_rel_ex
      (fun i l =>
        if (i : Int) ≠ parent_index ∧ selecter.CheckRead w i = true then
          l.ReadToRingBuffer s.size_up_out (w i)
        else (ReturnType.kSuccess, l))
      (fun (i : Nat) (l l' : LinkRecord) =>
        ((i : Int) = parent_index → l' = l) ∧
        ∃ got, got.length ≤ l.buffer_size - (l.size_read - s.size_up_out) ∧
          l' = { l with
            buffer_head := ringWrite l.buffer_size l.buffer_head l.size_read got
            size_read := l.size_read + got.length
            rx := l.rx ++ got })
      (fun _ l => ⟨fun _ => rfl, [], by simp, by simp [ringWrite_nil]⟩)
      (by
        intro j l
        dsimp only
        split
        · rename_i hc
          exact ⟨fun h => absurd h hc.1, ReadToRingBuffer_got l s.size_up_out (w j)⟩
        · exact ⟨fun _ => rfl, [], by simp, by simp [ringWrite_nil]⟩) s.links 0 i l' hl'
    obtain ⟨l, hl0, hpar, got, hg1, hg2⟩ := this
    simp only [Nat.zero_add] at hpar
    refine ⟨l, hl0, ?_, ?_⟩
    · intro hi
      rw [hpar hi]
      exact ⟨rfl, rfl⟩
    · intro _ hc
      rw [hg2]
      refine ⟨ChildInv_read _ _ _ _ _ _ _ hc hg1, ?_⟩
      intro e he
      dsimp only
      apply elemAt_append_left
      have h1 := hc.reduce_le
      have h2 := hc.read_len
      omega

theorem allreduceWriteChilds_inv (reducer : ReduceFunction) (tn T B0 : Nat)
    (parent_index : Int) (buf0 up : List Nat) (w : Wake) (s s' : AllreduceState)
    (hinv : AllreduceInv reducer tn T B0 parent_index buf0 up s)
    (hb : s'.sendrecvbuf = s.sendrecvbuf) (hR : s'.size_up_reduce = s.size_up_reduce)
    (hO : s'.size_up_out = s.size_up_out) (hD : s'.size_down_in = s.size_down_in)
    (hl : s'.links =
      (allreduceWriteChilds parent_index w s.sendrecvbuf s.size_down_in s.links).2) :
    AllreduceInv reducer tn T B0 parent_index buf0 up s' := by
  apply AllreduceInv_links reducer tn T B0 parent_index buf0 up s s' hinv hb hR hO hD
  · rw [hl]
    unfold allreduceWriteChilds
    exact forLinks_length _ _ _
  · intro i l' hl'
    rw [hl] at hl'
    unfold allreduceWriteChilds at hl'
    have := forLinks_rel_ex
      (fun i l =>
        if (i : Int) ≠ parent_index ∧ l.size_write < s.size_down_in then
          l.WriteFromArray s.sendrecvbuf s.size_down_in (w i)
        else (ReturnType.kSuccess, l))
      (fun (i : Nat) (l l' : LinkRecord) =>
        l' = l ∨ ((i : Int) ≠ parent_index ∧ l.size_write < s.size_down_in ∧
        ∃ n, l' = { l with
          size_write := l.size_write +
            (slice s.sendrecvbuf l.size_write (min n (s.size_down_in - l.size_write))).length
          tx := l.tx ++
            slice s.sendrecvbuf l.size_write (min n (s.size_down_in - l.size_write)) }))
      (fun _ _ => Or.inl rfl)
      (by
        intro j l
        dsimp only
        split
        · rename_i hc
          rcases WriteFromArray_cases l s.sendrecvbuf s.size_down_in (w j) with h1 | ⟨_, n, h1⟩
          · left; exact h1
          · right; exact ⟨hc.1, hc.2, n, h1⟩
        · left; rfl) s.links 0 i l' hl'
    obtain ⟨l, hl0, hcase⟩ := this
    simp only [Nat.zero_add] at hcase
    refine ⟨l, hl0, ?_, ?_⟩
    · intro hi
      rcases hcase with h1 | ⟨hne, _⟩
      · rw [h1]; exact ⟨rfl, rfl⟩
      · exact absurd hi hne
    · intro _ hc
      rcases hcase with h1 | ⟨_, hlt, n, h1⟩
      · rw [h1]
        exact ⟨hc, fun _ _ => rfl⟩
      · rw [h1]
        refine ⟨?_, fun _ _ => rfl⟩
        have h1 := hinv.len
        have h2 := hinv.total_le
        have h3 := hinv.down_le
        have h4 := hinv.out_le
        have h5 := hinv.reduce_le
        constructor
        · exact hc.read_len
        · exact hc.reduce_le
        · exact hc.gap
        · exact hc.bsize
        · exact hc.ring
        · dsimp only
          rw [length_slice]
          omega
        · dsimp only
          rw [length_slice, hc.tx_eq, take_append_slice]
          congr 1
          omega

theorem static_cast_int_eq (n : Nat) (h : n < 2 ^ 31) : static_cast_int n = (n : Int) := by
  unfold static_cast_int
  have h1 : n % 2 ^ 32 = n := Nat.mod_eq_of_lt (by omega)
  rw [h1, if_pos h]

theorem childLinks_mem (parent_index : Int) :
    ∀ (links : List LinkRecord) (k : Nat) (c : LinkRecord), c ∈ childLinks parent_index k links →
      ∃ i, links[i]? = some c ∧ ((k + i : Nat) : Int) ≠ parent_index := by
  intro links
  induction links with
  | nil => intro k c h; simp [childLinks] at h
  | cons a as ih =>
    intro k c h
    unfold childLinks at h
    by_cases hk : (k : Int) ≠ parent_index
    · rw [if_pos hk] at h
      rcases List.mem_cons.mp h with h1 | h1
      · exact ⟨0, by simp [h1], by simpa using hk⟩
      · obtain ⟨i, hi, hne⟩ := ih (k + 1) c h1
        refine ⟨i + 1, by simpa using hi, ?_⟩
        have e : k + (i + 1) = k + 1 + i := by omega
        rw [e]; exact hne
    · rw [if_neg hk] at h
      obtain ⟨i, hi, hne⟩ := ih (k + 1) c h
      refine ⟨i + 1, by simpa using hi, ?_⟩
      have e : k + (i + 1) = k + 1 + i := by omega
      rw [e]; exact hne

theorem reduceBounds_ok (parent_index : Int) :
    ∀ (links : List LinkRecord) (k m0 b0 m B : Nat),
      reduceBounds parent_index k links m0 b0 = Except.ok (m, B) →
      B ≠ 0 ∧ m ≤ m0 ∧
      (b0 = B ∨ ∃ (i : Nat) (l : LinkRecord), links[i]? = some l ∧
        ((k + i : Nat) : Int) ≠ parent_index ∧ l.buffer_size = B) ∧
      ∀ (i : Nat) (l : LinkRecord), links[i]? = some l →
        ((k + i : Nat) : Int) ≠ parent_index → m ≤ l.size_read := by
  intro links
  induction links with
  | nil =>
    intro k m0 b0 m B h
    unfold reduceBounds at h
    split at h
    · rename_i hb
      simp only [Except.ok.injEq, Prod.mk.injEq] at h
      refine ⟨by rw [← h.2]; exact hb, by rw [h.1], Or.inl h.2, ?_⟩
      intro i l hl; simp at hl
    · simp at h
  | cons a as ih =>
    intro k m0 b0 m B h
    unfold reduceBounds at h
    by_cases hk : (k : Int) ≠ parent_index
    · rw [if_pos hk] at h
      split at h
      · obtain ⟨h1, h2, h3, h4⟩ := ih _ _ _ _ _ h
        refine ⟨h1, le_trans h2 (Nat.min_le_left _ _), ?_, ?_⟩
        · right
          rcases h3 with h3 | ⟨i, l, hl, hne, hb⟩
          · exact ⟨0, a, by simp, by simpa using hk, h3⟩
          · refine ⟨i + 1, l, by simpa using hl, ?_, hb⟩
            have e : k + (i + 1) = k + 1 + i := by omega
            rw [e]; exact hne
        · intro i l hl hne
          cases i with
          | zero =>
            simp only [List.getElem?_cons_zero, Option.some.injEq] at hl
            subst hl
            exact le_trans h2 (Nat.min_le_right _ _)
          | succ j =>
            simp only [List.getElem?_cons_succ] at hl
            apply h4 j l hl
            have e : k + 1 + j = k + (j + 1) := by omega
            rw [e]; exact hne
      · simp at h
    · rw [if_neg hk] at h
      obtain ⟨h1, h2, h3, h4⟩ := ih _ _ _ _ _ h
      refine ⟨h1, h2, ?_, ?_⟩
      · rcases h3 with h3 | ⟨i, l, hl, hne, hb⟩
        · exact Or.inl h3
        · right
          refine ⟨i + 1, l, by simpa using hl, ?_, hb⟩
          have e : k + (i + 1) = k + 1 + i := by omega
          rw [e]; exact hne
      · intro i l hl hne
        cases i with
        | zero => exact absurd (by simpa using hne) hk
        | succ j =>
          simp only [List.getElem?_cons_succ] at hl
          apply h4 j l hl
          have e : k + 1 + j = k + (j + 1) := by omega
          rw [e]; exact hne

theorem length_callReducer (reducer : ReduceFunction) (src dst : List Nat) (len : Int)
    (dtype : Nat) : (callReducer reducer src dst len dtype).length = dst.length := by
  unfold callReducer
  simp
  omega

theorem callReducer_eq (reducer : ReduceFunction) (src dst : List Nat) (len : Int)
    (dtype : Nat) (h : (reducer src dst len dtype).length = dst.length) :
    callReducer reducer src dst len dtype = reducer src dst len dtype := by
  unfold callReducer
  rw [h, List.drop_length, List.append_nil, ← h, List.take_length]

theorem length_reduceSegment (reducer : ReduceFunction) (tn start nread : Nat) :
    ∀ (childs : List LinkRecord) (d : List Nat),
      (reduceSegment reducer tn start nread childs d).length = d.length := by
  intro childs
  induction childs with
  | nil => intro d; rfl
  | cons c cs ih =>
    intro d
    unfold reduceSegment at ih ⊢
    simp only [List.foldl_cons]
    rw [ih, length_callReducer]

theorem reduceSegment_spec (reducer : ReduceFunction) (tn start nread n a : Nat)
    (hcast : static_cast_int (nread / tn) = (n : Int)) (hc : ReducerContract reducer tn) :
    ∀ (childs : List LinkRecord) (d : List Nat), d.length = n * tn →
      (∀ c ∈ childs, (slice c.buffer_head start nread).length = n * tn ∧
        ∀ j, j < n → elemAt tn (slice c.buffer_head start nread) j = elemAt tn c.rx (a + j)) →
      ∀ j, j < n → elemAt tn (reduceSegment reducer tn start nread childs d) j =
        childs.foldl (fun acc c => reducer (elemAt tn c.rx (a + j)) acc 1 tn)
          (elemAt tn d j) := by
  intro childs
  induction childs with
  | nil =>
    intro d _ _ j _
    rfl
  | cons c cs ih =>
    intro d hd hall
    have hcm := hall c (List.mem_cons_self _ _)
    have hstep := hc (slice c.buffer_head start nread) d n hcm.1 hd
    have hcall : callReducer reducer (slice c.buffer_head start nread) d (n : Int) tn =
        reducer (slice c.buffer_head start nread) d (n : Int) tn :=
      callReducer_eq _ _ _ _ _ (by rw [hstep.1, hd])
    have hrest := ih (reducer (slice c.buffer_head start nread) d (n : Int) tn) hstep.1
      (fun c' hc' => hall c' (List.mem_cons_of_mem _ hc'))
    unfold reduceSegment at hrest ⊢
    simp only [hcast] at hrest
    simp only [List.foldl_cons, hcast, hcall]
    intro j hj
    rw [hrest j hj, hstep.2 j hj, hcm.2 j hj]

theorem elemAt_slice (tn : Nat) (xs : List Nat) (a n j : Nat) (hj : j < n) :
    elemAt tn (slice xs (a * tn) (n * tn)) j = elemAt tn xs (a + j) := by
  unfold elemAt
  rw [slice_slice _ _ _ _ _ (by
    have : (j + 1) * tn ≤ n * tn := Nat.mul_le_mul_right tn hj
    have e : (j + 1) * tn = j * tn + tn := by ring
    omega)]
  congr 1
  ring

theorem elemAt_eq_of_drop (tn : Nat) (xs ys : List Nat) (a e : Nat)
    (h : xs.drop (a * tn) = ys.drop (a * tn)) (he : a ≤ e) :
    elemAt tn xs e = elemAt tn ys e := by
  unfold elemAt
  have e1 : e * tn = a * tn + (e - a) * tn := by
    rw [← Nat.add_mul]
    congr 1
    omega
  rw [e1, ← slice_drop, ← slice_drop, h]

/-- One round of the reduction loop (lines 441-455) keeps the loop invariant, with the
reduced segment appended to the bytes produced so far. -/
theorem AllreduceInv_reduce_step (reducer : ReduceFunction) (tn T B0 : Nat)
    (parent_index : Int) (buf0 up : List Nat) (s : AllreduceState) (max_reduce nread : Nat)
    (seg : List Nat) (calls : Nat)
    (hinv : AllreduceInv reducer tn T B0 parent_index buf0 up s)
    (hB : B0 ≠ 0) (hmT : max_reduce ≤ T)
    (hmax : ∀ (i : Nat) (l : LinkRecord), s.links[i]? = some l → (i : Int) ≠ parent_index →
      max_reduce ≤ l.size_read)
    (hn : nread = min (B0 - s.size_up_reduce % B0) (max_reduce - s.size_up_reduce))
    (hmod : nread % tn = 0)
    (hseg : seg = reduceSegment reducer tn (s.size_up_reduce % B0) nread
      (childLinks parent_index 0 s.links) (slice s.sendrecvbuf s.size_up_reduce nread)) :
    AllreduceInv reducer tn T B0 parent_index buf0 (up ++ seg)
      { s with
        sendrecvbuf := writeAt s.sendrecvbuf s.size_up_reduce seg
        size_up_reduce := s.size_up_reduce + nread
        reducer_calls := calls } := by
  have h1 := hinv.len
  have h2 := hinv.total_le
  have h3 := hinv.down_le
  have h4 := hinv.out_le
  have h5 := hinv.reduce_le
  have h6 := hinv.up_len
  obtain ⟨a, ha⟩ := hinv.aligned
  obtain ⟨n, hnn⟩ : ∃ n, nread = n * tn :=
    ⟨nread / tn, (Nat.div_mul_cancel (Nat.dvd_of_mod_eq_zero hmod)).symm⟩
  have hnle : nread ≤ max_reduce - s.size_up_reduce := by rw [hn]; exact Nat.min_le_right _ _
  have hnB : s.size_up_reduce % B0 + nread ≤ B0 := by
    have : nread ≤ B0 - s.size_up_reduce % B0 := by rw [hn]; exact Nat.min_le_left _ _
    have := Nat.mod_lt s.size_up_reduce (Nat.pos_of_ne_zero hB)
    omega
  have hRa : s.size_up_reduce = a * tn := by rw [ha, Nat.mul_comm]
  have hRn : s.size_up_reduce + nread ≤ T ∨ nread = 0 := by omega
  have hd0 : (slice s.sendrecvbuf s.size_up_reduce nread).length = n * tn := by
    rw [length_slice, ← hnn]
    omega
  have hchild : ∀ c ∈ childLinks parent_index 0 s.links,
      (slice c.buffer_head (s.size_up_reduce % B0) nread).length = n * tn ∧
        ∀ j, j < n → elemAt tn (slice c.buffer_head (s.size_up_reduce % B0) nread) j =
          elemAt tn c.rx (a + j) := by
    intro c hcm
    obtain ⟨i, hi, hne⟩ := childLinks_mem parent_index s.links 0 c hcm
    simp only [Nat.zero_add] at hne
    have hci := hinv.childs i c hi hne
    have hm := hmax i c hi hne
    have hrl := hci.read_len
    have hg := hci.gap
    have hrle := hci.reduce_le
    have hrs : slice c.buffer_head (s.size_up_reduce % B0) nread =
        slice c.rx s.size_up_reduce nread :=
      ring_slice B0 _ _ hci.ring _ _ (by omega) (by omega) hnB
    rw [hrs]
    refine ⟨by rw [length_slice, ← hnn]; omega, ?_⟩
    intro j hj
    rw [hRa, hnn]
    exact elemAt_slice tn c.rx a n j hj
  have hsl : seg.length = nread := by
    rw [hseg, length_reduceSegment, hd0, hnn]
  have hfit : s.size_up_reduce + seg.length ≤ s.sendrecvbuf.length := by omega
  constructor
  · dsimp only
    rw [length_writeAt _ _ _ hfit]
    exact h1
  · exact h2
  · exact h3
  · dsimp only; omega
  · dsimp only; omega
  · dsimp only
    exact ⟨a + n, by rw [ha, hnn]; ring⟩
  · dsimp only
    rw [← hsl, drop_writeAt_end _ _ _ hfit, ← List.drop_drop, ← List.drop_drop, hinv.tail]
  · dsimp only
    rw [List.length_append, h6, hsl]
  · dsimp only
    intro q hq1 hq2
    rw [getElem?_writeAt _ _ _ _ hfit]
    by_cases hqR : q < s.size_up_reduce
    · rw [if_pos hqR, List.getElem?_append_left (by omega)]
      exact hinv.up_buf q hq1 hqR
    · rw [if_neg hqR, if_pos (by omega), List.getElem?_append_right (by omega), h6]
  · dsimp only
    intro hc hT31 htn e he
    have hndiv : nread / tn = n := by
      rw [hnn]
      exact Nat.mul_div_cancel n htn
    have hcast : static_cast_int (nread / tn) = (n : Int) := by
      rw [hndiv]
      apply static_cast_int_eq
      have : n ≤ T / tn := by
        rw [Nat.le_div_iff_mul_le htn, ← hnn]
        omega
      omega
    have hspec := reduceSegment_spec reducer tn (s.size_up_reduce % B0) nread n a hcast hc
      (childLinks parent_index 0 s.links) (slice s.sendrecvbuf s.size_up_reduce nread) hd0
      hchild
    rw [← hseg] at hspec
    by_cases heR : (e + 1) * tn ≤ s.size_up_reduce
    · rw [elemAt_append_left tn up seg e (by omega)]
      exact hinv.up_elem hc hT31 htn e heR
    · have hae : a ≤ e := by
        by_contra hcon
        have : e + 1 ≤ a := by omega
        have := Nat.mul_le_mul_right tn this
        omega
      have hjn : e - a < n := by
        have e2 : (e + 1) * tn ≤ (a + n) * tn := by
          have e5 : (a + n) * tn = a * tn + n * tn := Nat.add_mul a n tn
          rw [e5, ← hRa, ← hnn]; exact he
        have := Nat.le_of_mul_le_mul_right e2 htn
        omega
      have e3 : elemAt tn (up ++ seg) e = elemAt tn seg (e - a) := by
        unfold elemAt
        rw [slice_append_right _ _ _ _ (by
          rw [h6, hRa]; exact Nat.mul_le_mul_right tn hae)]
        congr 1
        rw [h6, hRa]
        exact (Nat.sub_mul e a tn).symm
      rw [e3, hspec (e - a) hjn]
      have e4 : a + (e - a) = e := by omega
      rw [e4]
      unfold reducedElem
      congr 1
      rw [hRa, hnn, elemAt_slice tn _ a n (e - a) hjn, e4]
      exact elemAt_eq_of_drop tn _ buf0 a e (by rw [← hRa]; exact hinv.tail) hae
  · intro hpi
    obtain ⟨pl, hpl, htx, hrx⟩ := hinv.parent hpi
    refine ⟨pl, hpl, ?_, ?_⟩
    · dsimp only
      rw [List.take_append_of_le_length (by omega)]
      exact htx
    · dsimp only
      rw [take_writeAt_of_le _ _ _ _ (by omega) (by omega)]
      exact hrx
  · exact hinv.pi_range
  · intro i l hl hne
    have hci := hinv.childs i l hl hne
    have hm := hmax i l hl hne
    have hrle := hci.reduce_le
    have hw := hci.write_le
    exact ChildInv_mono _ _ _ _ _ _ _ _ _ _ hci (by dsimp only; omega) (le_refl _) (le_refl _)
      (take_writeAt_of_le _ _ _ _ (by omega) (by omega))

theorem reduceLoop_inv (reducer : ReduceFunction) (tn T B0 : Nat) (parent_index : Int)
    (buf0 : List Nat) (s0 : AllreduceState) (max_reduce : Nat)
    (hB : B0 ≠ 0) (hmT : max_reduce ≤ T)
    (hmax : ∀ (i : Nat) (l : LinkRecord), s0.links[i]? = some l → (i : Int) ≠ parent_index →
      max_reduce ≤ l.size_read) :
    ∀ (fuel : Nat) (buf : List Nat) (R calls : Nat) (up : List Nat) (buf' : List Nat)
      (R' calls' : Nat),
      AllreduceInv reducer tn T B0 parent_index buf0 up
        { s0 with sendrecvbuf := buf, size_up_reduce := R, reducer_calls := calls } →
      reduceLoop reducer tn B0 max_reduce (childLinks parent_index 0 s0.links) fuel
        (buf, R, calls) = Step.next (buf', R', calls') →
      ∃ up', AllreduceInv reducer tn T B0 parent_index buf0 up'
        { s0 with sendrecvbuf := buf', size_up_reduce := R', reducer_calls := calls' } := by
  intro fuel
  induction fuel with
  | zero =>
    intro buf R calls up buf' R' calls' hinv h
    unfold reduceLoop at h
    split at h
    · simp at h
    · simp only [Step.next.injEq, Prod.mk.injEq] at h
      obtain ⟨h1, h2, h3⟩ := h
      subst h1; subst h2; subst h3
      exact ⟨up, hinv⟩
  | succ n ih =>
    intro buf R calls up buf' R' calls' hinv h
    unfold reduceLoop at h
    by_cases hlt : R < max_reduce
    · rw [if_pos hlt] at h
      dsimp only at h
      by_cases hmod : min (B0 - R % B0) (max_reduce - R) % tn = 0
      · rw [if_pos hmod] at h
        have hstep := AllreduceInv_reduce_step reducer tn T B0 parent_index buf0 up
          { s0 with sendrecvbuf := buf, size_up_reduce := R, reducer_calls := calls }
          max_reduce (min (B0 - R % B0) (max_reduce - R)) _
          (calls + (childLinks parent_index 0 s0.links).length)
          hinv hB hmT hmax rfl hmod rfl
        exact ih _ _ _ _ _ _ _ hstep h
      · rw [if_neg hmod] at h
        simp at h
    · rw [if_neg hlt] at h
      simp only [Step.next.injEq, Prod.mk.injEq] at h
      obtain ⟨h1, h2, h3⟩ := h
      subst h1; subst h2; subst h3
      exact ⟨up, hinv⟩

theorem allreduceReduce_inv (reducer : ReduceFunction) (tn T B0 : Nat) (parent_index : Int)
    (buf0 up : List Nat) (s s' : AllreduceState)
    (hinv : AllreduceInv reducer tn T B0 parent_index buf0 up s)
    (h : allreduceReduce reducer parent_index tn T s = Step.next s') :
    ∃ up', AllreduceInv reducer tn T B0 parent_index buf0 up' s' := by
  unfold allreduceReduce at h
  by_cases hcnd : s.links.length > (if parent_index ≠ -1 then 1 else 0)
  · rw [if_pos hcnd] at h
    split at h
    · simp at h
    · rename_i m B hb
      dsimp only at h
      obtain ⟨hB0, hm, hBB, hmin⟩ := reduceBounds_ok parent_index s.links 0 T 0 m B hb
      have hBeq : B = B0 := by
        rcases hBB with h0 | ⟨i, l, hl, hne, hbs⟩
        · exact absurd h0.symm hB0
        · simp only [Nat.zero_add] at hne
          rw [← hbs]
          exact (hinv.childs i l hl hne).bsize
      subst hBeq
      have hmr : m / tn * tn ≤ m := Nat.div_mul_le_self m tn
      split at h
      · rename_i buf' r' calls' hloop
        simp only [Step.next.injEq] at h
        rw [← h]
        exact reduceLoop_inv reducer tn T B parent_index buf0 s (m / tn * tn) hB0
          (by omega)
          (fun i l hl hne => by
            have := hmin i l hl (by simpa using hne)
            omega)
          _ _ _ _ up _ _ _ hinv hloop
      · simp at h
      · simp at h
  · rw [if_neg hcnd] at h
    simp only [Step.next.injEq] at h
    rw [← h]
    exact ⟨up, hinv⟩

theorem allreduceSendUp_inv (reducer : ReduceFunction) (tn T B0 : Nat) (parent_index : Int)
    (buf0 up : List Nat) (w : Wake) (s s' : AllreduceState) (hpi : parent_index ≠ -1)
    (hinv : AllreduceInv reducer tn T B0 parent_index buf0 up s)
    (h : allreduceSendUp parent_index.toNat w s = Step.next s') :
    AllreduceInv reducer tn T B0 parent_index buf0 up s' := by
  rcases allreduceSendUp_next _ _ _ _ h with h1 | ⟨hlt, pl, n, hp, h1⟩
  · rw [h1]; exact hinv
  · have g1 := hinv.len
    have g2 := hinv.total_le
    have g3 := hinv.down_le
    have g4 := hinv.out_le
    have g5 := hinv.reduce_le
    have g6 := hinv.up_len
    have hpi' : ((parent_index.toNat : Nat) : Int) = parent_index := by
      rcases hinv.pi_range with h | h
      · exact absurd h hpi
      · omega
    have hplt : parent_index.toNat < s.links.length := by
      by_contra hc
      rw [List.getElem?_eq_none (by omega)] at hp
      simp at hp
    have hlen : (slice s.sendrecvbuf s.size_up_out
        (min n (s.size_up_reduce - s.size_up_out))).length =
        min n (s.size_up_reduce - s.size_up_out) := by
      rw [length_slice]; omega
    obtain ⟨pl0, hpl0, htx, hrx⟩ := hinv.parent hpi
    rw [hp] at hpl0
    simp only [Option.some.injEq] at hpl0
    subst hpl0
    rw [h1]
    constructor
    · exact g1
    · exact g2
    · dsimp only; omega
    · dsimp only; rw [hlen]; omega
    · exact g5
    · exact hinv.aligned
    · exact hinv.tail
    · exact g6
    · exact hinv.up_buf
    · dsimp only
      intro hc h31 htn e he
      rw [hinv.up_elem hc h31 htn e he]
      symm
      apply reducedElem_congr _ _ _ _ _ _ _ (by simp)
      intro i l l' hl hl' hne
      rw [List.getElem?_set_ne (by
        intro hh; apply hne; rw [← hh]; exact hpi')] at hl'
      rw [hl] at hl'
      simp only [Option.some.injEq] at hl'
      rw [hl']
    · intro _
      refine ⟨{ pl with tx := (pl.tx ++ slice s.sendrecvbuf s.size_up_out
        (min n (s.size_up_reduce - s.size_up_out))) },
        by dsimp only; rw [List.getElem?_set_self hplt], ?_, hrx⟩
      dsimp only
      rw [hlen, htx, ← take_append_slice]
      congr 1
      apply slice_eq_of_getElem?
      intro q hq1 hq2
      apply hinv.up_buf q
      · split <;> omega
      · omega
    · exact hinv.pi_range
    · dsimp only
      intro i l hl hne
      rw [List.getElem?_set_ne (by
        intro hh; apply hne; rw [← hh]; exact hpi')] at hl
      have hci := hinv.childs i l hl hne
      exact ChildInv_mono _ _ _ _ _ _ _ _ _ _ hci hci.reduce_le (by omega) (le_refl _) rfl

theorem allreduceRecvDown_inv (reducer : ReduceFunction) (tn T B0 : Nat) (parent_index : Int)
    (buf0 up : List Nat) (selecter : SelectHelper) (w : Wake) (s s' : AllreduceState)
    (hpi : parent_index ≠ -1)
    (hinv : AllreduceInv reducer tn T B0 parent_index buf0 up s)
    (h : allreduceRecvDown parent_index.toNat selecter w T s = Step.next s') :
    AllreduceInv reducer tn T B0 parent_index buf0 up s' := by
  rcases allreduceRecvDown_next _ _ _ _ _ _ h with h1 | ⟨hlt, pl, got, hp, _, hgl, hgo, h1⟩
  · rw [h1]; exact hinv
  · have g1 := hinv.len
    have g2 := hinv.total_le
    have g3 := hinv.down_le
    have g4 := hinv.out_le
    have g5 := hinv.reduce_le
    have g6 := hinv.up_len
    have hpi' : ((parent_index.toNat : Nat) : Int) = parent_index := by
      rcases hinv.pi_range with h | h
      · exact absurd h hpi
      · omega
    have hplt : parent_index.toNat < s.links.length := by
      by_contra hc
      rw [List.getElem?_eq_none (by omega)] at hp
      simp at hp
    have hfit : s.size_down_in + got.length ≤ s.sendrecvbuf.length := by omega
    obtain ⟨pl0, hpl0, htx, hrx⟩ := hinv.parent hpi
    rw [hp] at hpl0
    simp only [Option.some.injEq] at hpl0
    subst hpl0
    rw [h1]
    constructor
    · dsimp only
      rw [length_writeAt _ _ _ hfit]; exact g1
    · exact g2
    · dsimp only; omega
    · exact g4
    · exact g5
    · exact hinv.aligned
    · dsimp only
      rw [drop_writeAt_of_le _ _ _ _ (by omega) hfit]
      exact hinv.tail
    · exact g6
    · dsimp only
      intro q hq1 hq2
      rw [if_neg hpi] at hq1
      rw [getElem?_writeAt _ _ _ _ hfit, if_neg (by omega), if_neg (by omega)]
      apply hinv.up_buf q
      · rw [if_neg hpi]; omega
      · exact hq2
    · dsimp only
      intro hc h31 htn e he
      rw [hinv.up_elem hc h31 htn e he]
      symm
      apply reducedElem_congr _ _ _ _ _ _ _ (by simp)
      intro i l l' hl hl' hne
      rw [List.getElem?_set_ne (by
        intro hh; apply hne; rw [← hh]; exact hpi')] at hl'
      rw [hl] at hl'
      simp only [Option.some.injEq] at hl'
      rw [hl']
    · intro _
      refine ⟨{ pl with rx := pl.rx ++ got },
        by dsimp only; rw [List.getElem?_set_self hplt], htx, ?_⟩
      dsimp only
      rw [take_writeAt_end _ _ _ hfit, hrx]
    · exact hinv.pi_range
    · dsimp only
      intro i l hl hne
      rw [List.getElem?_set_ne (by
        intro hh; apply hne; rw [← hh]; exact hpi')] at hl
      have hci := hinv.childs i l hl hne
      have hw := hci.write_le
      exact ChildInv_mono _ _ _ _ _ _ _ _ _ _ hci hci.reduce_le (le_refl _) (by omega)
        (take_writeAt_of_le _ _ _ _ (by omega) (by omega))

theorem allreduceRoot_inv (reducer : ReduceFunction) (tn T B0 : Nat) (parent_index : Int)
    (buf0 up : List Nat) (s : AllreduceState) (hpi : parent_index = -1)
    (hinv : AllreduceInv reducer tn T B0 parent_index buf0 up s) :
    AllreduceInv reducer tn T B0 parent_index buf0 up
      { s with size_up_out := s.size_up_reduce, size_down_in := s.size_up_reduce } := by
  have g3 := hinv.down_le
  have g4 := hinv.out_le
  constructor
  · exact hinv.len
  · exact hinv.total_le
  · exact le_refl _
  · exact le_refl _
  · exact hinv.reduce_le
  · exact hinv.aligned
  · exact hinv.tail
  · exact hinv.up_len
  · dsimp only
    intro q hq1 hq2
    rw [if_pos hpi] at hq1
    apply hinv.up_buf q
    · rw [if_pos hpi]; exact hq1
    · exact hq2
  · exact hinv.up_elem
  · intro h; exact absurd hpi h
  · exact hinv.pi_range
  · dsimp only
    intro i l hl hne
    have hci := hinv.childs i l hl hne
    exact ChildInv_mono _ _ _ _ _ _ _ _ _ _ hci hci.reduce_le (by omega) (by omega) rfl

/-- When the wait set of `TryAllreduce` reports `finished`, the parent has delivered `T`
bytes and every child has been sent `T` bytes. -/
theorem allreduceWatch_finished (parent_index : Int) (T R O D : Nat) :
    ∀ (links : List LinkRecord) (k : Nat) (acc : Bool × SelectHelper),
      (allreduceWatch parent_index T R O D k links acc).1 = true →
      acc.1 = true ∧
      ∀ (i : Nat) (l : LinkRecord), links[i]? = some l →
        (((k + i : Nat) : Int) = parent_index → D = T) ∧
        (((k + i : Nat) : Int) ≠ parent_index → l.size_write = T) := by
  intro links
  induction links with
  | nil =>
    intro k acc h
    unfold allreduceWatch at h
    exact ⟨h, fun i l hl => by simp at hl⟩
  | cons a as ih =>
    intro k acc h
    obtain ⟨fin, sel⟩ := acc
    unfold allreduceWatch at h
    by_cases hk : (k : Int) = parent_index
    · rw [if_pos hk] at h
      dsimp only at h
      obtain ⟨h1, h3⟩ := ih _ _ h
      dsimp only at h1
      by_cases hd : D ≠ T
      · rw [if_pos hd] at h1
        simp at h1
      · rw [if_neg hd] at h1
        dsimp only at h1
        refine ⟨h1, ?_⟩
        intro i l hl
        cases i with
        | zero =>
          simp only [Nat.add_zero]
          exact ⟨fun _ => by omega, fun hne => absurd hk hne⟩
        | succ j =>
          simp only [List.getElem?_cons_succ] at hl
          have := h3 j l hl
          have e : k + 1 + j = k + (j + 1) := by omega
          rw [e] at this
          exact this
    · rw [if_neg hk] at h
      dsimp only at h
      obtain ⟨h1, h3⟩ := ih _ _ h
      by_cases hw : a.size_write ≠ T
      · rw [if_pos hw] at h1
        simp at h1
      · rw [if_neg hw] at h1
        dsimp only at h1
        refine ⟨h1, ?_⟩
        intro i l hl
        cases i with
        | zero =>
          simp only [List.getElem?_cons_zero, Option.some.injEq] at hl
          subst hl
          simp only [Nat.add_zero]
          exact ⟨fun he => absurd he hk, fun _ => by omega⟩
        | succ j =>
          simp only [List.getElem?_cons_succ] at hl
          have := h3 j l hl
          have e : k + 1 + j = k + (j + 1) := by omega
          rw [e] at this
          exact this

theorem allreduceParentAndDown_inv (reducer : ReduceFunction) (tn T B0 : Nat)
    (parent_index : Int) (buf0 up : List Nat) (selecter : SelectHelper) (w : Wake)
    (s s' : AllreduceState)
    (hinv : AllreduceInv reducer tn T B0 parent_index buf0 up s)
    (h : allreduceParentAndDown parent_index selecter w T s = Step.next s') :
    AllreduceInv reducer tn T B0 parent_index buf0 up s' := by
  unfold allreduceParentAndDown at h
  obtain ⟨s2, h2, hw⟩ := andThen_next _ _ _ h
  obtain ⟨_, hs'⟩ := afterLinks_next _ _ _ hw
  have hinv2 : AllreduceInv reducer tn T B0 parent_index buf0 up s2 := by
    by_cases hpi : parent_index ≠ -1
    · rw [if_pos hpi] at h2
      obtain ⟨s1, h1, hr⟩ := andThen_next _ _ _ h2
      exact allreduceRecvDown_inv _ _ _ _ _ _ _ _ _ _ _ hpi
        (allreduceSendUp_inv _ _ _ _ _ _ _ _ _ _ hpi hinv h1) hr
    · rw [if_neg hpi] at h2
      simp only [Step.next.injEq] at h2
      rw [← h2]
      exact allreduceRoot_inv _ _ _ _ _ _ _ _ (by
        by_contra hc; exact hpi hc) hinv
  rw [hs']
  exact allreduceWriteChilds_inv _ _ _ _ _ _ _ w s2 _ hinv2 rfl rfl rfl rfl rfl

theorem allreduceBody_inv (reducer : ReduceFunction) (tn T B0 : Nat) (parent_index : Int)
    (buf0 up : List Nat) (selecter : SelectHelper) (w : Wake) (s s' : AllreduceState)
    (hinv : AllreduceInv reducer tn T B0 parent_index buf0 up s)
    (h : allreduceBody reducer parent_index tn T selecter w s = Step.next s') :
    ∃ up', AllreduceInv reducer tn T B0 parent_index buf0 up' s' := by
  unfold allreduceBody at h
  split at h
  · simp at h
  · obtain ⟨s1, h1, h2⟩ := andThen_next _ _ _ h
    obtain ⟨s2, h3, h4⟩ := andThen_next _ _ _ h2
    obtain ⟨_, hs1⟩ := afterLinks_next _ _ _ h1
    have hinv1 : AllreduceInv reducer tn T B0 parent_index buf0 up s1 := by
      rw [hs1]
      exact allreduceReadChilds_inv _ _ _ _ _ _ _ selecter w s _ hinv rfl rfl rfl rfl rfl
    obtain ⟨up', hinv2⟩ := allreduceReduce_inv _ _ _ _ _ _ _ _ _ hinv1 h3
    exact ⟨up', allreduceParentAndDown_inv _ _ _ _ _ _ _ _ _ _ _ hinv2 h4⟩

theorem allreduceBody_stop (reducer : ReduceFunction) (parent_index : Int)
    (tn T : Nat) (selecter : SelectHelper) (w : Wake) (s s' : AllreduceState) (e : Exit)
    (el : Option Nat)
    (h : allreduceBody reducer parent_index tn T selecter w s = Step.stop e el s') :
    e ≠ Exit.returned ReturnType.kSuccess := by
  unfold allreduceBody at h
  split at h
  · simp only [Step.stop.injEq] at h
    rw [← h.1]; simp
  · rcases andThen_stop _ _ _ _ _ h with h1 | ⟨s1, _, h2⟩
    · obtain ⟨i, ret, hf, he, _, _⟩ := afterLinks_stop _ _ _ _ _ h1
      unfold allreduceReadChilds at hf
      have := forLinks_failed _ _ _ _ _ hf
      rw [he]; simpa using this
    · rcases andThen_stop _ _ _ _ _ h2 with h3 | ⟨s2, _, h4⟩
      · obtain ⟨_, ⟨m, hm⟩, _⟩ := allreduceReduce_stop _ _ _ _ _ _ _ _ h3
        rw [hm]; simp
      · unfold allreduceParentAndDown at h4
        rcases andThen_stop _ _ _ _ _ h4 with h5 | ⟨s3, _, h6⟩
        · split at h5
          · rcases andThen_stop _ _ _ _ _ h5 with h7 | ⟨s4, _, h8⟩
            · obtain ⟨_, _, r, hr, hne, _⟩ := allreduceSendUp_stop _ _ _ _ _ _ h7
              rw [hr]; simpa using hne
            · rcases allreduceRecvDown_stop _ _ _ _ _ _ _ _ h8 with
                ⟨_, hne⟩ | ⟨he, _⟩ | ⟨he, _⟩
              · exact hne
              · rw [he]; simp
              · rw [he]; simp
          · simp at h5
        · obtain ⟨i, ret, hf, he, _, _⟩ := afterLinks_stop _ _ _ _ _ h6
          unfold allreduceWriteChilds at hf
          have := forLinks_failed _ _ _ _ _ hf
          rw [he]; simpa using this

theorem allreduceLoop_inv (reducer : ReduceFunction) (tn T B0 : Nat) (parent_index : Int)
    (buf0 : List Nat) :
    ∀ (env : List Wake) (s s' : AllreduceState) (el : Option Nat) (up : List Nat),
      AllreduceInv reducer tn T B0 parent_index buf0 up s →
      allreduceLoop reducer parent_index tn T env s =
        some (Exit.returned ReturnType.kSuccess, el, s') →
      (∃ up', AllreduceInv reducer tn T B0 parent_index buf0 up' s') ∧
        (allreduceWatch parent_index T s'.size_up_reduce s'.size_up_out s'.size_down_in 0
          s'.links (true, SelectHelper.empty)).1 = true := by
  intro env
  induction env with
  | nil =>
    intro s s' el up hinv h
    unfold allreduceLoop at h
    split at h
    · rename_i hfin
      simp only [Option.some.injEq, Prod.mk.injEq, true_and] at h
      rw [← h.2]
      exact ⟨⟨up, hinv⟩, hfin⟩
    · simp at h
  | cons w ws ih =>
    intro s s' el up hinv h
    unfold allreduceLoop at h
    split at h
    · rename_i hfin
      simp only [Option.some.injEq, Prod.mk.injEq, true_and] at h
      rw [← h.2]
      exact ⟨⟨up, hinv⟩, hfin⟩
    · split at h
      · rename_i s1 heq
        obtain ⟨up1, hinv1⟩ := allreduceBody_inv _ _ _ _ _ _ _ _ _ _ _ hinv heq
        exact ih s1 s' el up1 hinv1 h
      · rename_i e1 el1 s1 heq
        simp only [Option.some.injEq, Prod.mk.injEq] at h
        have := allreduceBody_stop _ _ _ _ _ _ _ _ _ _ heq
        exact absurd h.1 this
      · simp at h

theorem allreduceInit_length (ring_size : Nat → Nat → Nat → Nat) (parent_index : Int)
    (type_nbytes count target : Nat) :
    ∀ (links : List LinkRecord) (k : Nat),
      (allreduceInit ring_size parent_index type_nbytes count target k links).length =
        links.length := by
  intro links
  induction links with
  | nil => intro k; rfl
  | cons a as ih =>
    intro k
    unfold allreduceInit
    simp [ih]

theorem allreduceInit_reset (ring_size : Nat → Nat → Nat → Nat) (parent_index : Int)
    (type_nbytes count target : Nat) :
    ∀ (links : List LinkRecord) (k i : Nat) (l : LinkRecord),
      (allreduceInit ring_size parent_index type_nbytes count target k links)[i]? = some l →
      l.size_read = 0 ∧ l.rx = [] ∧ l.size_write = 0 ∧ l.tx = [] := by
  intro links
  induction links with
  | nil => intro k i l h; simp [allreduceInit] at h
  | cons a as ih =>
    intro k i l h
    unfold allreduceInit at h
    cases i with
    | zero =>
      simp only [List.getElem?_cons_zero, Option.some.injEq] at h
      rw [← h]
      split <;> exact ⟨rfl, rfl, rfl, rfl⟩
    | succ j =>
      simp only [List.getElem?_cons_succ] at h
      exact ih (k + 1) j l h

theorem slice_take (xs : List Nat) (n a m : Nat) (h : a + m ≤ n) :
    slice (xs.take n) a m = slice xs a m := by
  apply slice_eq_of_getElem?
  intro q _ hq
  rw [List.getElem?_take, if_pos (by omega)]

/-- The loop invariant holds when the main loop is entered. -/
theorem AllreduceInv_init (ring_size : Nat → Nat → Nat → Nat) (reducer : ReduceFunction)
    (eng : AllreduceBase) (buf : List Nat) (tn count T : Nat)
    (exec : Option PreprocLoopExecutor)
    (hlinks : eng.tree_links ≠ [])
    (hpi : eng.parent_index = -1 ∨
      (0 ≤ eng.parent_index ∧ eng.parent_index.toNat < eng.tree_links.length))
    (hbuf : T ≤ buf.length) (hT : tn ∣ T) :
    AllreduceInv reducer tn T (ring_size tn count eng.reduce_buffer_size) eng.parent_index buf
      (buf.take (if (eng.tree_links.length : Int) = (if eng.parent_index ≠ -1 then 1 else 0)
        then T else 0))
      ⟨buf,
        if (eng.tree_links.length : Int) = (if eng.parent_index ≠ -1 then 1 else 0) then T
        else 0,
        0, 0,
        allreduceInit ring_size eng.parent_index tn count eng.reduce_buffer_size 0
          eng.tree_links,
        exec, 0⟩ := by
  have hnl : 0 < eng.tree_links.length := List.length_pos.mpr hlinks
  have hil := allreduceInit_length ring_size eng.parent_index tn count eng.reduce_buffer_size
    eng.tree_links 0
  have hR : ∀ R0 : Nat,
      R0 = (if (eng.tree_links.length : Int) = (if eng.parent_index ≠ -1 then 1 else 0)
        then T else 0) →
      (R0 = T ∧ eng.tree_links.length = 1 ∧ eng.parent_index = 0) ∨
      (R0 = 0 ∧ ((eng.tree_links.length : Int) ≠ (if eng.parent_index ≠ -1 then 1 else 0))) := by
    intro R0 h0
    by_cases hc : (eng.tree_links.length : Int) = (if eng.parent_index ≠ -1 then 1 else 0)
    · rw [if_pos hc] at h0
      left
      by_cases hp : eng.parent_index ≠ -1
      · rw [if_pos hp] at hc
        rcases hpi with h | ⟨h1, h2⟩
        · exact absurd h hp
        · refine ⟨h0, by omega, by omega⟩
      · rw [if_neg hp] at hc
        omega
    · rw [if_neg hc] at h0
      right
      exact ⟨h0, hc⟩
  generalize hR0 : (if (eng.tree_links.length : Int) = (if eng.parent_index ≠ -1 then 1 else 0)
    then T else 0) = R0
  have hcase := hR R0 hR0.symm
  have hR0T : R0 ≤ T := by
    rcases hcase with ⟨h, _⟩ | ⟨h, _⟩ <;> omega
  constructor
  · rfl
  · exact hbuf
  · exact le_refl _
  · exact Nat.zero_le _
  · exact hR0T
  · dsimp only
    rcases hcase with ⟨h, _⟩ | ⟨h, _⟩
    · rw [h]; exact hT
    · rw [h]; exact Nat.dvd_zero _
  · rfl
  · dsimp only
    rw [List.length_take]
    omega
  · dsimp only
    intro q _ hq
    rw [List.getElem?_take, if_pos hq]
  · dsimp only
    intro _ _ htn e he
    rcases hcase with ⟨h, h1, h2⟩ | ⟨h, _⟩
    · have hch : childLinks eng.parent_index 0
          (allreduceInit ring_size eng.parent_index tn count eng.reduce_buffer_size 0
            eng.tree_links) = [] := by
        cases hl : eng.tree_links with
        | nil => exact absurd hl hlinks
        | cons a as =>
          rw [hl] at h1
          have has : as = [] := List.length_eq_zero.mp (by simpa using h1)
          rw [has, h2]
          simp [allreduceInit, childLinks]
      rw [hch]
      unfold reducedElem elemAt
      simp only [List.foldl_nil]
      apply slice_take
      have e1 : (e + 1) * tn = e * tn + tn := by ring
      omega
    · exfalso
      have e1 : (e + 1) * tn = e * tn + tn := by ring
      omega
  · dsimp only
    intro hp
    rcases hpi with h | ⟨_, h2⟩
    · exact absurd h hp
    · have hlt : eng.parent_index.toNat <
          (allreduceInit ring_size eng.parent_index tn count eng.reduce_buffer_size 0
            eng.tree_links).length := by rw [hil]; exact h2
      obtain ⟨_, h2, _, h4⟩ := allreduceInit_reset ring_size eng.parent_index tn count
        eng.reduce_buffer_size eng.tree_links 0 _ _ (List.getElem?_eq_getElem hlt)
      refine ⟨_, List.getElem?_eq_getElem hlt, ?_, ?_⟩
      · rw [h4]; simp
      · rw [h2]; simp
  · rcases hpi with h | ⟨h, _⟩
    · exact Or.inl h
    · exact Or.inr h
  · dsimp only
    intro i l hl hne
    have hR00 : R0 = 0 := by
      rcases hcase with ⟨_, h1, h2⟩ | ⟨h, _⟩
      · exfalso
        have hi : i < 1 := by
          by_contra hc
          rw [List.getElem?_eq_none (by rw [hil]; omega)] at hl
          simp at hl
        apply hne
        rw [h2]
        omega
      · exact h
    obtain ⟨h1, h2, h3, h4⟩ := allreduceInit_reset ring_size eng.parent_index tn count
      eng.reduce_buffer_size eng.tree_links 0 i l hl
    obtain ⟨h5, h6⟩ := allreduceInit_buffer_size ring_size eng.parent_index tn count
      eng.reduce_buffer_size eng.tree_links 0 i l hl (by simpa using hne)
    constructor
    · rw [h1, h2]; rfl
    · rw [hR00]; exact Nat.zero_le _
    · rw [h1]; exact Nat.zero_le _
    · exact h5
    · refine ⟨h6, ?_⟩
      intro q hq
      rw [h2] at hq
      simp at hq
    · rw [h3]
    · rw [h3, h4]; simp

/-- What a successful `TryAllreduce` on a non-trivial input leaves: the loop invariant holds
in the final state and the wait set reported `finished`. -/
theorem TryAllreduce_final (ring_size : Nat → Nat → Nat → Nat) (eng : AllreduceBase)
    (sendrecvbuf : List Nat) (type_nbytes count : Nat) (reducer : ReduceFunction)
    (exec : Option PreprocLoopExecutor) (env : List Wake) (res : CallResult)
    (hcount0 : 0 < count) (h64 : type_nbytes * count < 2 ^ 64)
    (hlinks : eng.tree_links ≠ [])
    (hpi : eng.parent_index = -1 ∨
      (0 ≤ eng.parent_index ∧ eng.parent_index.toNat < eng.tree_links.length))
    (hbuf : type_nbytes * count ≤ sendrecvbuf.length)
    (hrun : TryAllreduce ring_size eng sendrecvbuf type_nbytes count reducer exec env =
      some res)
    (hret : res.exit = Exit.returned ReturnType.kSuccess) :
    ∃ (s : AllreduceState) (up : List Nat),
      res.sendrecvbuf = s.sendrecvbuf ∧ res.engine.tree_links = s.links ∧
      AllreduceInv reducer type_nbytes (type_nbytes * count)
        (ring_size type_nbytes count eng.reduce_buffer_size) eng.parent_index sendrecvbuf up s ∧
      s.size_up_reduce = type_nbytes * count ∧ s.size_up_out = type_nbytes * count ∧
      s.size_down_in = type_nbytes * count ∧
      ∀ (i : Nat) (l : LinkRecord), s.links[i]? = some l → (i : Int) ≠ eng.parent_index →
        l.size_write = type_nbytes * count := by
  unfold TryAllreduce at hrun
  have h1 : ¬ (eng.tree_links.length = 0 ∨ count = 0) := by
    rintro (h | h)
    · exact hlinks (List.length_eq_zero.mp h)
    · omega
  rw [if_neg h1] at hrun
  dsimp only at hrun
  rw [Nat.mod_eq_of_lt h64] at hrun
  split at hrun
  · simp at hrun
  · rename_i e el s heq
    simp only [Option.some.injEq] at hrun
    rw [← hrun] at hret
    dsimp only at hret
    subst hret
    have hinit := AllreduceInv_init ring_size reducer eng sendrecvbuf type_nbytes count
      (type_nbytes * count) exec hlinks hpi hbuf (Nat.dvd_mul_right _ _)
    obtain ⟨⟨up, hinv⟩, hfin⟩ := allreduceLoop_inv reducer type_nbytes (type_nbytes * count)
      _ eng.parent_index sendrecvbuf env _ s el _ hinit heq
    obtain ⟨_, hall⟩ := allreduceWatch_finished _ _ _ _ _ _ _ _ hfin
    have hlen : s.links.length = eng.tree_links.length := by
      have := allreduceLoop_socks _ _ _ _ _ _ _ _ _ heq
      have hl : (sockStates s.links).length = (sockStates
          (allreduceInit ring_size eng.parent_index type_nbytes count eng.reduce_buffer_size 0
            eng.tree_links)).length := by
        rcases this with h | ⟨_, _, _, h⟩
        · rw [h]
        · rw [h]; simp
      unfold sockStates at hl
      simpa [allreduceInit_length] using hl
    have hnl : 0 < eng.tree_links.length := List.length_pos.mpr hlinks
    have hw : ∀ (i : Nat) (l : LinkRecord), s.links[i]? = some l →
        (i : Int) ≠ eng.parent_index → l.size_write = type_nbytes * count := by
      intro i l hl hne
      exact (hall i l hl).2 (by simpa using hne)
    have hD : s.size_down_in = type_nbytes * count := by
      rcases hpi with h | ⟨h, h2⟩
      · have hl : s.links[0]? = some s.links[0] := List.getElem?_eq_getElem (by omega)
        have hne : ((0 : Nat) : Int) ≠ eng.parent_index := by rw [h]; omega
        have h3 := hw 0 _ hl hne
        have h4 := (hinv.childs 0 _ hl hne).write_le
        have := hinv.down_le
        have := hinv.out_le
        have := hinv.reduce_le
        omega
      · have hl : s.links[eng.parent_index.toNat]? = some s.links[eng.parent_index.toNat] :=
          List.getElem?_eq_getElem (by omega)
        exact (hall _ _ hl).1 (by simp; omega)
    have := hinv.down_le
    have := hinv.out_le
    have := hinv.reduce_le
    refine ⟨s, up, by rw [← hrun], by rw [← hrun], hinv, by omega, by omega, hD, hw⟩

/-- The reduced bytes of a successful `TryAllreduce`: the final buffer of the tree root, the
bytes sent to the parent otherwise. -/
theorem TryAllreduce_reduced (ring_size : Nat → Nat → Nat → Nat) (eng : AllreduceBase)
    (sendrecvbuf : List Nat) (type_nbytes count : Nat) (reducer : ReduceFunction)
    (exec : Option PreprocLoopExecutor) (env : List Wake) (res : CallResult)
    (htn : 0 < type_nbytes) (hcount0 : 0 < count) (hcount : count < 2 ^ 31)
    (h64 : type_nbytes * count < 2 ^ 64)
    (hlinks : eng.tree_links ≠ [])
    (hpi : eng.parent_index = -1 ∨
      (0 ≤ eng.parent_index ∧ eng.parent_index.toNat < eng.tree_links.length))
    (hbuf : type_nbytes * count ≤ sendrecvbuf.length)
    (hred : ReducerContract reducer type_nbytes)
    (hrun : TryAllreduce ring_size eng sendrecvbuf type_nbytes count reducer exec env =
      some res)
    (hret : res.exit = Exit.returned ReturnType.kSuccess) :
    (eng.parent_index = -1 → ∀ e, e < count →
      elemAt type_nbytes res.sendrecvbuf e =
        reducedElem reducer type_nbytes sendrecvbuf
          (childLinks eng.parent_index 0 res.engine.tree_links) e) ∧
    (eng.parent_index ≠ -1 → ∃ pl, res.engine.tree_links[eng.parent_index.toNat]? = some pl ∧
      pl.tx.length = type_nbytes * count ∧
      ∀ e, e < count →
        elemAt type_nbytes pl.tx e =
          reducedElem reducer type_nbytes sendrecvbuf
            (childLinks eng.parent_index 0 res.engine.tree_links) e) := by
  obtain ⟨s, up, hb, hl, hinv, hR, hO, hD, _⟩ :=
    TryAllreduce_final ring_size eng sendrecvbuf type_nbytes count reducer exec env res
      hcount0 h64 hlinks hpi hbuf hrun hret
  have h31 : type_nbytes * count / type_nbytes < 2 ^ 31 := by
    rw [Nat.mul_div_cancel_left count htn]; exact hcount
  have helem : ∀ e, e < count → elemAt type_nbytes up e =
      reducedElem reducer type_nbytes sendrecvbuf (childLinks eng.parent_index 0 s.links) e := by
    intro e he
    apply hinv.up_elem hred h31 htn e
    rw [hR, Nat.mul_comm type_nbytes count]
    exact Nat.mul_le_mul_right _ he
  have hul := hinv.up_len
  rw [hb, hl]
  constructor
  · intro hroot e he
    rw [← helem e he]
    unfold elemAt
    apply slice_eq_of_getElem?
    intro q _ hq2
    apply hinv.up_buf q
    · rw [if_pos hroot]; exact Nat.zero_le _
    · rw [hR, Nat.mul_comm type_nbytes count]
      have : (e + 1) * type_nbytes ≤ count * type_nbytes := Nat.mul_le_mul_right _ he
      have e1 : (e + 1) * type_nbytes = e * type_nbytes + type_nbytes := by ring
      omega
  · intro hp
    obtain ⟨pl, hpl, htx, _⟩ := hinv.parent hp
    have htx' : pl.tx = up := by
      rw [htx, hO, ← hR, ← hul, List.take_length]
    refine ⟨pl, hpl, by rw [htx', hul, hR], ?_⟩
    intro e he
    rw [htx']
    exact helem e he

/-- A reducer that combines the buffers byte by byte obeys the element-wise contract for
every element size. -/
theorem zipWith_ReducerContract (f : Nat → Nat → Nat) (tn : Nat) :
    ReducerContract (fun src dst _ _ => List.zipWith f dst src) tn := by
  intro src dst n hs hd
  refine ⟨by simp [hs, hd], ?_⟩
  intro e _
  unfold elemAt slice
  rw [List.drop_zipWith, List.take_zipWith]

/-- C1. For every worker with `type_nbytes > 0`, `0 < count < 2^31` (the count fits the
`int` the reducer takes), a buffer of `T = type_nbytes * count < 2^64` bytes, a non-empty tree
link set with a valid `parent_index`, ring buffers of any size `ring_size` gives them, and a
reducer that obeys the element-wise contract: if `TryAllreduce` returns `kSuccess`, the `T`
bytes delivered upward (the final buffer at the tree root, the transcript `tx` of the parent
link otherwise) hold in every element `e < count` the worker's initial element `e` combined
by the reducer with element `e` of the stream received from each child, in link order (for a
worker without children this is the initial element). The environment is arbitrary: every
split of the reads and sends and every wrap-around of the ring buffers is covered. -/
theorem TryAllreduce_up_pass (ring_size : Nat → Nat → Nat → Nat) (eng : AllreduceBase)
    (sendrecvbuf : List Nat) (type_nbytes count : Nat) (reducer : ReduceFunction)
    (exec : Option PreprocLoopExecutor) (env : List Wake) (res : CallResult)
    (htn : 0 < type_nbytes) (hcount0 : 0 < count) (hcount : count < 2 ^ 31)
    (h64 : type_nbytes * count < 2 ^ 64)
    (hlinks : eng.tree_links ≠ [])
    (hpi : eng.parent_index = -1 ∨
      (0 ≤ eng.parent_index ∧ eng.parent_index.toNat < eng.tree_links.length))
    (hbuf : type_nbytes * count ≤ sendrecvbuf.length)
    (hred : ReducerContract reducer type_nbytes)
    (hrun : TryAllreduce ring_size eng sendrecvbuf type_nbytes count reducer exec env =
      some res)
    (hret : res.exit = Exit.returned ReturnType.kSuccess) :
    (eng.parent_index = -1 → ∀ e, e < count →
      elemAt type_nbytes res.sendrecvbuf e =
        reducedElem reducer type_nbytes sendrecvbuf
          (childLinks eng.parent_index 0 res.engine.tree_links) e) ∧
    (eng.parent_index ≠ -1 → ∃ pl, res.engine.tree_links[eng.parent_index.toNat]? = some pl ∧
      pl.tx.length = type_nbytes * count ∧
      ∀ e, e < count →
        elemAt type_nbytes pl.tx e =
          reducedElem reducer type_nbytes sendrecvbuf
            (childLinks eng.parent_index 0 res.engine.tree_links) e) :=
  TryAllreduce_reduced ring_size eng sendrecvbuf type_nbytes count reducer exec env res htn
    hcount0 hcount h64 hlinks hpi hbuf hred hrun hret

/-- C1, the scenario of the spec: minimum reducer, own buffer `[5, 2, 9]`, one child
sending `[3, 8, 1]` in two pieces through a ring buffer of two bytes, no parent: the buffer
ends as `[3, 2, 1]`. -/
theorem TryAllreduce_up_pass_witness :
    TryAllreduce (fun _ _ _ => 2) (engineWith 0 2 (-1) 8 [freshLink 1]) [5, 2, 9] 1 3
      minReducer none upEnv = some upResult ∧
    upResult.sendrecvbuf = [3, 2, 1] ∧
    elemAt 1 upResult.sendrecvbuf 0 =
      reducedElem minReducer 1 [5, 2, 9] (childLinks (-1) 0 upResult.engine.tree_links) 0 ∧
    elemAt 1 upResult.sendrecvbuf 2 =
      reducedElem minReducer 1 [5, 2, 9] (childLinks (-1) 0 upResult.engine.tree_links) 2 := by
  have hrun : TryAllreduce (fun _ _ _ => 2) (engineWith 0 2 (-1) 8 [freshLink 1]) [5, 2, 9] 1 3
      minReducer none upEnv = some upResult := by rfl
  have h := (TryAllreduce_up_pass (fun _ _ _ => 2) (engineWith 0 2 (-1) 8 [freshLink 1])
    [5, 2, 9] 1 3 minReducer none upEnv upResult (by decide) (by decide) (by decide)
    (by decide) (by decide) (Or.inl rfl) (by decide)
    (zipWith_ReducerContract (fun d s => min d s) 1) hrun rfl).1 rfl
  exact ⟨hrun, rfl, h 0 (by decide), h 2 (by decide)⟩

/-- C2. For every worker with a non-empty tree link set (and a valid `parent_index`),
`count > 0` and a buffer of `T = type_nbytes * count < 2^64` bytes: if `TryAllreduce` returns
`kSuccess`, then with a parent the final `sendrecvbuf[0..T)` is exactly the `T` bytes received
from the parent; at the tree root it is the fully reduced buffer (element by element, for a
reducer obeying the contract); and every child link has `size_write == T` and was sent exactly
the final `T` bytes of the buffer, in order. No assumption is made on how sends and receives
are split. -/
theorem TryAllreduce_down_pass (ring_size : Nat → Nat → Nat → Nat) (eng : AllreduceBase)
    (sendrecvbuf : List Nat) (type_nbytes count : Nat) (reducer : ReduceFunction)
    (exec : Option PreprocLoopExecutor) (env : List Wake) (res : CallResult)
    (hcount0 : 0 < count) (h64 : type_nbytes * count < 2 ^ 64)
    (hlinks : eng.tree_links ≠ [])
    (hpi : eng.parent_index = -1 ∨
      (0 ≤ eng.parent_index ∧ eng.parent_index.toNat < eng.tree_links.length))
    (hbuf : type_nbytes * count ≤ sendrecvbuf.length)
    (hrun : TryAllreduce ring_size eng sendrecvbuf type_nbytes count reducer exec env =
      some res)
    (hret : res.exit = Exit.returned ReturnType.kSuccess) :
    (eng.parent_index ≠ -1 → ∃ pl, res.engine.tree_links[eng.parent_index.toNat]? = some pl ∧
      pl.rx.length = type_nbytes * count ∧
      res.sendrecvbuf.take (type_nbytes * count) = pl.rx) ∧
    (eng.parent_index = -1 → 0 < type_nbytes → count < 2 ^ 31 →
      ReducerContract reducer type_nbytes → ∀ e, e < count →
      elemAt type_nbytes res.sendrecvbuf e =
        reducedElem reducer type_nbytes sendrecvbuf
          (childLinks eng.parent_index 0 res.engine.tree_links) e) ∧
    (∀ (i : Nat) (l : LinkRecord), res.engine.tree_links[i]? = some l →
      (i : Int) ≠ eng.parent_index →
      l.size_write = type_nbytes * count ∧
        l.tx = res.sendrecvbuf.take (type_nbytes * count)) := by
  obtain ⟨s, up, hb, hl, hinv, hR, hO, hD, hw⟩ :=
    TryAllreduce_final ring_size eng sendrecvbuf type_nbytes count reducer exec env res
      hcount0 h64 hlinks hpi hbuf hrun hret
  have hlen := hinv.len
  refine ⟨?_, ?_, ?_⟩
  · intro hp
    obtain ⟨pl, hpl, _, hrx⟩ := hinv.parent hp
    rw [hb, hl]
    refine ⟨pl, hpl, ?_, ?_⟩
    · rw [hrx, hD, List.length_take]
      omega
    · rw [hrx, hD]
  · intro hroot htn hcount hred e he
    exact (TryAllreduce_reduced ring_size eng sendrecvbuf type_nbytes count reducer exec env
      res htn hcount0 hcount h64 hlinks hpi hbuf hred hrun hret).1 hroot e he
  · intro i l hil hne
    rw [hl] at hil
    rw [hb]
    have h1 := hw i l hil hne
    have h2 := (hinv.childs i l hil hne).tx_eq
    rw [h1] at h2
    exact ⟨h1, h2⟩

/-- C2 at a concrete worker with a parent and a child: the parent returns `[1, 1, 1]`, which
ends in the buffer and is what the child is sent. -/
theorem TryAllreduce_down_pass_witness :
    TryAllreduce (fun _ _ _ => 2) (engineWith 1 3 0 8 [freshLink 0, freshLink 2]) [5, 2, 9] 1 3
      minReducer none downEnv = some downResult ∧
    downResult.sendrecvbuf = [1, 1, 1] ∧
    downChild.size_write = 1 * 3 ∧
    downChild.tx = downResult.sendrecvbuf.take (1 * 3) := by
  have hrun : TryAllreduce (fun _ _ _ => 2) (engineWith 1 3 0 8 [freshLink 0, freshLink 2])
      [5, 2, 9] 1 3 minReducer none downEnv = some downResult := by rfl
  have h := (TryAllreduce_down_pass (fun _ _ _ => 2)
    (engineWith 1 3 0 8 [freshLink 0, freshLink 2]) [5, 2, 9] 1 3 minReducer none downEnv
    downResult (by decide) (by decide) (by decide) (Or.inr (by decide)) (by decide) hrun
    rfl).2.2 1 downChild rfl (by decide)
  exact ⟨hrun, rfl, h.1, h.2⟩

/-! ### C11: the topology derivation of ReConnectLinks -/

theorem visitLink_plinks (tree_neighbors : List Int) (parent_rank prev_rank next_rank : Int)
    (l : LinkRecord) (t : Topology) :
    (visitLink tree_neighbors parent_rank prev_rank next_rank l t).plinks =
      if l.rank ∈ tree_neighbors then t.plinks ++ [l] else t.plinks := by
  unfold visitLink
  dsimp only
  split_ifs <;> rfl

theorem visitLink_parent_index (tree_neighbors : List Int)
    (parent_rank prev_rank next_rank : Int) (l : LinkRecord) (t : Topology) :
    (visitLink tree_neighbors parent_rank prev_rank next_rank l t).parent_index =
      if l.rank ∈ tree_neighbors then
        (if l.rank = parent_rank then static_cast_int t.plinks.length else t.parent_index)
      else t.parent_index := by
  unfold visitLink
  dsimp only
  split_ifs <;> rfl

theorem deriveTopology_spec (BadSocket : TCPSocket → Bool) (tree_neighbors : List Int)
    (parent_rank prev_rank next_rank : Int) :
    ∀ (ls : List LinkRecord) (t : Topology), (∀ l ∈ ls, BadSocket l.sock = false) →
      ∃ t' : Topology,
        deriveTopology BadSocket tree_neighbors parent_rank prev_rank next_rank ls t =
          Except.ok t' ∧
        t'.plinks = t.plinks ++ ls.filter (fun l => decide (l.rank ∈ tree_neighbors)) ∧
        ((∀ l ∈ ls.filter (fun l => decide (l.rank ∈ tree_neighbors)), l.rank ≠ parent_rank) →
          t'.parent_index = t.parent_index) ∧
        (∀ (q : Nat) (l : LinkRecord),
          (ls.filter (fun l => decide (l.rank ∈ tree_neighbors)))[q]? = some l →
          l.rank = parent_rank →
          (∀ (q' : Nat) (l' : LinkRecord), q < q' →
            (ls.filter (fun l => decide (l.rank ∈ tree_neighbors)))[q']? = some l' →
            l'.rank ≠ parent_rank) →
          t'.parent_index = static_cast_int (t.plinks.length + q)) := by
  intro ls
  induction ls with
  | nil =>
    intro t _
    refine ⟨t, rfl, by simp, fun _ => rfl, ?_⟩
    intro q l hq
    simp at hq
  | cons l ls ih =>
    intro t hgood
    have hl : BadSocket l.sock = false := hgood l (List.mem_cons_self _ _)
    have hls : ∀ l' ∈ ls, BadSocket l'.sock = false :=
      fun l' h' => hgood l' (List.mem_cons_of_mem _ h')
    have hstep : deriveTopology BadSocket tree_neighbors parent_rank prev_rank next_rank
        (l :: ls) t =
        deriveTopology BadSocket tree_neighbors parent_rank prev_rank next_rank ls
          (visitLink tree_neighbors parent_rank prev_rank next_rank l t) := by
      rw [deriveTopology]
      simp only [hl, Bool.false_eq_true, if_false]
    have hpl := visitLink_plinks tree_neighbors parent_rank prev_rank next_rank l t
    have hpi := visitLink_parent_index tree_neighbors parent_rank prev_rank next_rank l t
    obtain ⟨t', hrun, hplinks, hnone, hlast⟩ := ih (visitLink tree_neighbors parent_rank prev_rank next_rank l t) hls
    refine ⟨t', by rw [hstep]; exact hrun, ?_, ?_, ?_⟩
    · rw [hplinks, hpl]
      by_cases h3 : l.rank ∈ tree_neighbors
      · simp [h3, List.filter_cons]
      · simp [h3, List.filter_cons]
    · intro hno
      by_cases h3 : l.rank ∈ tree_neighbors
      · have hf : (l :: ls).filter (fun l => decide (l.rank ∈ tree_neighbors)) =
            l :: ls.filter (fun l => decide (l.rank ∈ tree_neighbors)) := by
          simp [List.filter_cons, h3]
        rw [hf] at hno
        have hlr : l.rank ≠ parent_rank := hno l (List.mem_cons_self _ _)
        rw [hnone (fun l' h' => hno l' (List.mem_cons_of_mem _ h')), hpi, if_pos h3, if_neg hlr]
      · have hf : (l :: ls).filter (fun l => decide (l.rank ∈ tree_neighbors)) =
            ls.filter (fun l => decide (l.rank ∈ tree_neighbors)) := by
          simp [List.filter_cons, h3]
        rw [hf] at hno
        rw [hnone hno, hpi]
        simp [h3]
    · intro q lq hq hrank hlater
      by_cases h3 : l.rank ∈ tree_neighbors
      · have hf : (l :: ls).filter (fun l => decide (l.rank ∈ tree_neighbors)) =
            l :: ls.filter (fun l => decide (l.rank ∈ tree_neighbors)) := by
          simp [List.filter_cons, h3]
        rw [hf] at hq hlater
        cases q with
        | zero =>
          simp at hq
          subst hq
          have hno : ∀ l' ∈ ls.filter (fun l => decide (l.rank ∈ tree_neighbors)),
              l'.rank ≠ parent_rank := by
            intro l' h'
            obtain ⟨j, hj, hjl⟩ := List.getElem_of_mem h'
            have hj2 : (l :: ls.filter (fun l => decide (l.rank ∈ tree_neighbors)))[j + 1]? =
                some l' := by
              simp [List.getElem?_eq_getElem hj, hjl]
            exact hlater (j + 1) l' (Nat.succ_pos j) hj2
          rw [hnone hno, hpi, if_pos h3, if_pos hrank]
          simp
        | succ q0 =>
          simp at hq
          have hl2 := hlast q0 lq hq hrank (by
            intro q' l' hlt hq'
            have hq2 : (l :: ls.filter (fun l => decide (l.rank ∈ tree_neighbors)))[q' + 1]? =
                some l' := by
              simpa using hq'
            exact hlater (q' + 1) l' (by omega) hq2)
          rw [hl2, hpl]
          simp only [h3, if_true, List.length_append, List.length_singleton]
          congr 1
          omega
      · have hf : (l :: ls).filter (fun l => decide (l.rank ∈ tree_neighbors)) =
            ls.filter (fun l => decide (l.rank ∈ tree_neighbors)) := by
          simp [List.filter_cons, h3]
        rw [hf] at hq hlater
        rw [hlast q lq hq hrank hlater, hpl]
        simp [h3]

theorem filter_rank_unique (sel : LinkRecord → Bool) (all_links : List LinkRecord)
    (hdistinct : (all_links.map (fun l => l.rank)).Nodup) (p q : Nat) (l l' : LinkRecord)
    (hp : (all_links.filter sel)[p]? = some l) (hq : (all_links.filter sel)[q]? = some l')
    (hr : l'.rank = l.rank) : q = p := by
  have hsub : ((all_links.filter sel).map (fun l => l.rank)).Sublist
      (all_links.map (fun l => l.rank)) :=
    List.Sublist.map _ (List.filter_sublist _)
  have hnd : ((all_links.filter sel).map (fun l => l.rank)).Nodup := hdistinct.sublist hsub
  have hp2 : ((all_links.filter sel).map (fun l => l.rank))[p]? = some l.rank := by
    simp [hp]
  have hq2 : ((all_links.filter sel).map (fun l => l.rank))[q]? = some l.rank := by
    simp [hq, hr]
  obtain ⟨hpl, hpe⟩ := List.getElem?_eq_some_iff.mp hp2
  obtain ⟨hql, hqe⟩ := List.getElem?_eq_some_iff.mp hq2
  exact (List.Nodup.getElem_inj_iff hnd).mp (hqe.trans hpe.symm)

/-- C11: the topology derivation at the end of `ReConnectLinks` (lines 292-315). For every
`all_links` with pairwise distinct ranks (fewer than 2^31 links, none with a bad socket, so
that the walk is not cut short by the check of line 296), every `tree_neighbors` and every
`parent_rank`: the walk ends; `tree_links` is the subsequence of `all_links`, in the same
order, of the links whose rank is in `tree_neighbors`; `parent_index` is -1 when no selected
link has rank `parent_rank` and is otherwise the only position of `tree_links` with that
rank; the check "cannot find parent in the link" fails exactly when `parent_rank != -1` and
no selected link has that rank; and when the function returns, the engine holds this
`tree_links` and `parent_index`. -/
theorem ReConnectLinks_topology_derivation (BadSocket : TCPSocket → Bool)
    (eng : AllreduceBase) (all_links : List LinkRecord) (tree_neighbors : List Int)
    (prev_rank next_rank : Int) (ring_prev ring_next : Option LinkRecord)
    (hdistinct : (all_links.map (fun l => l.rank)).Nodup)
    (hgood : ∀ l ∈ all_links, BadSocket l.sock = false)
    (hsize : all_links.length < 2 ^ 31) :
    ∃ t : Topology,
      deriveTopology BadSocket tree_neighbors eng.parent_rank prev_rank next_rank all_links
        ⟨-1, [], ring_prev, ring_next⟩ = Except.ok t ∧
      t.plinks = all_links.filter (fun l => decide (l.rank ∈ tree_neighbors)) ∧
      ((∀ l ∈ t.plinks, l.rank ≠ eng.parent_rank) → t.parent_index = -1) ∧
      (∀ (p : Nat) (l : LinkRecord), t.plinks[p]? = some l → l.rank = eng.parent_rank →
        t.parent_index = (p : Int) ∧
        ∀ (q : Nat) (l' : LinkRecord), t.plinks[q]? = some l' →
          l'.rank = eng.parent_rank → q = p) ∧
      (ReConnectLinks_topology BadSocket eng all_links tree_neighbors prev_rank next_rank
          ring_prev ring_next = Except.error AssertMsg.cannot_find_parent ↔
        eng.parent_rank ≠ -1 ∧ ∀ l ∈ t.plinks, l.rank ≠ eng.parent_rank) ∧
      (∀ r, ReConnectLinks_topology BadSocket eng all_links tree_neighbors prev_rank
          next_rank ring_prev ring_next = Except.ok r →
        r.1.tree_links = t.plinks ∧ r.1.parent_index = t.parent_index) := by
  obtain ⟨t, hrun, hpl, hnone, hlast⟩ :=
    deriveTopology_spec BadSocket tree_neighbors eng.parent_rank prev_rank next_rank all_links
      ⟨-1, [], ring_prev, ring_next⟩ hgood
  have hpl2 : t.plinks = all_links.filter (fun l => decide (l.rank ∈ tree_neighbors)) := by
    rw [hpl]; rfl
  have hminus : (∀ l ∈ t.plinks, l.rank ≠ eng.parent_rank) → t.parent_index = -1 := by
    intro h
    rw [hpl2] at h
    exact hnone h
  have hpos : ∀ (p : Nat) (l : LinkRecord), t.plinks[p]? = some l → l.rank = eng.parent_rank →
      t.parent_index = (p : Int) ∧
      ∀ (q : Nat) (l' : LinkRecord), t.plinks[q]? = some l' →
        l'.rank = eng.parent_rank → q = p := by
    intro p l hp hr
    rw [hpl2] at hp
    have huniq : ∀ (q : Nat) (l' : LinkRecord),
        (all_links.filter (fun l => decide (l.rank ∈ tree_neighbors)))[q]? = some l' →
        l'.rank = eng.parent_rank → q = p :=
      fun q l' hq hr' =>
        filter_rank_unique _ all_links hdistinct p q l l' hp hq (hr'.trans hr.symm)
    constructor
    · have hidx := hlast p l hp hr (by
        intro q' l' hlt hq' hr'
        have := huniq q' l' hq' hr'
        omega)
      rw [hidx]
      have hplt : p < (all_links.filter (fun l => decide (l.rank ∈ tree_neighbors))).length :=
        (List.getElem?_eq_some_iff.mp hp).1
      have hfl := List.length_filter_le (fun l => decide (l.rank ∈ tree_neighbors)) all_links
      have h31 : ([] : List LinkRecord).length + p < 2 ^ 31 := by
        simp only [List.length_nil]
        omega
      rw [static_cast_int_eq _ h31]
      simp
    · intro q l' hq hr'
      rw [hpl2] at hq
      exact huniq q l' hq hr'
  refine ⟨t, hrun, hpl2, hminus, hpos, ?_, ?_⟩
  · unfold ReConnectLinks_topology
    rw [hrun]
    dsimp only
    constructor
    · intro h
      by_cases h1 : ¬ (eng.parent_rank = -1 ∨ t.parent_index ≠ -1)
      · have hpr : eng.parent_rank ≠ -1 := fun hh => h1 (Or.inl hh)
        have hpi : t.parent_index = -1 := by
          by_contra hh
          exact h1 (Or.inr hh)
        refine ⟨hpr, ?_⟩
        intro l hl hr
        obtain ⟨p, hpl3, hpe⟩ := List.getElem_of_mem hl
        have hp : t.plinks[p]? = some l := by
          rw [List.getElem?_eq_getElem hpl3, hpe]
        have := (hpos p l hp hr).1
        omega
      · rw [if_neg h1] at h
        split_ifs at h <;> simp at h
    · rintro ⟨hpr, hno⟩
      have hpi := hminus hno
      rw [if_pos]
      intro hh
      rcases hh with hh | hh
      · exact hpr hh
      · exact hh hpi
  · intro r hr
    unfold ReConnectLinks_topology at hr
    rw [hrun] at hr
    dsimp only at hr
    split_ifs at hr
    simp only [Except.ok.injEq] at hr
    subst hr
    exact ⟨rfl, rfl⟩

/-- C11 at a concrete worker: links to the ranks 3, 0, 4 and 1, tree neighbors 0, 3 and 4,
parent rank 0: the tree links are those to 3, 0 and 4 and the parent is at position 1. -/
theorem ReConnectLinks_topology_derivation_witness :
    ([freshLink 3, freshLink 0, freshLink 4, freshLink 1].map (fun l => l.rank)).Nodup ∧
    ReConnectLinks_topology (fun s => s.closed) { rawEngine with parent_rank := 0 }
      [freshLink 3, freshLink 0, freshLink 4, freshLink 1] [0, 3, 4] 1 3 none none =
      Except.ok
        ({ rawEngine with
            parent_rank := 0, parent_index := 1
            tree_links := [freshLink 3, freshLink 0, freshLink 4] },
          some (freshLink 1), some (freshLink 3)) ∧
    ∃ t : Topology,
      deriveTopology (fun s => s.closed) [0, 3, 4] 0 1 3
        [freshLink 3, freshLink 0, freshLink 4, freshLink 1] ⟨-1, [], none, none⟩ =
        Except.ok t ∧
      t.plinks = [freshLink 3, freshLink 0, freshLink 4] :=
  ⟨by decide, by rfl,
    (ReConnectLinks_topology_derivation (fun s => s.closed) { rawEngine with parent_rank := 0 }
      [freshLink 3, freshLink 0, freshLink 4, freshLink 1] [0, 3, 4] 1 3 none none
      (by decide) (by decide) (by decide)).imp (fun _ h => ⟨h.1, h.2.1⟩)⟩

/-! ### C12: the ordering of the cursors of TryAllreduce -/

theorem LinksLe_refl (links : List LinkRecord) : LinksLe links links := by
  refine ⟨rfl, ?_⟩
  intro i l l' h h'
  rw [h] at h'
  simp only [Option.some.injEq] at h'
  subst h'
  exact ⟨le_refl _, le_refl _⟩

theorem LinksLe_trans (a b c : List LinkRecord) (h1 : LinksLe a b) (h2 : LinksLe b c) :
    LinksLe a c := by
  refine ⟨h2.1.trans h1.1, ?_⟩
  intro i l l'' h h''
  have hi : i < a.length := (List.getElem?_eq_some_iff.mp h).1
  have hib : i < b.length := by rw [h1.1]; exact hi
  have hb : b[i]? = some b[i] := List.getElem?_eq_getElem hib
  have r1 := h1.2 i l _ h hb
  have r2 := h2.2 i _ l'' hb h''
  exact ⟨r1.1.trans r2.1, r1.2.trans r2.2⟩

theorem LinksLe_set (links : List LinkRecord) (p : Nat) (pl l' : LinkRecord)
    (hp : links[p]? = some pl) (hr : pl.size_read ≤ l'.size_read)
    (hw : pl.size_write ≤ l'.size_write) : LinksLe links (links.set p l') := by
  refine ⟨by simp, ?_⟩
  intro i l l2 h h2
  by_cases hip : p = i
  · subst hip
    have hlt : p < links.length := (List.getElem?_eq_some_iff.mp h).1
    rw [List.getElem?_set_self hlt] at h2
    simp only [Option.some.injEq] at h2
    subst h2
    rw [hp] at h
    simp only [Option.some.injEq] at h
    subst h
    exact ⟨hr, hw⟩
  · rw [List.getElem?_set_ne hip] at h2
    rw [h] at h2
    simp only [Option.some.injEq] at h2
    subst h2
    exact ⟨le_refl _, le_refl _⟩

theorem forLinks_LinksLe (f : Nat → LinkRecord → ReturnType × LinkRecord)
    (hf : ∀ i l, l.size_read ≤ (f i l).2.size_read ∧ l.size_write ≤ (f i l).2.size_write)
    (links : List LinkRecord) (k : Nat) : LinksLe links (forLinks f k links).2 :=
  ⟨forLinks_length f links k,
    fun i l l' h h' =>
      forLinks_rel f (fun _ a b => a.size_read ≤ b.size_read ∧ a.size_write ≤ b.size_write)
        (fun _ _ => ⟨le_refl _, le_refl _⟩) hf links k i l l' h h'⟩

theorem ReadToRingBuffer_le (l : LinkRecord) (p : Nat) (ev : LinkEvent) :
    l.size_read ≤ (l.ReadToRingBuffer p ev).2.size_read ∧
      l.size_write ≤ (l.ReadToRingBuffer p ev).2.size_write := by
  obtain ⟨got, _, h⟩ := ReadToRingBuffer_got l p ev
  rw [h]
  exact ⟨Nat.le_add_right _ _, le_refl _⟩

theorem WriteFromArray_le (l : LinkRecord) (src : List Nat) (upto : Nat) (ev : LinkEvent) :
    l.size_read ≤ (l.WriteFromArray src upto ev).2.size_read ∧
      l.size_write ≤ (l.WriteFromArray src upto ev).2.size_write := by
  unfold LinkRecord.WriteFromArray
  split
  · exact ⟨le_refl _, le_refl _⟩
  · exact ⟨le_refl _, Nat.le_add_right _ _⟩

theorem allreduceReadChilds_le (parent_index : Int) (selecter : SelectHelper) (w : Wake)
    (size_up_out : Nat) (links : List LinkRecord) :
    LinksLe links (allreduceReadChilds parent_index selecter w size_up_out links).2 := by
  unfold allreduceReadChilds
  apply forLinks_LinksLe
  intro i l
  dsimp only
  split
  · exact ReadToRingBuffer_le l size_up_out (w i)
  · exact ⟨le_refl _, le_refl _⟩

theorem allreduceWriteChilds_le (parent_index : Int) (w : Wake) (buf : List Nat)
    (size_down_in : Nat) (links : List LinkRecord) :
    LinksLe links (allreduceWriteChilds parent_index w buf size_down_in links).2 := by
  unfold allreduceWriteChilds
  apply forLinks_LinksLe
  intro i l
  dsimp only
  split
  · exact WriteFromArray_le l buf size_down_in (w i)
  · exact ⟨le_refl _, le_refl _⟩

theorem reduceLoop_le (reducer : ReduceFunction) (type_nbytes buffer_size max_reduce : Nat)
    (childs : List LinkRecord) :
    ∀ (fuel : Nat) (buf : List Nat) (R calls : Nat) (buf' : List Nat) (R' calls' : Nat),
      reduceLoop reducer type_nbytes buffer_size max_reduce childs fuel (buf, R, calls) =
        Step.next (buf', R', calls') → R ≤ R' := by
  intro fuel
  induction fuel with
  | zero =>
    intro buf R calls buf' R' calls' h
    unfold reduceLoop at h
    split at h
    · simp at h
    · simp only [Step.next.injEq, Prod.mk.injEq] at h
      omega
  | succ fuel ih =>
    intro buf R calls buf' R' calls' h
    unfold reduceLoop at h
    split at h
    · dsimp only at h
      split at h
      · have := ih _ _ _ _ _ _ h
        omega
      · simp at h
    · simp only [Step.next.injEq, Prod.mk.injEq] at h
      omega

theorem allreduceReduce_le (reducer : ReduceFunction) (parent_index : Int)
    (type_nbytes total_size : Nat) (s s' : AllreduceState)
    (h : allreduceReduce reducer parent_index type_nbytes total_size s = Step.next s') :
    s.size_up_reduce ≤ s'.size_up_reduce := by
  unfold allreduceReduce at h
  by_cases hc : s.links.length > (if parent_index ≠ -1 then 1 else 0)
  · rw [if_pos hc] at h
    split at h
    · simp at h
    · dsimp only at h
      split at h
      · rename_i buf r calls heq
        simp only [Step.next.injEq] at h
        rw [← h]
        exact reduceLoop_le _ _ _ _ _ _ _ _ _ _ _ _ heq
      · simp at h
      · simp at h
  · rw [if_neg hc] at h
    simp only [Step.next.injEq] at h
    rw [h]

theorem allreduceParentAndDown_le (parent_index : Int) (selecter : SelectHelper) (w : Wake)
    (total_size : Nat) (s s' : AllreduceState)
    (hD : s.size_down_in ≤ s.size_up_reduce) (hO : s.size_up_out ≤ s.size_up_reduce)
    (h : allreduceParentAndDown parent_index selecter w total_size s = Step.next s') :
    CursorsLe s s' := by
  unfold allreduceParentAndDown at h
  obtain ⟨s2, h2, hw⟩ := andThen_next _ _ _ h
  obtain ⟨_, hs'⟩ := afterLinks_next _ _ _ hw
  have h12 : CursorsLe s s2 := by
    by_cases hpi : parent_index ≠ -1
    · rw [if_pos hpi] at h2
      obtain ⟨s1, h1, hr⟩ := andThen_next _ _ _ h2
      have hs1 : CursorsLe s s1 := by
        rcases allreduceSendUp_next _ _ _ _ h1 with he | ⟨_, pl, n, hpl, he⟩
        · rw [he]
          exact ⟨le_refl _, le_refl _, le_refl _, LinksLe_refl _⟩
        · rw [he]
          exact ⟨le_refl _, Nat.le_add_right _ _, le_refl _,
            LinksLe_set _ _ pl _ hpl (le_refl _) (le_refl _)⟩
      have hs2 : CursorsLe s1 s2 := by
        rcases allreduceRecvDown_next _ _ _ _ _ _ hr with he | ⟨_, pl, got, hpl, _, _, _, he⟩
        · rw [he]
          exact ⟨le_refl _, le_refl _, le_refl _, LinksLe_refl _⟩
        · rw [he]
          exact ⟨le_refl _, le_refl _, Nat.le_add_right _ _,
            LinksLe_set _ _ pl _ hpl (le_refl _) (le_refl _)⟩
      exact ⟨hs1.1.trans hs2.1, hs1.2.1.trans hs2.2.1, hs1.2.2.1.trans hs2.2.2.1,
        LinksLe_trans _ _ _ hs1.2.2.2 hs2.2.2.2⟩
    · rw [if_neg hpi] at h2
      simp only [Step.next.injEq] at h2
      rw [← h2]
      exact ⟨le_refl _, hO, hD, LinksLe_refl _⟩
  have h23 : LinksLe s2.links s'.links := by
    rw [hs']
    exact allreduceWriteChilds_le _ _ _ _ _
  have e1 : s'.size_up_reduce = s2.size_up_reduce := by rw [hs']
  have e2 : s'.size_up_out = s2.size_up_out := by rw [hs']
  have e3 : s'.size_down_in = s2.size_down_in := by rw [hs']
  exact ⟨by rw [e1]; exact h12.1, by rw [e2]; exact h12.2.1, by rw [e3]; exact h12.2.2.1,
    LinksLe_trans _ _ _ h12.2.2.2 h23⟩

theorem allreduceBody_le (reducer : ReduceFunction) (parent_index : Int) (tn T : Nat)
    (selecter : SelectHelper) (w : Wake) (s s' : AllreduceState)
    (hD : s.size_down_in ≤ s.size_up_out) (hO : s.size_up_out ≤ s.size_up_reduce)
    (h : allreduceBody reducer parent_index tn T selecter w s = Step.next s') :
    CursorsLe s s' := by
  unfold allreduceBody at h
  split at h
  · simp at h
  · obtain ⟨s1, h1, h2⟩ := andThen_next _ _ _ h
    obtain ⟨s2, h3, h4⟩ := andThen_next _ _ _ h2
    obtain ⟨_, hs1⟩ := afterLinks_next _ _ _ h1
    have hl1 : LinksLe s.links s1.links := by
      rw [hs1]
      exact allreduceReadChilds_le _ _ _ _ _
    have r1 : s1.size_up_reduce = s.size_up_reduce := by rw [hs1]
    have o1 : s1.size_up_out = s.size_up_out := by rw [hs1]
    have d1 : s1.size_down_in = s.size_down_in := by rw [hs1]
    obtain ⟨hl2, _, o2, d2⟩ := allreduceReduce_next _ _ _ _ _ _ h3
    have r2 := allreduceReduce_le _ _ _ _ _ _ h3
    have hc := allreduceParentAndDown_le _ _ _ _ _ _ (by omega) (by omega) h4
    refine ⟨by have := hc.1; omega, by have := hc.2.1; omega, by have := hc.2.2.1; omega, ?_⟩
    have h2l : LinksLe s1.links s2.links := by
      rw [hl2]
      exact LinksLe_refl _
    exact LinksLe_trans _ _ _ hl1 (LinksLe_trans _ _ _ h2l hc.2.2.2)

theorem allreduceTops_head (reducer : ReduceFunction) (parent_index : Int) (tn T : Nat)
    (env : List Wake) (s : AllreduceState) :
    ∃ rest, allreduceTops reducer parent_index tn T env s = s :: rest := by
  cases env with
  | nil => exact ⟨[], rfl⟩
  | cons w ws =>
    unfold allreduceTops
    split
    · exact ⟨[], rfl⟩
    · split
      · exact ⟨_, rfl⟩
      · exact ⟨[], rfl⟩
      · exact ⟨[], rfl⟩

theorem allreduceTops_inv (reducer : ReduceFunction) (tn T B0 : Nat) (parent_index : Int)
    (buf0 : List Nat) :
    ∀ (env : List Wake) (s : AllreduceState) (up : List Nat),
      AllreduceInv reducer tn T B0 parent_index buf0 up s →
      (∀ s' ∈ allreduceTops reducer parent_index tn T env s,
        ∃ up', AllreduceInv reducer tn T B0 parent_index buf0 up' s') ∧
      List.Chain' CursorsLe (allreduceTops reducer parent_index tn T env s) := by
  intro env
  induction env with
  | nil =>
    intro s up hinv
    unfold allreduceTops
    refine ⟨?_, List.chain'_singleton s⟩
    intro s' hs'
    simp only [List.mem_singleton] at hs'
    exact ⟨up, hs' ▸ hinv⟩
  | cons w ws ih =>
    intro s up hinv
    have hone : (∀ s' ∈ [s], ∃ up', AllreduceInv reducer tn T B0 parent_index buf0 up' s') ∧
        List.Chain' CursorsLe [s] := by
      refine ⟨?_, List.chain'_singleton s⟩
      intro s' hs'
      simp only [List.mem_singleton] at hs'
      exact ⟨up, hs' ▸ hinv⟩
    unfold allreduceTops
    split
    · exact hone
    · split
      · rename_i s1 heq
        obtain ⟨up1, hinv1⟩ := allreduceBody_inv _ _ _ _ _ _ _ _ _ _ _ hinv heq
        obtain ⟨hall, hchain⟩ := ih s1 up1 hinv1
        have hle := allreduceBody_le _ _ _ _ _ _ _ _ hinv.down_le hinv.out_le heq
        obtain ⟨rest, hrest⟩ := allreduceTops_head reducer parent_index tn T ws s1
        constructor
        · intro s' hs'
          rcases List.mem_cons.mp hs' with h | h
          · exact ⟨up, h ▸ hinv⟩
          · exact hall s' h
        · rw [hrest] at hchain ⊢
          exact List.Chain'.cons hle hchain
      · exact hone
      · exact hone

theorem allreduceTops_last (reducer : ReduceFunction) (parent_index : Int) (tn T : Nat) :
    ∀ (env : List Wake) (s s' : AllreduceState) (el : Option Nat),
      allreduceLoop reducer parent_index tn T env s =
        some (Exit.returned ReturnType.kSuccess, el, s') →
      (allreduceTops reducer parent_index tn T env s).getLast? = some s' := by
  intro env
  induction env with
  | nil =>
    intro s s' el h
    unfold allreduceLoop at h
    split at h
    · simp only [Option.some.injEq, Prod.mk.injEq, true_and] at h
      rw [← h.2]
      rfl
    · simp at h
  | cons w ws ih =>
    intro s s' el h
    unfold allreduceLoop at h
    unfold allreduceTops
    split at h
    · rename_i hfin
      rw [if_pos hfin]
      simp only [Option.some.injEq, Prod.mk.injEq, true_and] at h
      rw [← h.2]
      rfl
    · rename_i hfin
      rw [if_neg hfin]
      split at h
      · rename_i s1 heq
        obtain ⟨rest, hrest⟩ := allreduceTops_head reducer parent_index tn T ws s1
        have := ih s1 s' el h
        rw [hrest] at this ⊢
        rw [List.getLast?_cons_cons]
        exact this
      · rename_i e1 el1 s1 heq
        simp only [Option.some.injEq, Prod.mk.injEq] at h
        exact absurd h.1 (allreduceBody_stop _ _ _ _ _ _ _ _ _ _ heq)
      · simp at h

theorem AllreduceInv_CursorOrder (reducer : ReduceFunction) (tn T B0 : Nat)
    (parent_index : Int) (buf0 up : List Nat) (s : AllreduceState)
    (hinv : AllreduceInv reducer tn T B0 parent_index buf0 up s) :
    CursorOrder parent_index T s ∧
      ∀ (i : Nat) (l : LinkRecord), s.links[i]? = some l → (i : Int) ≠ parent_index →
        l.size_read = l.rx.length := by
  refine ⟨⟨hinv.down_le, hinv.out_le, hinv.reduce_le, ?_⟩, ?_⟩
  · intro i l hl hne
    have hc := hinv.childs i l hl hne
    have h1 := hc.write_le
    have h2 := hc.reduce_le
    have h3 := hc.gap
    have h4 := hc.bsize
    have h5 := hinv.down_le
    have h6 := hinv.out_le
    refine ⟨h1, by omega, by omega, by omega⟩
  · intro i l hl hne
    exact (hinv.childs i l hl hne).read_len

theorem TryAllreduce_tops_inv (ring_size : Nat → Nat → Nat → Nat) (eng : AllreduceBase)
    (sendrecvbuf : List Nat) (type_nbytes count : Nat) (reducer : ReduceFunction)
    (exec : Option PreprocLoopExecutor) (env : List Wake)
    (h64 : type_nbytes * count < 2 ^ 64)
    (hpi : eng.parent_index = -1 ∨
      (0 ≤ eng.parent_index ∧ eng.parent_index.toNat < eng.tree_links.length))
    (hbuf : type_nbytes * count ≤ sendrecvbuf.length) :
    (∀ s ∈ TryAllreduce_tops ring_size eng sendrecvbuf type_nbytes count reducer exec env,
      ∃ up, AllreduceInv reducer type_nbytes (type_nbytes * count)
        (ring_size type_nbytes count eng.reduce_buffer_size) eng.parent_index sendrecvbuf
        up s) ∧
    List.Chain' CursorsLe
      (TryAllreduce_tops ring_size eng sendrecvbuf type_nbytes count reducer exec env) := by
  unfold TryAllreduce_tops
  by_cases h0 : eng.tree_links.length = 0 ∨ count = 0
  · rw [if_pos h0]
    exact ⟨fun s hs => absurd hs (List.not_mem_nil s), List.chain'_nil⟩
  · rw [if_neg h0, Nat.mod_eq_of_lt h64]
    have hlinks : eng.tree_links ≠ [] := by
      intro hnil
      exact h0 (Or.inl (by rw [hnil]; rfl))
    exact allreduceTops_inv reducer type_nbytes (type_nbytes * count)
      (ring_size type_nbytes count eng.reduce_buffer_size) eng.parent_index sendrecvbuf env _ _
      (AllreduceInv_init ring_size reducer eng sendrecvbuf type_nbytes count
        (type_nbytes * count) exec hlinks hpi hbuf (Dvd.intro _ rfl))

theorem TryAllreduce_tops_last (ring_size : Nat → Nat → Nat → Nat) (eng : AllreduceBase)
    (sendrecvbuf : List Nat) (type_nbytes count : Nat) (reducer : ReduceFunction)
    (exec : Option PreprocLoopExecutor) (env : List Wake) (res : CallResult)
    (hlinks : eng.tree_links ≠ []) (hcount : 0 < count)
    (hrun : TryAllreduce ring_size eng sendrecvbuf type_nbytes count reducer exec env =
      some res)
    (hret : res.exit = Exit.returned ReturnType.kSuccess) :
    ∃ s, (TryAllreduce_tops ring_size eng sendrecvbuf type_nbytes count reducer exec
        env).getLast? = some s ∧
      res.engine.tree_links = s.links ∧ res.sendrecvbuf = s.sendrecvbuf := by
  have h0 : ¬ (eng.tree_links.length = 0 ∨ count = 0) := by
    intro h
    rcases h with h | h
    · exact hlinks (List.length_eq_zero.mp h)
    · omega
  unfold TryAllreduce at hrun
  unfold TryAllreduce_tops
  rw [if_neg h0] at hrun ⊢
  dsimp only at hrun
  split at hrun
  · simp at hrun
  · rename_i e el s heq
    simp only [Option.some.injEq] at hrun
    subst hrun
    dsimp only at hret
    subst hret
    exact ⟨s, allreduceTops_last _ _ _ _ _ _ _ _ heq, rfl, rfl⟩

/-- C12, amended: the ordering of the cursors of `TryAllreduce`. For a call on a buffer of
`T = type_nbytes * count < 2^64` bytes with `parent_index` either -1 or a position of
`tree_links`, and for every environment: at the top of every iteration of the main loop
`size_down_in <= size_up_out <= size_up_reduce <= T`, and every child link has
`size_write <= size_down_in`, `size_up_out <= size_read <= size_up_out + buffer_size` and
`size_write <= size_read`, where `size_read` is the number of bytes the child has delivered
since the call began; from one iteration to the next no cursor decreases; and when the call
returns `kSuccess`, the last of these states is the one it returns with. -/
theorem TryAllreduce_cursor_order (ring_size : Nat → Nat → Nat → Nat) (eng : AllreduceBase)
    (sendrecvbuf : List Nat) (type_nbytes count : Nat) (reducer : ReduceFunction)
    (exec : Option PreprocLoopExecutor) (env : List Wake)
    (h64 : type_nbytes * count < 2 ^ 64)
    (hpi : eng.parent_index = -1 ∨
      (0 ≤ eng.parent_index ∧ eng.parent_index.toNat < eng.tree_links.length))
    (hbuf : type_nbytes * count ≤ sendrecvbuf.length) :
    (∀ s ∈ TryAllreduce_tops ring_size eng sendrecvbuf type_nbytes count reducer exec env,
      CursorOrder eng.parent_index (type_nbytes * count) s ∧
      ∀ (i : Nat) (l : LinkRecord), s.links[i]? = some l → (i : Int) ≠ eng.parent_index →
        l.size_read = l.rx.length) ∧
    List.Chain' CursorsLe
      (TryAllreduce_tops ring_size eng sendrecvbuf type_nbytes count reducer exec env) ∧
    (∀ res : CallResult, eng.tree_links ≠ [] → 0 < count →
      TryAllreduce ring_size eng sendrecvbuf type_nbytes count reducer exec env = some res →
      res.exit = Exit.returned ReturnType.kSuccess →
      ∃ s, (TryAllreduce_tops ring_size eng sendrecvbuf type_nbytes count reducer exec
          env).getLast? = some s ∧
        res.engine.tree_links = s.links ∧ res.sendrecvbuf = s.sendrecvbuf) := by
  obtain ⟨hall, hchain⟩ := TryAllreduce_tops_inv ring_size eng sendrecvbuf type_nbytes count
    reducer exec env h64 hpi hbuf
  refine ⟨?_, hchain, ?_⟩
  · intro s hs
    obtain ⟨up, hinv⟩ := hall s hs
    exact AllreduceInv_CursorOrder _ _ _ _ _ _ _ _ hinv
  · intro res hlinks hcount hrun hret
    exact TryAllreduce_tops_last ring_size eng sendrecvbuf type_nbytes count reducer exec env
      res hlinks hcount hrun hret

/-- C12, amended, at a concrete run: worker 1 of a cohort of three (parent on link 0, child
on link 1, ring buffers of two bytes) through the four wakes of `downEnv`. -/
theorem TryAllreduce_cursor_order_witness :
    1 * 3 ≤ [5, 2, 9].length ∧
    (TryAllreduce_tops (fun _ _ _ => 2) (engineWith 1 3 0 8 [freshLink 0, freshLink 2])
      [5, 2, 9] 1 3 minReducer none downEnv).map cursorsOf =
      [((0, 0, 0), [(0, 0, 0), (0, 0, 2)]), ((0, 2, 2), [(0, 0, 0), (0, 2, 2)]),
        ((3, 3, 3), [(0, 0, 0), (2, 3, 2)]), ((3, 3, 3), [(0, 0, 0), (3, 3, 2)])] ∧
    ∀ s ∈ TryAllreduce_tops (fun _ _ _ => 2) (engineWith 1 3 0 8 [freshLink 0, freshLink 2])
        [5, 2, 9] 1 3 minReducer none downEnv,
      CursorOrder 0 (1 * 3) s :=
  ⟨by decide, by rfl,
    fun s hs =>
      ((TryAllreduce_cursor_order (fun _ _ _ => 2)
        (engineWith 1 3 0 8 [freshLink 0, freshLink 2]) [5, 2, 9] 1 3 minReducer none downEnv
        (by norm_num) (Or.inr ⟨by decide, by decide⟩) (by decide)).1 s hs).1⟩

/-- C12, counterexample to `size_read <= T`: the root of a cohort of two, three one-byte
elements, ring buffers of six bytes; in the only wake the child delivers four bytes.
`ReadToRingBuffer(size_up_out)` takes all four (they fit the ring buffer), the call returns
`kSuccess` without any failed check, and at the top of the second iteration the child link
has `size_read = 4 > 3 = T`. -/
theorem TryAllreduce_size_read_counterexample :
    (TryAllreduce (fun _ _ _ => 6) (engineWith 0 2 (-1) 8 [freshLink 1]) [5, 2, 9] 1 3
        minReducer none overrunEnv).map (fun r => r.exit) =
      some (Exit.returned ReturnType.kSuccess) ∧
    (TryAllreduce_tops (fun _ _ _ => 6) (engineWith 0 2 (-1) 8 [freshLink 1]) [5, 2, 9] 1 3
        minReducer none overrunEnv).map cursorsOf =
      [((0, 0, 0), [(0, 0, 6)]), ((3, 3, 3), [(3, 4, 6)])] ∧
    (∃ s ∈ TryAllreduce_tops (fun _ _ _ => 6) (engineWith 0 2 (-1) 8 [freshLink 1]) [5, 2, 9]
        1 3 minReducer none overrunEnv,
      ∃ l ∈ s.links, 1 * 3 < l.size_read) := by
  decide

/-! ### C13: the element alignment of the reduction -/

theorem reduceLoop_aligned (reducer : ReduceFunction) (tn B M : Nat)
    (childs : List LinkRecord) (hB : tn ∣ B) (hM : tn ∣ M) :
    ∀ (fuel : Nat) (buf : List Nat) (R calls : Nat) (e : Exit) (el : Option Nat)
      (st' : List Nat × Nat × Nat), tn ∣ R →
      reduceLoop reducer tn B M childs fuel (buf, R, calls) ≠ Step.stop e el st' := by
  intro fuel
  induction fuel with
  | zero =>
    intro buf R calls e el st' _ h
    unfold reduceLoop at h
    split at h <;> simp at h
  | succ fuel ih =>
    intro buf R calls e el st' hR h
    unfold reduceLoop at h
    by_cases h1 : R < M
    · rw [if_pos h1] at h
      dsimp only at h
      have hstart : tn ∣ R % B := (Nat.dvd_mod_iff hB).mpr hR
      have hn : tn ∣ min (B - R % B) (M - R) := by
        rcases Nat.le_total (B - R % B) (M - R) with hle | hle
        · rw [Nat.min_eq_left hle]
          exact Nat.dvd_sub' hB hstart
        · rw [Nat.min_eq_right hle]
          exact Nat.dvd_sub' hM hR
      rw [if_pos (Nat.mod_eq_zero_of_dvd hn)] at h
      exact ih _ _ _ _ _ _ (Nat.dvd_add hR hn) h
    · rw [if_neg h1] at h
      simp at h

theorem reduceBounds_error (parent_index : Int) :
    ∀ (links : List LinkRecord) (k m0 b0 : Nat) (m : AssertMsg),
      reduceBounds parent_index k links m0 b0 = Except.error m →
      m ≠ AssertMsg.allreduce_size_check := by
  intro links
  induction links with
  | nil =>
    intro k m0 b0 m h
    unfold reduceBounds at h
    split at h
    · simp at h
    · simp only [Except.error.injEq] at h
      rw [← h]
      simp
  | cons l ls ih =>
    intro k m0 b0 m h
    unfold reduceBounds at h
    split at h
    · split at h
      · exact ih _ _ _ _ h
      · simp only [Except.error.injEq] at h
        rw [← h]
        simp
    · exact ih _ _ _ _ h

theorem allreduceReduce_aligned (reducer : ReduceFunction) (tn T B0 : Nat)
    (parent_index : Int) (buf0 up : List Nat) (s s' : AllreduceState) (e : Exit)
    (el : Option Nat) (hB : tn ∣ B0)
    (hinv : AllreduceInv reducer tn T B0 parent_index buf0 up s)
    (h : allreduceReduce reducer parent_index tn T s = Step.stop e el s') :
    e ≠ Exit.aborted AssertMsg.allreduce_size_check := by
  unfold allreduceReduce at h
  by_cases hcnd : s.links.length > (if parent_index ≠ -1 then 1 else 0)
  · rw [if_pos hcnd] at h
    split at h
    · rename_i m hb
      simp only [Step.stop.injEq] at h
      rw [← h.1]
      intro hh
      simp only [Exit.aborted.injEq] at hh
      exact reduceBounds_error _ _ _ _ _ _ hb hh
    · rename_i m B hb
      dsimp only at h
      obtain ⟨hB0, _, hBB, _⟩ := reduceBounds_ok parent_index s.links 0 T 0 m B hb
      have hBeq : B = B0 := by
        rcases hBB with h0 | ⟨i, l, hl, hne, hbs⟩
        · exact absurd h0.symm hB0
        · simp only [Nat.zero_add] at hne
          rw [← hbs]
          exact (hinv.childs i l hl hne).bsize
      subst hBeq
      split at h
      · simp at h
      · rename_i heq
        exact absurd heq (reduceLoop_aligned reducer tn B (m / tn * tn) _ hB
          (Dvd.intro_left _ rfl) _ _ _ _ _ _ _ hinv.aligned)
      · simp at h
  · rw [if_neg hcnd] at h
    simp at h

theorem allreduceRecvDown_exit (p : Nat) (selecter : SelectHelper) (w : Wake)
    (total_size : Nat) (s s' : AllreduceState) (e : Exit) (el : Option Nat)
    (h : allreduceRecvDown p selecter w total_size s = Step.stop e el s') :
    e ≠ Exit.aborted AssertMsg.allreduce_size_check := by
  rcases allreduceRecvDown_stop _ _ _ _ _ _ _ _ h with ⟨_, _⟩ | ⟨he, _⟩ | ⟨he, _⟩
  · unfold allreduceRecvDown at h
    by_cases hc : selecter.CheckRead w p = true ∧ total_size > s.size_down_in
    · rw [if_pos hc] at h
      cases hp : s.links[p]? with
      | none => rw [hp] at h; simp at h
      | some pl =>
        rw [hp] at h
        dsimp only at h
        cases hs : (w p).recv with
        | data bytes =>
          rw [hs] at h
          dsimp only at h
          split at h
          · simp only [Step.stop.injEq] at h
            rw [← h.1]; simp
          · split at h
            · simp at h
            · simp only [Step.stop.injEq] at h
              rw [← h.1]; simp
        | error e0 =>
          rw [hs] at h
          dsimp only at h
          split at h
          · simp only [Step.stop.injEq] at h
            rw [← h.1]; simp
          · simp at h
    · rw [if_neg hc] at h
      simp at h
  · rw [he]; simp
  · rw [he]; simp

theorem allreduceBody_aligned (reducer : ReduceFunction) (tn T B0 : Nat) (parent_index : Int)
    (buf0 up : List Nat) (selecter : SelectHelper) (w : Wake) (s s' : AllreduceState)
    (e : Exit) (el : Option Nat) (hB : tn ∣ B0)
    (hinv : AllreduceInv reducer tn T B0 parent_index buf0 up s)
    (h : allreduceBody reducer parent_index tn T selecter w s = Step.stop e el s') :
    e ≠ Exit.aborted AssertMsg.allreduce_size_check := by
  unfold allreduceBody at h
  split at h
  · simp only [Step.stop.injEq] at h
    rw [← h.1]; simp
  · rcases andThen_stop _ _ _ _ _ h with h1 | ⟨s1, h1, h2⟩
    · obtain ⟨i, ret, _, he, _, _⟩ := afterLinks_stop _ _ _ _ _ h1
      rw [he]; simp
    · obtain ⟨_, hs1⟩ := afterLinks_next _ _ _ h1
      have hinv1 : AllreduceInv reducer tn T B0 parent_index buf0 up s1 := by
        rw [hs1]
        exact allreduceReadChilds_inv _ _ _ _ _ _ _ selecter w s _ hinv rfl rfl rfl rfl rfl
      rcases andThen_stop _ _ _ _ _ h2 with h3 | ⟨s2, _, h4⟩
      · exact allreduceReduce_aligned _ _ _ _ _ _ _ _ _ _ _ hB hinv1 h3
      · unfold allreduceParentAndDown at h4
        rcases andThen_stop _ _ _ _ _ h4 with h5 | ⟨s3, _, h6⟩
        · split at h5
          · rcases andThen_stop _ _ _ _ _ h5 with h7 | ⟨s4, _, h8⟩
            · obtain ⟨_, _, r, hr, _, _⟩ := allreduceSendUp_stop _ _ _ _ _ _ h7
              rw [hr]; simp
            · exact allreduceRecvDown_exit _ _ _ _ _ _ _ _ h8
          · simp at h5
        · obtain ⟨i, ret, _, he, _, _⟩ := afterLinks_stop _ _ _ _ _ h6
          rw [he]; simp

theorem allreduceLoop_aligned (reducer : ReduceFunction) (tn T B0 : Nat) (parent_index : Int)
    (buf0 : List Nat) (hB : tn ∣ B0) :
    ∀ (env : List Wake) (s s' : AllreduceState) (e : Exit) (el : Option Nat) (up : List Nat),
      AllreduceInv reducer tn T B0 parent_index buf0 up s →
      allreduceLoop reducer parent_index tn T env s = some (e, el, s') →
      e ≠ Exit.aborted AssertMsg.allreduce_size_check := by
  intro env
  induction env with
  | nil =>
    intro s s' e el up _ h
    unfold allreduceLoop at h
    split at h
    · simp only [Option.some.injEq, Prod.mk.injEq] at h
      rw [← h.1]; simp
    · simp at h
  | cons w ws ih =>
    intro s s' e el up hinv h
    unfold allreduceLoop at h
    split at h
    · simp only [Option.some.injEq, Prod.mk.injEq] at h
      rw [← h.1]; simp
    · split at h
      · rename_i s1 heq
        obtain ⟨up1, hinv1⟩ := allreduceBody_inv _ _ _ _ _ _ _ _ _ _ _ hinv heq
        exact ih s1 s' e el up1 hinv1 h
      · rename_i e1 el1 s1 heq
        simp only [Option.some.injEq, Prod.mk.injEq] at h
        rw [← h.1]
        exact allreduceBody_aligned _ _ _ _ _ _ _ _ _ _ _ _ _ hB hinv heq
      · simp at h

/-- C13: the element alignment of the reduction. For a call of `TryAllreduce` on a buffer of
`type_nbytes * count < 2^64` bytes with `parent_index` either -1 or a position of
`tree_links`, ring buffers whose size is a multiple of `type_nbytes`, and every environment
(every pattern of partial reads): `size_up_reduce` is a multiple of `type_nbytes` at the top
of every iteration of the main loop; no iteration started there, whatever the wake, ends in
the failure of the check "Allreduce: size check" that guards every call of the reducer; and
the call never ends with that failure. -/
theorem TryAllreduce_aligned (ring_size : Nat → Nat → Nat → Nat) (eng : AllreduceBase)
    (sendrecvbuf : List Nat) (type_nbytes count : Nat) (reducer : ReduceFunction)
    (exec : Option PreprocLoopExecutor) (env : List Wake)
    (h64 : type_nbytes * count < 2 ^ 64)
    (hpi : eng.parent_index = -1 ∨
      (0 ≤ eng.parent_index ∧ eng.parent_index.toNat < eng.tree_links.length))
    (hbuf : type_nbytes * count ≤ sendrecvbuf.length)
    (hring : type_nbytes ∣ ring_size type_nbytes count eng.reduce_buffer_size) :
    (∀ s ∈ TryAllreduce_tops ring_size eng sendrecvbuf type_nbytes count reducer exec env,
      type_nbytes ∣ s.size_up_reduce ∧
      ∀ (selecter : SelectHelper) (w : Wake) (e : Exit) (el : Option Nat)
        (s' : AllreduceState),
        allreduceBody reducer eng.parent_index type_nbytes (type_nbytes * count) selecter w s =
          Step.stop e el s' →
        e ≠ Exit.aborted AssertMsg.allreduce_size_check) ∧
    (∀ res : CallResult,
      TryAllreduce ring_size eng sendrecvbuf type_nbytes count reducer exec env = some res →
      res.exit ≠ Exit.aborted AssertMsg.allreduce_size_check) := by
  constructor
  · intro s hs
    obtain ⟨up, hinv⟩ := (TryAllreduce_tops_inv ring_size eng sendrecvbuf type_nbytes count
      reducer exec env h64 hpi hbuf).1 s hs
    exact ⟨hinv.aligned, fun selecter w e el s' h =>
      allreduceBody_aligned _ _ _ _ _ _ _ _ _ _ _ _ _ hring hinv h⟩
  · intro res hrun
    unfold TryAllreduce at hrun
    by_cases h0 : eng.tree_links.length = 0 ∨ count = 0
    · rw [if_pos h0] at hrun
      simp only [Option.some.injEq] at hrun
      rw [← hrun]
      simp
    · rw [if_neg h0, Nat.mod_eq_of_lt h64] at hrun
      dsimp only at hrun
      have hlinks : eng.tree_links ≠ [] := by
        intro hnil
        exact h0 (Or.inl (by rw [hnil]; rfl))
      split at hrun
      · simp at hrun
      · rename_i e el s heq
        simp only [Option.some.injEq] at hrun
        rw [← hrun]
        exact allreduceLoop_aligned reducer type_nbytes (type_nbytes * count)
          (ring_size type_nbytes count eng.reduce_buffer_size) eng.parent_index sendrecvbuf
          hring env _ s e el _
          (AllreduceInv_init ring_size reducer eng sendrecvbuf type_nbytes count
            (type_nbytes * count) exec hlinks hpi hbuf (Dvd.intro _ rfl)) heq

/-- C13 at a concrete run: the root of a cohort of two, two elements of two bytes, ring
buffers of four bytes, the child delivering 1, 2 and 1 bytes: `size_up_reduce` is 0, 0, 2
and 4 at the tops of the iterations and the call returns `kSuccess`. -/
theorem TryAllreduce_aligned_witness :
    2 ∣ (fun (_ _ _ : Nat) => 4) 2 2 (engineWith 0 2 (-1) 8 [freshLink 1]).reduce_buffer_size ∧
    (TryAllreduce_tops (fun _ _ _ => 4) (engineWith 0 2 (-1) 8 [freshLink 1]) [5, 2, 9, 7] 2 2
      minReducer none partialEnv).map cursorsOf =
      [((0, 0, 0), [(0, 0, 4)]), ((0, 0, 0), [(0, 1, 4)]), ((2, 2, 2), [(2, 3, 4)]),
        ((4, 4, 4), [(4, 4, 4)])] ∧
    (TryAllreduce (fun _ _ _ => 4) (engineWith 0 2 (-1) 8 [freshLink 1]) [5, 2, 9, 7] 2 2
      minReducer none partialEnv).map (fun r => (r.exit, r.sendrecvbuf)) =
      some (Exit.returned ReturnType.kSuccess, [3, 2, 1, 7]) ∧
    ∀ s ∈ TryAllreduce_tops (fun _ _ _ => 4) (engineWith 0 2 (-1) 8 [freshLink 1])
        [5, 2, 9, 7] 2 2 minReducer none partialEnv,
      2 ∣ s.size_up_reduce :=
  ⟨by decide, by rfl, by rfl,
    fun s hs =>
      ((TryAllreduce_aligned (fun _ _ _ => 4) (engineWith 0 2 (-1) 8 [freshLink 1])
        [5, 2, 9, 7] 2 2 minReducer none partialEnv (by norm_num) (Or.inl rfl) (by decide)
        (by decide)).1 s hs).1⟩

/-! ### C14: the rounds of the reduction -/

theorem reduceLoop_done (reducer : ReduceFunction) (tn B M : Nat) (childs : List LinkRecord)
    (fuel : Nat) (buf : List Nat) (R calls : Nat) (h : M ≤ R) :
    reduceLoop reducer tn B M childs fuel (buf, R, calls) = Step.next (buf, R, calls) := by
  cases fuel with
  | zero =>
    unfold reduceLoop
    rw [if_neg (by omega)]
  | succ fuel =>
    unfold reduceLoop
    rw [if_neg (by omega)]

theorem reduceLoop_round (reducer : ReduceFunction) (tn B M : Nat) (childs : List LinkRecord)
    (fuel : Nat) (buf : List Nat) (R calls : Nat) (h : R < M) :
    reduceLoop reducer tn B M childs (fuel + 1) (buf, R, calls) =
      if min (B - R % B) (M - R) % tn = 0 then
        reduceLoop reducer tn B M childs fuel
          (reduceRound reducer tn childs (R % B) (min (B - R % B) (M - R)) (buf, R, calls))
      else Step.stop (Exit.aborted AssertMsg.allreduce_size_check) none (buf, R, calls) := by
  rw [reduceLoop]
  rw [if_pos h]
  rfl

theorem reduceLoop_two_rounds (reducer : ReduceFunction) (tn B M : Nat)
    (childs : List LinkRecord) (buf : List Nat) (R calls n1 n2 fuel : Nat)
    (hB : 0 < B) (hM : M ≤ R + B) (hn1 : n1 = min (B - R % B) (M - R))
    (hn2 : n2 = M - (R + n1)) (hfuel : M - R ≤ fuel ∨ 2 ≤ fuel) :
    R % B + n1 ≤ B ∧
    (R + n1 < M → R % B + n1 = B ∧ (R + n1) % B = 0 ∧ n2 ≤ B ∧ R + n1 + n2 = M) ∧
    reduceLoop reducer tn B M childs fuel (buf, R, calls) =
      if M ≤ R then Step.next (buf, R, calls)
      else if n1 % tn ≠ 0 then
        Step.stop (Exit.aborted AssertMsg.allreduce_size_check) none (buf, R, calls)
      else if M ≤ R + n1 then
        Step.next (reduceRound reducer tn childs (R % B) n1 (buf, R, calls))
      else if n2 % tn ≠ 0 then
        Step.stop (Exit.aborted AssertMsg.allreduce_size_check) none
          (reduceRound reducer tn childs (R % B) n1 (buf, R, calls))
      else
        Step.next (reduceRound reducer tn childs 0 n2
          (reduceRound reducer tn childs (R % B) n1 (buf, R, calls))) := by
  have hmod : R % B < B := Nat.mod_lt R hB
  have hfirst : R % B + n1 ≤ B := by
    rw [hn1]
    have := Nat.min_le_left (B - R % B) (M - R)
    omega
  have hsecond : R + n1 < M →
      R % B + n1 = B ∧ (R + n1) % B = 0 ∧ n2 ≤ B ∧ R + n1 + n2 = M := by
    intro hlt
    have hn1eq : n1 = B - R % B := by
      rw [hn1]
      rcases Nat.le_total (B - R % B) (M - R) with hle | hle
      · exact Nat.min_eq_left hle
      · have := Nat.min_eq_right hle
        omega
    have hsum : R % B + n1 = B := by omega
    have hz : (R + n1) % B = 0 := by
      have hdm := Nat.div_add_mod R B
      have : R + n1 = B * (R / B + 1) := by
        rw [Nat.mul_add, Nat.mul_one]
        omega
      rw [this]
      exact Nat.mul_mod_right B _
    exact ⟨hsum, hz, by omega, by omega⟩
  refine ⟨hfirst, hsecond, ?_⟩
  by_cases h0 : M ≤ R
  · rw [if_pos h0]
    exact reduceLoop_done _ _ _ _ _ _ _ _ _ h0
  · rw [if_neg h0]
    have hRM : R < M := by omega
    have hn1pos : 0 < n1 := by
      rw [hn1]
      exact Nat.lt_min.mpr ⟨by omega, by omega⟩
    obtain ⟨f, hf⟩ : ∃ f, fuel = f + 1 := ⟨fuel - 1, by omega⟩
    subst hf
    rw [reduceLoop_round _ _ _ _ _ _ _ _ _ hRM, ← hn1]
    by_cases h1 : n1 % tn ≠ 0
    · rw [if_pos h1, if_neg h1]
    · rw [if_neg h1, if_pos (by simpa using h1)]
      by_cases h2 : M ≤ R + n1
      · rw [if_pos h2]
        exact reduceLoop_done _ _ _ _ _ _ _ _ _ h2
      · rw [if_neg h2]
        have hlt : R + n1 < M := by omega
        obtain ⟨hsum, hz, hn2B, hend⟩ := hsecond hlt
        obtain ⟨g, hg⟩ : ∃ g, f = g + 1 := ⟨f - 1, by omega⟩
        subst hg
        have hround : reduceRound reducer tn childs (R % B) n1 (buf, R, calls) =
            ((reduceRound reducer tn childs (R % B) n1 (buf, R, calls)).1, R + n1,
              calls + childs.length) := rfl
        rw [hround, reduceLoop_round _ _ _ _ _ _ _ _ _ hlt, hz]
        have hmin : min (B - 0) (M - (R + n1)) = n2 := by
          rw [hn2]
          exact Nat.min_eq_right (by omega)
        rw [hmin]
        by_cases h3 : n2 % tn ≠ 0
        · rw [if_pos h3, if_neg h3]
        · rw [if_neg h3, if_pos (by simpa using h3)]
          exact reduceLoop_done _ _ _ _ _ _ _ _ _ (by
            show M ≤ R + n1 + n2
            omega)

theorem childLinks_of_getElem (parent_index : Int) :
    ∀ (links : List LinkRecord) (k i : Nat) (l : LinkRecord), links[i]? = some l →
      ((k + i : Nat) : Int) ≠ parent_index → l ∈ childLinks parent_index k links := by
  intro links
  induction links with
  | nil =>
    intro k i l h
    simp at h
  | cons c cs ih =>
    intro k i l h hne
    unfold childLinks
    cases i with
    | zero =>
      simp only [List.getElem?_cons_zero, Option.some.injEq] at h
      subst h
      rw [if_pos (by simpa using hne)]
      exact List.mem_cons_self _ _
    | succ j =>
      simp only [List.getElem?_cons_succ] at h
      have hmem := ih (k + 1) j l h (by
        have : k + 1 + j = k + (j + 1) := by omega
        rw [this]
        exact hne)
      split
      · exact List.mem_cons_of_mem _ hmem
      · exact hmem

/-- C14: the rounds of the reduction in one iteration of the main loop of `TryAllreduce`
(lines 423-457), in a worker with children whose checks of lines 431 and 436 pass with the
bound `m` and the ring-buffer size `B`. Given `size_read <= size_up_out + buffer_size` on
every child link and `size_up_out <= size_up_reduce`, and with `M = m / type_nbytes *
type_nbytes` (the rounded `max_reduce`), `R` the old `size_up_reduce`, `n1 = min (B - R % B)
(M - R)` and `n2 = M - (R + n1)`: the loop `while (size_up_reduce < max_reduce)` is no round,
the round on the segment `[R % B, R % B + n1)`, or that round followed by the round on
`[0, n2)`, unless the check "Allreduce: size check" aborts the call in one of them; both
segments lie inside the ring buffer, and when there is a second one the first ends at `B`;
and when the function goes on, `size_up_reduce == max(R, M)`. -/
theorem allreduceReduce_two_rounds (reducer : ReduceFunction) (parent_index : Int)
    (type_nbytes total_size : Nat) (s : AllreduceState) (m B : Nat)
    (hgap : ∀ l ∈ childLinks parent_index 0 s.links,
      l.size_read ≤ s.size_up_out + l.buffer_size)
    (hout : s.size_up_out ≤ s.size_up_reduce)
    (hchild : s.links.length > (if parent_index ≠ -1 then 1 else 0))
    (hb : reduceBounds parent_index 0 s.links total_size 0 = Except.ok (m, B)) :
    let M := m / type_nbytes * type_nbytes
    let R := s.size_up_reduce
    let childs := childLinks parent_index 0 s.links
    let n1 := min (B - R % B) (M - R)
    let n2 := M - (R + n1)
    let st1 := reduceRound reducer type_nbytes childs (R % B) n1
      (s.sendrecvbuf, R, s.reducer_calls)
    let st2 := reduceRound reducer type_nbytes childs 0 n2 st1
    let out := fun (st : List Nat × Nat × Nat) =>
      ({ s with sendrecvbuf := st.1, size_up_reduce := st.2.1, reducer_calls := st.2.2 } :
        AllreduceState)
    R % B + n1 ≤ B ∧
    (R + n1 < M → R % B + n1 = B ∧ (R + n1) % B = 0 ∧ 0 + n2 ≤ B) ∧
    allreduceReduce reducer parent_index type_nbytes total_size s =
      (if M ≤ R then Step.next s
      else if n1 % type_nbytes ≠ 0 then
        Step.stop (Exit.aborted AssertMsg.allreduce_size_check) none s
      else if M ≤ R + n1 then Step.next (out st1)
      else if n2 % type_nbytes ≠ 0 then
        Step.stop (Exit.aborted AssertMsg.allreduce_size_check) none (out st1)
      else Step.next (out st2)) ∧
    (∀ s', allreduceReduce reducer parent_index type_nbytes total_size s = Step.next s' →
      s'.size_up_reduce = max R M) := by
  intro M R childs n1 n2 st1 st2 out
  obtain ⟨hB0, _, hBB, hmin⟩ := reduceBounds_ok parent_index s.links 0 total_size 0 m B hb
  have hMm : M ≤ m := Nat.div_mul_le_self m type_nbytes
  have hMR : M ≤ R + B := by
    rcases hBB with h0 | ⟨i, l, hl, hne, hbs⟩
    · exact absurd h0.symm hB0
    · have h1 := hmin i l hl hne
      have h2 := hgap l (childLinks_of_getElem parent_index s.links 0 i l hl hne)
      rw [hbs] at h2
      show M ≤ s.size_up_reduce + B
      omega
  obtain ⟨hfirst, hsecond, hloop⟩ := reduceLoop_two_rounds reducer type_nbytes B M childs
    s.sendrecvbuf R s.reducer_calls n1 n2 (M - R) (Nat.pos_of_ne_zero hB0) hMR rfl rfl
    (Or.inl (le_refl _))
  have hrun : allreduceReduce reducer parent_index type_nbytes total_size s =
      (if M ≤ R then Step.next s
      else if n1 % type_nbytes ≠ 0 then
        Step.stop (Exit.aborted AssertMsg.allreduce_size_check) none s
      else if M ≤ R + n1 then Step.next (out st1)
      else if n2 % type_nbytes ≠ 0 then
        Step.stop (Exit.aborted AssertMsg.allreduce_size_check) none (out st1)
      else Step.next (out st2)) := by
    unfold allreduceReduce
    rw [if_pos hchild, hb]
    dsimp only
    rw [hloop]
    by_cases h0 : M ≤ R
    · rw [if_pos h0, if_pos h0]
    · rw [if_neg h0, if_neg h0]
      by_cases h1 : n1 % type_nbytes ≠ 0
      · rw [if_pos h1, if_pos h1]
      · rw [if_neg h1, if_neg h1]
        by_cases h2 : M ≤ R + n1
        · rw [if_pos h2, if_pos h2]
        · rw [if_neg h2, if_neg h2]
          by_cases h3 : n2 % type_nbytes ≠ 0
          · rw [if_pos h3, if_pos h3]
          · rw [if_neg h3, if_neg h3]
  refine ⟨hfirst, ?_, hrun, ?_⟩
  · intro hlt
    obtain ⟨a, b, c, _⟩ := hsecond hlt
    exact ⟨a, b, by omega⟩
  · intro s' hs'
    rw [hrun] at hs'
    have hn1le : n1 ≤ M - R := Nat.min_le_right _ _
    by_cases h0 : M ≤ R
    · rw [if_pos h0] at hs'
      simp only [Step.next.injEq] at hs'
      rw [← hs']
      exact (Nat.max_eq_left h0).symm
    · rw [if_neg h0] at hs'
      by_cases h1 : n1 % type_nbytes ≠ 0
      · rw [if_pos h1] at hs'
        simp at hs'
      · rw [if_neg h1] at hs'
        by_cases h2 : M ≤ R + n1
        · rw [if_pos h2] at hs'
          simp only [Step.next.injEq] at hs'
          rw [← hs']
          show R + n1 = max R M
          rw [Nat.max_eq_right (by omega)]
          omega
        · rw [if_neg h2] at hs'
          obtain ⟨_, _, _, hend⟩ := hsecond (by omega)
          by_cases h3 : n2 % type_nbytes ≠ 0
          · rw [if_pos h3] at hs'
            simp at hs'
          · rw [if_neg h3] at hs'
            simp only [Step.next.injEq] at hs'
            rw [← hs']
            show R + n1 + n2 = max R M
            rw [Nat.max_eq_right (by omega)]
            exact hend

/-- C14 at a concrete state: `size_up_reduce = 2`, six bytes read into ring buffers of four
bytes. The loop takes the segment `[2, 4)` of the ring buffer and then the segment `[0, 2)`,
and leaves `size_up_reduce = 6 = max_reduce`. -/
theorem allreduceReduce_two_rounds_witness :
    reduceBounds (-1) 0 wrapState.links 8 0 = Except.ok (6, 4) ∧
    allreduceReduce minReducer (-1) 2 8 wrapState =
      Step.next { wrapState with
        sendrecvbuf := [1, 2, 3, 4, 5, 6, 7, 7], size_up_reduce := 6, reducer_calls := 3 } ∧
    (6 : Nat) = max wrapState.size_up_reduce (6 / 2 * 2) :=
  ⟨by rfl, by rfl,
    (allreduceReduce_two_rounds minReducer (-1) 2 8 wrapState 6 4 (by decide) (by decide)
      (by decide) (by rfl)).2.2.2
      { wrapState with
        sendrecvbuf := [1, 2, 3, 4, 5, 6, 7, 7], size_up_reduce := 6, reducer_calls := 3 }
      (by rfl)⟩

end engine
end rabit
